import Mathlib

/-!
# Convex hull demo: brute force and monotone chain

A shallow embedding of the geometry core of `main.cpp` (`cross`,
`HullWindow::computeSlowHull`, `HullWindow::computeFastHull`) and the
properties proved about it.

Modelling conventions.

* A `double` is the rational number it stands for.  Every arithmetic operation
  of `cross` is followed by the rounding `fl` of IEEE 754 binary64 (round to
  nearest, ties to even, subnormals included; each operation is rounded on its
  own, no fused multiply-add), so `cross` is the value the compiled expression
  returns, not the exact value `crossExact` of the formula.  Rounding to
  infinity is not modelled: `fl` has no largest exponent, so `cross` is the
  computed value as long as no operation reaches `2^1024`.  The statements that
  relate `cross` to the exact geometry are made for coordinates of magnitude
  below `2^200`, where that is the case.
* The literal `1e-9` is the `double` nearest to `10⁻⁹` (`eps`).
* The counter is an `int`: an integer kept in `[-2^31, 2^31)` by `wrapInt` at
  every `count++` (two's-complement wrap-around).  Indices are natural numbers.
* `std::set<Edge>` is a `Finset Edge`.
* The `std::vector<int> hull` used as a stack is a list whose head is the back
  of the vector: `push_back` is cons, `pop_back` is tail, `hull[size-1]` is the
  head and `hull[size-2]` the second entry.  The vector, front first, is the
  reverse of that list.
* `std::sort` is an insertion sort with the comparator of the source
  (`sortIdx`).  The standard fixes the result only up to the order of entries
  the comparator does not separate (coincident points), so the general results
  about the chain are also proved for every index order that satisfies the
  contract of `std::sort` (`SortedIdx`).
* Every subscript and every `pop_back` is checked: a function returns `none`
  when the source would index out of bounds or pop an empty vector.
-/

namespace ConvexHull

/-! ## Data model -/

/-- A `QPointF`: a pair of coordinates. -/
@[ext] structure QPointF where
  x : ℚ
  y : ℚ
deriving DecidableEq

/-- The `Edge` struct: a pair of point indices. -/
structure Edge where
  i : ℕ
  j : ℕ
deriving DecidableEq

/-- The state of a `DrawCanvas` that the hull functions read and write. -/
structure DrawCanvas where
  points : List QPointF
  edges : Finset Edge
  iterationCount : ℤ

/-! ## Machine arithmetic -/

/-- Halving count: `⌊log₂ n⌋` for `n ≥ 1`, when the first argument (a bound on
the number of halvings) is at least `n`. -/
def log2Aux : ℕ → ℕ → ℕ
  | 0, _ => 0
  | f + 1, n => if n < 2 then 0 else log2Aux f (n / 2) + 1

/-- The value `⌊log₂ n⌋` for `n ≥ 1`. -/
def ilog2 (n : ℕ) : ℕ := log2Aux n n

/-- The binary exponent `⌊log₂ |q|⌋` of `q ≠ 0`. -/
def expOf (q : ℚ) : ℤ :=
  if 2 ^ ilog2 q.num.natAbs * q.den ≤ q.num.natAbs * 2 ^ ilog2 q.den then
    (ilog2 q.num.natAbs : ℤ) - (ilog2 q.den : ℤ)
  else (ilog2 q.num.natAbs : ℤ) - (ilog2 q.den : ℤ) - 1

/-- The power `2 ^ u` for an integer exponent. -/
def pow2 (u : ℤ) : ℚ :=
  if 0 ≤ u then ((2 ^ u.toNat : ℕ) : ℚ) else 1 / ((2 ^ (-u).toNat : ℕ) : ℚ)

/-- Rounding to the nearest integer, ties to even. -/
def roundEven (x : ℚ) : ℤ :=
  if x - ⌊x⌋ < 1 / 2 then ⌊x⌋
  else if 1 / 2 < x - ⌊x⌋ then ⌊x⌋ + 1
  else if ⌊x⌋ % 2 = 0 then ⌊x⌋ else ⌊x⌋ + 1

/-- Rounding of an exact result to `double`: 53 significant bits, round to
nearest, ties to even; below `2^-1022` the spacing stays `2^-1074`
(subnormals).  There is no largest exponent. -/
def fl (q : ℚ) : ℚ :=
  if q = 0 then 0
  else roundEven (q / pow2 (max (expOf q) (-1022) - 52)) * pow2 (max (expOf q) (-1022) - 52)

/-- The value an `int` holds after a result `z` is stored in it. -/
def wrapInt (z : ℤ) : ℤ := (z + 2147483648) % 4294967296 - 2147483648

/-- The function `cross` of the source: two subtractions, a product, two
subtractions, a product, and the final subtraction, each rounded. -/
def cross (a b c : QPointF) : ℚ :=
  fl (fl (fl (b.x - a.x) * fl (c.y - a.y)) - fl (fl (b.y - a.y) * fl (c.x - a.x)))

/-- The exact value of the expression that `cross` evaluates. -/
def crossExact (a b c : QPointF) : ℚ :=
  (b.x - a.x) * (c.y - a.y) - (b.y - a.y) * (c.x - a.x)

/-- The literal `1e-9` of `computeSlowHull`: the `double` nearest to `10⁻⁹`. -/
def eps : ℚ := 4835703278458517 / 4835703278458516698824704

/-! ## Brute force: `computeSlowHull` -/

/-- The `k` loop of `computeSlowHull` for a fixed pair `(i, j)`, over the
remaining values of `k`.  The state is `(pos, neg, count)`; the `break` returns
at once. -/
def slowInner (pts : List QPointF) (i j : ℕ) :
    List ℕ → Bool → Bool → ℤ → Option (Bool × Bool × ℤ)
  | [], pos, neg, count => some (pos, neg, count)
  | k :: ks, pos, neg, count =>
    if k = i ∨ k = j then slowInner pts i j ks pos neg (wrapInt (count + 1))
    else
      match pts[i]?, pts[j]?, pts[k]? with
      | some pi, some pj, some pk =>
        let s := cross pi pj pk
        let pos1 := if s > eps then true else pos
        let neg1 := if s > eps then neg else if s < -eps then true else neg
        if pos1 && neg1 then some (pos1, neg1, wrapInt (count + 1))
        else slowInner pts i j ks pos1 neg1 (wrapInt (count + 1))
      | _, _, _ => none

/-- The `j` loop of `computeSlowHull` for a fixed `i`, over the remaining
values of `j`. -/
def slowPairs (pts : List QPointF) (i : ℕ) :
    List ℕ → Finset Edge → ℤ → Option (Finset Edge × ℤ)
  | [], edges, count => some (edges, count)
  | j :: js, edges, count =>
    match slowInner pts i j (List.range pts.length) false false count with
    | none => none
    | some (pos, neg, count1) =>
      slowPairs pts i js
        (if !(pos && neg) then insert ⟨min i j, max i j⟩ edges else edges) count1

/-- The `i` loop of `computeSlowHull`, over the remaining values of `i`. -/
def slowOuter (pts : List QPointF) :
    List ℕ → Finset Edge → ℤ → Option (Finset Edge × ℤ)
  | [], edges, count => some (edges, count)
  | i :: is, edges, count =>
    match slowPairs pts i (List.range' (i + 1) (pts.length - (i + 1))) edges count with
    | none => none
    | some (edges1, count1) => slowOuter pts is edges1 count1

/-- `HullWindow::computeSlowHull` on the state of `slowCanvas`. -/
def computeSlowHull (c : DrawCanvas) : Option DrawCanvas :=
  match slowOuter c.points (List.range c.points.length) c.edges 0 with
  | none => none
  | some (edges, count) => some ⟨c.points, edges, count⟩

/-! ## Monotone chain: `computeFastHull` -/

/-- Total point lookup, used where the index is known to be in range. -/
def pt (pts : List QPointF) (i : ℕ) : QPointF := pts.getD i ⟨0, 0⟩

/-- The comparator passed to `std::sort`. -/
def idxLess (pts : List QPointF) (a b : ℕ) : Bool :=
  if (pt pts a).x = (pt pts b).x then decide ((pt pts a).y < (pt pts b).y)
  else decide ((pt pts a).x < (pt pts b).x)

/-- The call of `std::sort`, as an insertion sort: `a` goes before `b` unless
the comparator puts `b` first. -/
def sortIdx (pts : List QPointF) (idx : List ℕ) : List ℕ :=
  idx.insertionSort (fun a b => idxLess pts b a = false)

/-- The `while` loop of both chain passes, with pop threshold `lim` and
candidate `id`. -/
def popLoop (pts : List QPointF) (lim id : ℕ) : List ℕ → ℤ → Option (List ℕ × ℤ)
  | [], count => if 0 ≥ lim then none else some ([], count)
  | b :: tl, count =>
    if (b :: tl).length ≥ lim then
      match tl with
      | [] => none
      | a :: _ =>
        match pts[a]?, pts[b]?, pts[id]? with
        | some pa, some pb, some pc =>
          if cross pa pb pc ≤ 0 then popLoop pts lim id tl (wrapInt (count + 1))
          else some (b :: tl, count)
        | _, _, _ => none
    else some (b :: tl, count)

/-- One iteration of a chain pass: the `while` loop, the extra count, and the
`push_back`. -/
def chainStep (pts : List QPointF) (lim id : ℕ) (hull : List ℕ) (count : ℤ) :
    Option (List ℕ × ℤ) :=
  match popLoop pts lim id hull count with
  | none => none
  | some (hull1, count1) =>
    some (id :: hull1, if hull1.length ≥ lim then wrapInt (count1 + 1) else count1)

/-- The lower pass `for (int id : idx)`. -/
def lowerChain (pts : List QPointF) : List ℕ → List ℕ → ℤ → Option (List ℕ × ℤ)
  | [], hull, count => some (hull, count)
  | id :: ids, hull, count =>
    match chainStep pts 2 id hull count with
    | none => none
    | some (hull1, count1) => lowerChain pts ids hull1 count1

/-- The upper pass `for (int i = n-2; i >= 0; i--)`, over the remaining values
of `i`. -/
def upperChain (pts : List QPointF) (idx : List ℕ) (t : ℕ) :
    List ℕ → List ℕ → ℤ → Option (List ℕ × ℤ)
  | [], hull, count => some (hull, count)
  | i :: is, hull, count =>
    match idx[i]? with
    | none => none
    | some id =>
      match chainStep pts t id hull count with
      | none => none
      | some (hull1, count1) => upperChain pts idx t is hull1 count1

/-- The edge loop `for (size_t i = 0; i < hull.size(); i++)` over the remaining
values of `i`; `vec` is the hull vector, front first. -/
def emitEdges (vec : List ℕ) : List ℕ → Finset Edge → Option (Finset Edge)
  | [], edges => some edges
  | i :: is, edges =>
    match vec[i]?, vec[(i + 1) % vec.length]? with
    | some a, some b => emitEdges vec is (insert ⟨min a b, max a b⟩ edges)
    | _, _ => none

/-- The hull vertex sequence left after the final `pop_back`, front first,
with the counter, for an already sorted `idx`. -/
def hullFrom (pts : List QPointF) (idx : List ℕ) : Option (List ℕ × ℤ) :=
  match lowerChain pts idx [] 0 with
  | none => none
  | some (lower, count) =>
    match upperChain pts idx (lower.length + 1)
        (List.range (pts.length - 1)).reverse lower count with
    | none => none
    | some ([], _) => none
    | some (_ :: hull, count1) => some (hull.reverse, count1)

/-- The body of `computeFastHull` after the call of `std::sort`. -/
def fastHullFrom (c : DrawCanvas) (idx : List ℕ) : Option DrawCanvas :=
  match hullFrom c.points idx with
  | none => none
  | some (vec, count) =>
    match emitEdges vec (List.range vec.length) c.edges with
    | none => none
    | some edges => some ⟨c.points, edges, count⟩

/-- `HullWindow::computeFastHull` on the state of `fastCanvas`. -/
def computeFastHull (c : DrawCanvas) : Option DrawCanvas :=
  fastHullFrom c (sortIdx c.points (List.range c.points.length))

/-- The point list of the `HullWindow` constructor. -/
def refPoints : List QPointF :=
  [⟨100, 100⟩, ⟨214, 150⟩, ⟨303, 80⟩, ⟨350, 251⟩,
   ⟨200, 300⟩, ⟨150, 250⟩, ⟨200, 360⟩, ⟨120, 336⟩]

/-! ## Predicates used in the statements -/

/-- `c` is on the line through `a` and `b`: the two points coincide, or `c = a + t (b - a)`. -/
def Collinear (a b c : QPointF) : Prop :=
  a = b ∨ ∃ t : ℚ, c.x = a.x + t * (b.x - a.x) ∧ c.y = a.y + t * (b.y - a.y)

/-- `c` is strictly left of the directed line from `a` to `b`: `a ≠ b` and
`c = a + t (b - a) + s n` with `s > 0`, where `n` is `b - a` turned a quarter
turn counter-clockwise. -/
def StrictlyLeft (a b c : QPointF) : Prop :=
  a ≠ b ∧ ∃ t s : ℚ, 0 < s ∧
    c.x = a.x + t * (b.x - a.x) - s * (b.y - a.y) ∧
    c.y = a.y + t * (b.y - a.y) + s * (b.x - a.x)

/-- `c` is strictly right of the directed line from `a` to `b`. -/
def StrictlyRight (a b c : QPointF) : Prop :=
  a ≠ b ∧ ∃ t s : ℚ, s < 0 ∧
    c.x = a.x + t * (b.x - a.x) - s * (b.y - a.y) ∧
    c.y = a.y + t * (b.y - a.y) + s * (b.x - a.x)

/-- Some `k` in `ks` other than `i`, `j` is classified positive by the brute force. -/
def SeesPos (pts : List QPointF) (i j : ℕ) (ks : List ℕ) : Prop :=
  ∃ k ∈ ks, k ≠ i ∧ k ≠ j ∧ eps < cross (pt pts i) (pt pts j) (pt pts k)

/-- Some `k` in `ks` other than `i`, `j` is classified negative by the brute force. -/
def SeesNeg (pts : List QPointF) (i j : ℕ) (ks : List ℕ) : Prop :=
  ∃ k ∈ ks, k ≠ i ∧ k ≠ j ∧ cross (pt pts i) (pt pts j) (pt pts k) < -eps

/-- The test `computeSlowHull` applies to a pair: `e.i < e.j < n` and the `k`
loop does not see both a positive and a negative point. -/
def SlowEdge (pts : List QPointF) (e : Edge) : Prop :=
  e.i < e.j ∧ e.j < pts.length ∧
    ¬ (SeesPos pts e.i e.j (List.range pts.length) ∧ SeesNeg pts e.i e.j (List.range pts.length))

/-! ## Auxiliary definitions for the analysis of the chain passes -/

/-- A chain pass with an arbitrary pop threshold over a list of candidates
(`lowerChain` is the case `lim = 2`; `upperChain` reads its candidates from
`idx`). -/
def chainRun (pts : List QPointF) (lim : ℕ) : List ℕ → List ℕ → ℤ → Option (List ℕ × ℤ)
  | [], hull, count => some (hull, count)
  | id :: ids, hull, count =>
    match chainStep pts lim id hull count with
    | none => none
    | some (hull1, count1) => chainRun pts lim ids hull1 count1

/-- What the `while` loop with threshold 2 leaves of the stack, as a function of
the point map `P` and of the function `cr` that is used for the turn test
(`cross` for the program, `crossExact` for the geometry). -/
def keep (cr : QPointF → QPointF → QPointF → ℚ) (P : ℕ → QPointF) (id : ℕ) :
    List ℕ → List ℕ
  | [] => []
  | [b] => [b]
  | b :: a :: rest =>
    if cr (P a) (P b) (P id) ≤ 0 then keep cr P id (a :: rest) else b :: a :: rest

/-- The stack after a chain pass with threshold 2 over `ids`, started from
`hull`. -/
def scan (cr : QPointF → QPointF → QPointF → ℚ) (P : ℕ → QPointF) :
    List ℕ → List ℕ → List ℕ
  | [], hull => hull
  | id :: ids, hull => scan cr P ids (id :: keep cr P id hull)

/-- Lexicographic order on points: by `x`, then by `y`. -/
def lexLe (p q : QPointF) : Prop := p.x < q.x ∨ (p.x = q.x ∧ p.y ≤ q.y)

/-- The pair `(a, b)` is read by the edge loop from the hull vector `vec`:
`a = vec[i]` and `b = vec[(i+1) % vec.size()]` for some `i < vec.size()`. -/
def CycPair (vec : List ℕ) (a b : ℕ) : Prop :=
  ∃ i, i < vec.length ∧ vec[i]? = some a ∧ vec[(i + 1) % vec.length]? = some b

/-- The edge `e` is emitted by the edge loop from the hull vector `vec`. -/
def Emitted (vec : List ℕ) (e : Edge) : Prop :=
  ∃ a b, CycPair vec a b ∧ e = ⟨min a b, max a b⟩

/-- No three points with distinct indices are collinear. -/
def NoThreeCollinear (pts : List QPointF) : Prop :=
  ∀ i < pts.length, ∀ j < pts.length, ∀ k < pts.length,
    i ≠ j → i ≠ k → j ≠ k → crossExact (pt pts i) (pt pts j) (pt pts k) ≠ 0

/-- Executable check of `NoThreeCollinear`. -/
def noThreeCollinearCheck (pts : List QPointF) : Bool :=
  (List.range pts.length).all fun i =>
    (List.range pts.length).all fun j =>
      (List.range pts.length).all fun k =>
        decide (i = j) || decide (i = k) || decide (j = k) ||
          decide (crossExact (pt pts i) (pt pts j) (pt pts k) ≠ 0)

/-- Invariant of a chain pass with point map `P` and exact turn tests: `seen` are
the candidates handled so far and `H` is the stack (top first).  `[b, a] <:+: H` says that `b`
sits right above `a`, so `a → b` is an edge of the chain. -/
structure ChainInv (P : ℕ → QPointF) (seen H : List ℕ) : Prop where
  ne : H ≠ []
  sub : H.Sublist seen
  sorted : ∀ b a, [b, a] <:+: H → lexLe (P a) (P b)
  convex : ∀ c b a, [c, b, a] <:+: H → 0 < crossExact (P a) (P b) (P c)
  top : ∀ t, H.head? = some t → ∀ p ∈ seen, lexLe (P p) (P t)
  bottom : ∀ l, H.getLast? = some l → ∀ p ∈ seen, lexLe (P l) (P p)
  left : ∀ b a, [b, a] <:+: H → ∀ p ∈ seen, 0 ≤ crossExact (P a) (P b) (P p)
  flat : ∀ b a, [b, a] <:+: H → P a = P b → ∀ p ∈ seen, P p = P a

/-- The point reflected through the origin; it reverses the lexicographic order
and keeps every `crossExact` value. -/
def negPt (p : QPointF) : QPointF := ⟨-p.x, -p.y⟩

/-- What the contract of `std::sort` says about `idx` after the call: it is a
rearrangement of `0, …, n-1` in which no entry comes after one it is less than
under the comparator. -/
def SortedIdx (pts : List QPointF) (idx : List ℕ) : Prop :=
  idx.Perm (List.range pts.length) ∧ idx.Pairwise (fun a b => lexLe (pt pts a) (pt pts b))

/-- The pair `a → b` is an edge of the lower or of the upper chain that the
program builds from the sorted `idx`: `b` sits right above `a` on the stack of
the lower pass (`scan cross _ idx []`) or on the part of the stack built by the
upper pass (`scan cross _ idx.reverse []`). -/
def ChainEdge (pts : List QPointF) (idx : List ℕ) (a b : ℕ) : Prop :=
  [b, a] <:+: scan cross (pt pts) idx [] ∨ [b, a] <:+: scan cross (pt pts) idx.reverse []

/-- Every three points with distinct indices have an exact value of the `cross`
expression of magnitude above `1e-9`: no three are collinear, with the margin
that `computeSlowHull` needs to see the sign. -/
def Separated (pts : List QPointF) : Prop :=
  ∀ i < pts.length, ∀ j < pts.length, ∀ k < pts.length,
    i ≠ j → i ≠ k → j ≠ k →
      eps < crossExact (pt pts i) (pt pts j) (pt pts k) ∨
        crossExact (pt pts i) (pt pts j) (pt pts k) < -eps

/-- Executable check of `Separated`. -/
def separatedCheck (pts : List QPointF) : Bool :=
  (List.range pts.length).all fun i =>
    (List.range pts.length).all fun j =>
      (List.range pts.length).all fun k =>
        decide (i = j) || decide (i = k) || decide (j = k) ||
          decide (eps < crossExact (pt pts i) (pt pts j) (pt pts k)) ||
          decide (crossExact (pt pts i) (pt pts j) (pt pts k) < -eps)

/-- Four points in general position whose coordinates are so small that every
`cross` value is below `1e-9` (all the values are computed without rounding): a
triangle with legs `2^-20` and a point inside it. -/
def tinyPoints : List QPointF :=
  [⟨0, 0⟩, ⟨1 / 1048576, 0⟩, ⟨0, 1 / 1048576⟩, ⟨1 / 4194304, 1 / 4194304⟩]

/-- Rounding changes the outcome of no test that the program makes on `pts`:
the coordinates are below `2^200` in magnitude (no operation of `cross`
overflows), and for every three points the rounded value `cross` passes each of
the tests `<= 0`, `> 1e-9`, `< -1e-9` exactly when the exact value does. -/
def RoundingSafe (pts : List QPointF) : Prop :=
  (∀ p ∈ pts, |p.x| < 2 ^ 200 ∧ |p.y| < 2 ^ 200) ∧
  ∀ i < pts.length, ∀ j < pts.length, ∀ k < pts.length,
    (cross (pt pts i) (pt pts j) (pt pts k) ≤ 0 ↔
      crossExact (pt pts i) (pt pts j) (pt pts k) ≤ 0) ∧
    (eps < cross (pt pts i) (pt pts j) (pt pts k) ↔
      eps < crossExact (pt pts i) (pt pts j) (pt pts k)) ∧
    (cross (pt pts i) (pt pts j) (pt pts k) < -eps ↔
      crossExact (pt pts i) (pt pts j) (pt pts k) < -eps)

/-- Executable check of `RoundingSafe`. -/
def roundingSafeCheck (pts : List QPointF) : Bool :=
  pts.all (fun p => decide (|p.x| < 2 ^ 200) && decide (|p.y| < 2 ^ 200)) &&
  (List.range pts.length).all fun i =>
    (List.range pts.length).all fun j =>
      (List.range pts.length).all fun k =>
        decide (cross (pt pts i) (pt pts j) (pt pts k) ≤ 0 ↔
          crossExact (pt pts i) (pt pts j) (pt pts k) ≤ 0) &&
        decide (eps < cross (pt pts i) (pt pts j) (pt pts k) ↔
          eps < crossExact (pt pts i) (pt pts j) (pt pts k)) &&
        decide (cross (pt pts i) (pt pts j) (pt pts k) < -eps ↔
          crossExact (pt pts i) (pt pts j) (pt pts k) < -eps)

/-- The point has integer coordinates of magnitude below `2^25`. -/
def SmallInt (p : QPointF) : Prop :=
  ∃ x y : ℤ, p.x = x ∧ p.y = y ∧ |x| < 2 ^ 25 ∧ |y| < 2 ^ 25

/-! ## Definitions for the counting, safety and shape results -/

/-- Four points with a collinear boundary point: `(1,0)` lies on the hull edge
from `(0,0)` to `(2,0)`. -/
def colPoints : List QPointF := [⟨0, 0⟩, ⟨1, 0⟩, ⟨2, 0⟩, ⟨1, 1⟩]

/-- Every coordinate is an integer. -/
def IntegerCoords (pts : List QPointF) : Prop :=
  ∀ p ∈ pts, (∃ a : ℤ, p.x = a) ∧ (∃ b : ℤ, p.y = b)

/-- The stacks that the `while` loop of a chain pass goes through: the stack after
each `pop_back`, in order. -/
def popStates (pts : List QPointF) (lim id : ℕ) : List ℕ → List (List ℕ)
  | [] => []
  | b :: tl =>
    if (b :: tl).length ≥ lim then
      match tl with
      | [] => []
      | a :: _ =>
        match pts[a]?, pts[b]?, pts[id]? with
        | some pa, some pb, some pc =>
          if cross pa pb pc ≤ 0 then tl :: popStates pts lim id tl else []
        | _, _, _ => []
    else []

/-- Every stack that occurs during the upper pass, in order: after each
`pop_back` and after each `push_back`. -/
def upperStates (pts : List QPointF) (idx : List ℕ) (t : ℕ) :
    List ℕ → List ℕ → ℤ → List (List ℕ)
  | [], _, _ => []
  | i :: is, hull, count =>
    match idx[i]? with
    | none => []
    | some id =>
      popStates pts t id hull ++
        match chainStep pts t id hull count with
        | none => []
        | some (hull1, count1) => hull1 :: upperStates pts idx t is hull1 count1

/-- Three points with integer coordinates (consecutive Fibonacci numbers) that are
not collinear and on which the two products of `cross` round to the same
`double`. -/
def fibPoints : List QPointF :=
  [⟨0, 0⟩, ⟨165580141, 267914296⟩, ⟨267914296, 433494437⟩]

/-- Four points with integer coordinates: point `1` is a vertex of the convex hull
(it lies strictly outside the triangle `0, 3, 2`), but the turn test of the upper
pass at `1` rounds to zero. -/
def skewPoints : List QPointF :=
  [⟨-3, -2⟩, ⟨28725174, 49706430⟩, ⟨94870490, 164165173⟩, ⟨0, -1⟩]

/-- The three points written `(3.9, 3.3)`, `(6.0, 6.0)`, `(8.1, 8.7)` in a source
file. -/
def driftPoints2 : List QPointF :=
  [⟨fl (39 / 10), fl (33 / 10)⟩, ⟨6, 6⟩, ⟨fl (81 / 10), fl (87 / 10)⟩]

instance instDecidableSeesPos (pts : List QPointF) (i j : ℕ) (ks : List ℕ) :
    Decidable (SeesPos pts i j ks) := by
  unfold SeesPos
  infer_instance

instance instDecidableSeesNeg (pts : List QPointF) (i j : ℕ) (ks : List ℕ) :
    Decidable (SeesNeg pts i j ks) := by
  unfold SeesNeg
  infer_instance

/-- The number of iterations of the `k` loop that are executed for the pair
`(i, j)`: iteration `k` is executed, and counted, exactly when the values below
`k` have not shown both a positive and a negative point, that is, when no
`break` came before it. -/
def pairIters (pts : List QPointF) (i j : ℕ) : ℕ :=
  ((List.range pts.length).filter
    (fun k => decide (¬ (SeesPos pts i j (List.range k) ∧ SeesNeg pts i j (List.range k))))).length

/-- The number of executed iterations of the `k` loop over all pairs
`i < j < n`. -/
def slowIters (pts : List QPointF) : ℕ :=
  ((List.range pts.length).map (fun i =>
    ((List.range' (i + 1) (pts.length - (i + 1))).map (fun j => pairIters pts i j)).sum)).sum

/-! ## Rounding -/

theorem log2Aux_le (k : ℕ) : ∀ (f n : ℕ), n < 2 ^ (k + 1) → log2Aux f n ≤ k := by
  induction k with
  | zero =>
    intro f n hn
    cases f with
    | zero => simp [log2Aux]
    | succ f =>
      rw [log2Aux, if_pos (by simpa using hn)]
  | succ k ih =>
    intro f n hn
    cases f with
    | zero => simp [log2Aux]
    | succ f =>
      rw [log2Aux]
      split
      · omega
      · have : n / 2 < 2 ^ (k + 1) := by
          rw [Nat.div_lt_iff_lt_mul (by norm_num)]
          rw [pow_succ] at hn
          exact hn
        have := ih f (n / 2) this
        omega

theorem roundEven_intCast (z : ℤ) : roundEven (z : ℚ) = z := by
  unfold roundEven
  rw [Int.floor_intCast]
  simp

theorem pow2_nonpos (u : ℤ) (hu : u ≤ 0) : pow2 u = 1 / ((2 ^ (-u).toNat : ℕ) : ℚ) := by
  unfold pow2
  split
  · have : u = 0 := le_antisymm hu (by assumption)
    subst this
    simp
  · rfl

/-- An integer of magnitude below `2^53` is a `double`: rounding leaves it as it
is. -/
theorem fl_intCast (z : ℤ) (hz : |z| < 2 ^ 53) : fl (z : ℚ) = z := by
  unfold fl
  split
  · rename_i h
    exact h.symm
  · have he : expOf (z : ℚ) ≤ 52 := by
      have h1 : ilog2 (z : ℚ).num.natAbs ≤ 52 := by
        apply log2Aux_le
        rw [Rat.num_intCast]
        have : (z.natAbs : ℤ) < 2 ^ 53 := by rwa [← Int.abs_eq_natAbs]
        exact_mod_cast this
      unfold expOf
      split <;> omega
    have hu : max (expOf (z : ℚ)) (-1022) - 52 ≤ 0 := by
      have : max (expOf (z : ℚ)) (-1022) ≤ 52 := max_le he (by norm_num)
      omega
    rw [pow2_nonpos _ hu]
    have hpos : (0 : ℚ) < ((2 ^ (-(max (expOf (z : ℚ)) (-1022) - 52)).toNat : ℕ) : ℚ) := by
      positivity
    have e1 : (z : ℚ) / (1 / ((2 ^ (-(max (expOf (z : ℚ)) (-1022) - 52)).toNat : ℕ) : ℚ)) =
        ((z * (2 ^ (-(max (expOf (z : ℚ)) (-1022) - 52)).toNat : ℕ) : ℤ) : ℚ) := by
      push_cast
      field_simp
    rw [e1, roundEven_intCast]
    push_cast
    field_simp

/-- The literal `1e-9` is `10⁻⁹` rounded to `double`. -/
theorem eps_eq_fl : eps = fl (1 / 1000000000) := by decide!

theorem abs_mul_lt_of_lt {x y : ℤ} {m n : ℕ} (hx : |x| < 2 ^ m) (hy : |y| < 2 ^ n) :
    |x * y| < 2 ^ (m + n) := by
  rw [abs_mul, pow_add]
  exact mul_lt_mul'' hx hy (abs_nonneg x) (abs_nonneg y)

/-- On points with integer coordinates of magnitude below `2^25` no operation of
`cross` rounds. -/
theorem cross_eq_exact_of_smallInt {a b c : QPointF} (ha : SmallInt a) (hb : SmallInt b)
    (hc : SmallInt c) : cross a b c = crossExact a b c := by
  obtain ⟨ax, ay, hax, hay, hax1, hay1⟩ := ha
  obtain ⟨bx, by1, hbx, hby, hbx1, hby1⟩ := hb
  obtain ⟨cx, cy, hcx, hcy, hcx1, hcy1⟩ := hc
  have hsub : ∀ {u v : ℤ}, |u| < 2 ^ 25 → |v| < 2 ^ 25 → |u - v| < 2 ^ 26 := by
    intro u v hu hv
    rw [abs_lt] at hu hv ⊢
    constructor <;> omega
  have h1 := hsub hbx1 hax1
  have h2 := hsub hcy1 hay1
  have h3 := hsub hby1 hay1
  have h4 := hsub hcx1 hax1
  have h5 : |(bx - ax) * (cy - ay)| < 2 ^ 52 := abs_mul_lt_of_lt h1 h2
  have h6 : |(by1 - ay) * (cx - ax)| < 2 ^ 52 := abs_mul_lt_of_lt h3 h4
  have h7 : |(bx - ax) * (cy - ay) - (by1 - ay) * (cx - ax)| < 2 ^ 53 := by
    rw [abs_lt] at h5 h6 ⊢
    constructor <;> omega
  have lt53 : ∀ {u : ℤ} {n : ℕ}, n ≤ 53 → |u| < 2 ^ n → |u| < 2 ^ 53 := by
    intro u n hn hu
    exact lt_of_lt_of_le hu (pow_le_pow_right₀ (by norm_num) hn)
  unfold cross crossExact
  rw [hax, hay, hbx, hby, hcx, hcy]
  have e1 : ((bx : ℚ) - ax) = ((bx - ax : ℤ) : ℚ) := by push_cast; ring
  have e2 : ((cy : ℚ) - ay) = ((cy - ay : ℤ) : ℚ) := by push_cast; ring
  have e3 : ((by1 : ℚ) - ay) = ((by1 - ay : ℤ) : ℚ) := by push_cast; ring
  have e4 : ((cx : ℚ) - ax) = ((cx - ax : ℤ) : ℚ) := by push_cast; ring
  rw [e1, e2, e3, e4, fl_intCast _ (lt53 (by norm_num) h1), fl_intCast _ (lt53 (by norm_num) h2),
    fl_intCast _ (lt53 (by norm_num) h3), fl_intCast _ (lt53 (by norm_num) h4)]
  rw [← Int.cast_mul, ← Int.cast_mul, fl_intCast _ (lt53 (by norm_num) h5),
    fl_intCast _ (lt53 (by norm_num) h6), ← Int.cast_sub, fl_intCast _ h7]

/-! ## The exact orientation value -/

theorem normSq_pos {a b : QPointF} (h : a ≠ b) :
    0 < (b.x - a.x) ^ 2 + (b.y - a.y) ^ 2 := by
  by_contra hn
  have h1 : (b.x - a.x) ^ 2 + (b.y - a.y) ^ 2 = 0 :=
    le_antisymm (not_lt.mp hn) (by positivity)
  have hx : b.x - a.x = 0 := by nlinarith [sq_nonneg (b.x - a.x), sq_nonneg (b.y - a.y)]
  have hy : b.y - a.y = 0 := by nlinarith [sq_nonneg (b.x - a.x), sq_nonneg (b.y - a.y)]
  exact h (QPointF.ext (by linarith) (by linarith))

theorem cross_decomp (a b c : QPointF) (h : a ≠ b) :
    ∃ t : ℚ,
      c.x = a.x + t * (b.x - a.x)
        - (crossExact a b c / ((b.x - a.x) ^ 2 + (b.y - a.y) ^ 2)) * (b.y - a.y) ∧
      c.y = a.y + t * (b.y - a.y)
        + (crossExact a b c / ((b.x - a.x) ^ 2 + (b.y - a.y) ^ 2)) * (b.x - a.x) := by
  have hD := normSq_pos h
  refine ⟨((c.x - a.x) * (b.x - a.x) + (c.y - a.y) * (b.y - a.y)) /
      ((b.x - a.x) ^ 2 + (b.y - a.y) ^ 2), ?_, ?_⟩
  · unfold crossExact; field_simp; ring
  · unfold crossExact; field_simp; ring

theorem cross_of_decomp (a b c : QPointF) (t s : ℚ)
    (hx : c.x = a.x + t * (b.x - a.x) - s * (b.y - a.y))
    (hy : c.y = a.y + t * (b.y - a.y) + s * (b.x - a.x)) :
    crossExact a b c = s * ((b.x - a.x) ^ 2 + (b.y - a.y) ^ 2) := by
  unfold crossExact; rw [hx, hy]; ring

theorem cross_eq_zero_iff (a b c : QPointF) : crossExact a b c = 0 ↔ Collinear a b c := by
  constructor
  · intro h0
    by_cases hab : a = b
    · exact Or.inl hab
    · obtain ⟨t, hx, hy⟩ := cross_decomp a b c hab
      rw [h0] at hx hy
      exact Or.inr ⟨t, by simpa using hx, by simpa using hy⟩
  · rintro (rfl | ⟨t, hx, hy⟩)
    · unfold crossExact; ring
    · rw [cross_of_decomp a b c t 0 (by simpa using hx) (by simpa using hy)]; ring

theorem cross_pos_iff (a b c : QPointF) : 0 < crossExact a b c ↔ StrictlyLeft a b c := by
  constructor
  · intro hpos
    have hab : a ≠ b := by
      rintro rfl
      simp [crossExact] at hpos
    obtain ⟨t, hx, hy⟩ := cross_decomp a b c hab
    exact ⟨hab, t, _, div_pos hpos (normSq_pos hab), hx, hy⟩
  · rintro ⟨hab, t, s, hs, hx, hy⟩
    rw [cross_of_decomp a b c t s hx hy]
    exact mul_pos hs (normSq_pos hab)

theorem cross_neg_iff (a b c : QPointF) : crossExact a b c < 0 ↔ StrictlyRight a b c := by
  constructor
  · intro hneg
    have hab : a ≠ b := by
      rintro rfl
      simp [crossExact] at hneg
    obtain ⟨t, hx, hy⟩ := cross_decomp a b c hab
    exact ⟨hab, t, _, div_neg_of_neg_of_pos hneg (normSq_pos hab), hx, hy⟩
  · rintro ⟨hab, t, s, hs, hx, hy⟩
    rw [cross_of_decomp a b c t s hx hy]
    exact mul_neg_of_neg_of_pos hs (normSq_pos hab)

/-- C10, counterexample. On the integer points `(0,0)`, `(165580141,267914296)`,
`(267914296,433494437)`, which are not collinear (the exact value of the
expression is 1), `cross` returns 0: both products round to the same `double`. -/
theorem cross_zero_not_collinear :
    cross (pt fibPoints 0) (pt fibPoints 1) (pt fibPoints 2) = 0 ∧
    crossExact (pt fibPoints 0) (pt fibPoints 1) (pt fibPoints 2) = 1 ∧
    ¬ Collinear (pt fibPoints 0) (pt fibPoints 1) (pt fibPoints 2) := by
  have h1 : crossExact (pt fibPoints 0) (pt fibPoints 1) (pt fibPoints 2) = 1 := by decide!
  refine ⟨by decide!, h1, ?_⟩
  intro h
  rw [← cross_eq_zero_iff, h1] at h
  exact one_ne_zero h

/-- C10, amended. `cross a b c` is the expression
`(b.x-a.x)*(c.y-a.y) - (b.y-a.y)*(c.x-a.x)` with every operation rounded to
`double`, and it is never both positive and negative.  On points with integer
coordinates of magnitude below `2^25` no operation rounds: `cross a b c` is the
exact value of the expression, zero exactly when `a`, `b`, `c` are collinear
(`a = b`, or `c = a + t (b - a)` for some `t`), positive exactly when `c` is
strictly left of the directed line `a → b`, negative exactly when `c` is strictly
right of it. -/
theorem cross_orientation (a b c : QPointF) :
    cross a b c =
      fl (fl (fl (b.x - a.x) * fl (c.y - a.y)) - fl (fl (b.y - a.y) * fl (c.x - a.x))) ∧
    ¬ (0 < cross a b c ∧ cross a b c < 0) ∧
    (SmallInt a → SmallInt b → SmallInt c →
      cross a b c = (b.x - a.x) * (c.y - a.y) - (b.y - a.y) * (c.x - a.x) ∧
      (cross a b c = 0 ↔ Collinear a b c) ∧
      (0 < cross a b c ↔ StrictlyLeft a b c) ∧
      (cross a b c < 0 ↔ StrictlyRight a b c)) := by
  refine ⟨rfl, fun h => lt_asymm h.1 h.2, ?_⟩
  intro ha hb hc
  rw [cross_eq_exact_of_smallInt ha hb hc]
  exact ⟨rfl, cross_eq_zero_iff a b c, cross_pos_iff a b c, cross_neg_iff a b c⟩

theorem smallInt_refPoints : ∀ p ∈ refPoints, SmallInt p := by
  intro p hp
  simp only [refPoints, List.mem_cons, List.mem_singleton, List.not_mem_nil, or_false] at hp
  rcases hp with rfl | rfl | rfl | rfl | rfl | rfl | rfl | rfl
  · exact ⟨100, 100, by norm_num, by norm_num, by norm_num, by norm_num⟩
  · exact ⟨214, 150, by norm_num, by norm_num, by norm_num, by norm_num⟩
  · exact ⟨303, 80, by norm_num, by norm_num, by norm_num, by norm_num⟩
  · exact ⟨350, 251, by norm_num, by norm_num, by norm_num, by norm_num⟩
  · exact ⟨200, 300, by norm_num, by norm_num, by norm_num, by norm_num⟩
  · exact ⟨150, 250, by norm_num, by norm_num, by norm_num, by norm_num⟩
  · exact ⟨200, 360, by norm_num, by norm_num, by norm_num, by norm_num⟩
  · exact ⟨120, 336, by norm_num, by norm_num, by norm_num, by norm_num⟩

theorem cross_orientation_witness :
    cross ⟨100, 100⟩ ⟨214, 150⟩ ⟨303, 80⟩ =
      (214 - 100) * (80 - 100) - (150 - 100) * (303 - 100) ∧
    (cross ⟨100, 100⟩ ⟨214, 150⟩ ⟨303, 80⟩ = 0 ↔ Collinear ⟨100, 100⟩ ⟨214, 150⟩ ⟨303, 80⟩) ∧
    (0 < cross ⟨100, 100⟩ ⟨214, 150⟩ ⟨303, 80⟩ ↔
      StrictlyLeft ⟨100, 100⟩ ⟨214, 150⟩ ⟨303, 80⟩) ∧
    (cross ⟨100, 100⟩ ⟨214, 150⟩ ⟨303, 80⟩ < 0 ↔
      StrictlyRight ⟨100, 100⟩ ⟨214, 150⟩ ⟨303, 80⟩) :=
  (cross_orientation ⟨100, 100⟩ ⟨214, 150⟩ ⟨303, 80⟩).2.2
    (smallInt_refPoints _ (by simp [refPoints])) (smallInt_refPoints _ (by simp [refPoints]))
    (smallInt_refPoints _ (by simp [refPoints]))

/-! ## The `int` counter -/

theorem wrapInt_succ (c : ℤ) : wrapInt (wrapInt c + 1) = wrapInt (c + 1) := by
  unfold wrapInt
  omega

theorem wrapInt_wrapInt (c : ℤ) : wrapInt (wrapInt c) = wrapInt c := by
  unfold wrapInt
  omega

theorem wrapInt_of_lt (z : ℤ) (h0 : 0 ≤ z) (h1 : z < 2147483648) : wrapInt z = z := by
  unfold wrapInt
  omega

theorem wrapInt_le (z : ℤ) (h0 : 0 ≤ z) : wrapInt z ≤ z := by
  unfold wrapInt
  omega

theorem wrapInt_zero : wrapInt 0 = 0 := by
  unfold wrapInt
  omega

/-! ## The brute force -/

theorem eps_pos : 0 < eps := by norm_num [eps]

theorem getElem?_pt {pts : List QPointF} {i : ℕ} (h : i < pts.length) :
    pts[i]? = some (pt pts i) := by
  simp [pt, List.getD_eq_getElem?_getD, List.getElem?_eq_getElem h]

theorem seesPos_cons (pts : List QPointF) (i j k : ℕ) (ks : List ℕ) :
    SeesPos pts i j (k :: ks) ↔
      (k ≠ i ∧ k ≠ j ∧ eps < cross (pt pts i) (pt pts j) (pt pts k)) ∨ SeesPos pts i j ks := by
  simp [SeesPos]

theorem seesNeg_cons (pts : List QPointF) (i j k : ℕ) (ks : List ℕ) :
    SeesNeg pts i j (k :: ks) ↔
      (k ≠ i ∧ k ≠ j ∧ cross (pt pts i) (pt pts j) (pt pts k) < -eps) ∨ SeesNeg pts i j ks := by
  simp [SeesNeg]

theorem slowInner_cons (pts : List QPointF) (i j k : ℕ) (ks : List ℕ) (pos neg : Bool) (count : ℤ) :
    slowInner pts i j (k :: ks) pos neg count =
    if k = i ∨ k = j then slowInner pts i j ks pos neg (wrapInt (count + 1))
    else
      match pts[i]?, pts[j]?, pts[k]? with
      | some pi, some pj, some pk =>
        if (if cross pi pj pk > eps then true else pos) &&
            (if cross pi pj pk > eps then neg else if cross pi pj pk < -eps then true else neg)
        then some ((if cross pi pj pk > eps then true else pos),
            (if cross pi pj pk > eps then neg else if cross pi pj pk < -eps then true else neg), wrapInt (count + 1))
        else slowInner pts i j ks (if cross pi pj pk > eps then true else pos)
            (if cross pi pj pk > eps then neg else if cross pi pj pk < -eps then true else neg) (wrapInt (count + 1))
      | _, _, _ => none := by
  rw [slowInner]

theorem slowInner_spec (pts : List QPointF) (i j : ℕ) (hi : i < pts.length)
    (hj : j < pts.length) :
    ∀ (ks : List ℕ) (pos neg : Bool) (count : ℤ), (∀ k ∈ ks, k < pts.length) →
      ∃ pos1 neg1 count1, slowInner pts i j ks pos neg count = some (pos1, neg1, count1) ∧
        ((pos1 && neg1) = true ↔
          (pos = true ∨ SeesPos pts i j ks) ∧ (neg = true ∨ SeesNeg pts i j ks)) := by
  intro ks
  induction ks with
  | nil =>
    intro pos neg count _
    exact ⟨pos, neg, count, rfl, by simp [SeesPos, SeesNeg]⟩
  | cons k ks ih =>
    intro pos neg count hks
    have hk : k < pts.length := hks k (List.mem_cons_self _ _)
    have hks1 : ∀ k ∈ ks, k < pts.length := fun a ha => hks a (List.mem_cons_of_mem _ ha)
    rw [seesPos_cons, seesNeg_cons]
    by_cases hkij : k = i ∨ k = j
    · obtain ⟨p1, n1, c1, h1, h2⟩ := ih pos neg (wrapInt (count + 1)) hks1
      refine ⟨p1, n1, c1, ?_, ?_⟩
      · rw [slowInner_cons, if_pos hkij, h1]
      · have hf : ¬ (k ≠ i ∧ k ≠ j ∧ eps < cross (pt pts i) (pt pts j) (pt pts k)) := by
          rintro ⟨h1, h2, -⟩
          exact hkij.elim h1 h2
        have hg : ¬ (k ≠ i ∧ k ≠ j ∧ cross (pt pts i) (pt pts j) (pt pts k) < -eps) := by
          rintro ⟨h1, h2, -⟩
          exact hkij.elim h1 h2
        rw [h2]
        simp only [hf, hg, false_or]
    · have hne : k ≠ i ∧ k ≠ j := ⟨fun h => hkij (Or.inl h), fun h => hkij (Or.inr h)⟩
      rw [slowInner_cons, if_neg hkij, getElem?_pt hi, getElem?_pt hj, getElem?_pt hk]
      dsimp only
      have he := eps_pos
      by_cases hp : eps < cross (pt pts i) (pt pts j) (pt pts k)
      · have hn : ¬ cross (pt pts i) (pt pts j) (pt pts k) < -eps := by
          intro h; linarith
        simp only [if_pos hp]
        cases neg with
        | true => exact ⟨true, true, wrapInt (count + 1), by simp, by simp [hp, hne]⟩
        | false =>
          obtain ⟨p1, n1, c1, h1, h2⟩ := ih true false (wrapInt (count + 1)) hks1
          refine ⟨p1, n1, c1, by simpa using h1, ?_⟩
          rw [h2]; simp [hn, hp, hne]
      · simp only [if_neg hp]
        by_cases hn : cross (pt pts i) (pt pts j) (pt pts k) < -eps
        · simp only [if_pos hn]
          cases pos with
          | true => exact ⟨true, true, wrapInt (count + 1), by simp, by simp [hn, hne]⟩
          | false =>
            obtain ⟨p1, n1, c1, h1, h2⟩ := ih false true (wrapInt (count + 1)) hks1
            refine ⟨p1, n1, c1, by simpa using h1, ?_⟩
            rw [h2]; simp [hn, hp, hne]
        · simp only [if_neg hn]
          by_cases hb : (pos && neg) = true
          · refine ⟨pos, neg, wrapInt (count + 1), by simp [hb], ?_⟩
            simp only [Bool.and_eq_true] at hb
            simp [hb.1, hb.2]
          · obtain ⟨p1, n1, c1, h1, h2⟩ := ih pos neg (wrapInt (count + 1)) hks1
            refine ⟨p1, n1, c1, by simp [hb, h1], ?_⟩
            rw [h2]; simp [hn, hp]

theorem slowPairs_spec (pts : List QPointF) (i : ℕ) (hi : i < pts.length) :
    ∀ (js : List ℕ) (edges : Finset Edge) (count : ℤ),
      (∀ j ∈ js, i < j ∧ j < pts.length) →
      ∃ edges1 count1, slowPairs pts i js edges count = some (edges1, count1) ∧
        ∀ e, e ∈ edges1 ↔ e ∈ edges ∨ (e.i = i ∧ e.j ∈ js ∧ SlowEdge pts e) := by
  intro js
  induction js with
  | nil =>
    intro edges count _
    exact ⟨edges, count, rfl, by simp⟩
  | cons j js ih =>
    intro edges count hjs
    obtain ⟨hij, hj⟩ := hjs j (List.mem_cons_self _ _)
    have hjs1 : ∀ a ∈ js, i < a ∧ a < pts.length :=
      fun a ha => hjs a (List.mem_cons_of_mem _ ha)
    obtain ⟨p, q, c1, h1, h2⟩ := slowInner_spec pts i j hi hj (List.range pts.length)
      false false count (fun k hk => List.mem_range.mp hk)
    obtain ⟨e1, c2, h3, h4⟩ := ih
      (if !(p && q) then insert ⟨min i j, max i j⟩ edges else edges) c1 hjs1
    refine ⟨e1, c2, ?_, ?_⟩
    · rw [slowPairs, h1]; exact h3
    · intro e
      rw [h4]
      have hmin : min i j = i := min_eq_left hij.le
      have hmax : max i j = j := max_eq_right hij.le
      have hedge : SlowEdge pts ⟨i, j⟩ ↔ ¬ ((p && q) = true) := by
        rw [h2]; simp [SlowEdge, hij, hj]
      rw [hmin, hmax]
      constructor
      · rintro (h | ⟨h5, h6, h7⟩)
        · by_cases hpq : (p && q) = true
          · simp only [hpq, Bool.not_true, Bool.false_eq_true, if_false] at h
            exact Or.inl h
          · have hpq' : (p && q) = false := by simpa using hpq
            simp only [hpq', Bool.not_false, if_true, Finset.mem_insert] at h
            rcases h with h | h
            · refine Or.inr ?_
              subst h
              exact ⟨rfl, List.mem_cons_self _ _, hedge.mpr hpq⟩
            · exact Or.inl h
        · exact Or.inr ⟨h5, List.mem_cons_of_mem _ h6, h7⟩
      · rintro (h | ⟨h5, h6, h7⟩)
        · refine Or.inl ?_
          split
          · exact Finset.mem_insert_of_mem h
          · exact h
        · rcases List.mem_cons.mp h6 with h6 | h6
          · refine Or.inl ?_
            have he : e = ⟨i, j⟩ := by
              cases e; simp only [Edge.mk.injEq]; exact ⟨h5, h6⟩
            subst he
            have hpq := hedge.mp h7
            have hpq' : (p && q) = false := by simpa using hpq
            simp [hpq']
          · exact Or.inr ⟨h5, h6, h7⟩

theorem slowOuter_spec (pts : List QPointF) :
    ∀ (is : List ℕ) (edges : Finset Edge) (count : ℤ),
      (∀ i ∈ is, i < pts.length) →
      ∃ edges1 count1, slowOuter pts is edges count = some (edges1, count1) ∧
        ∀ e, e ∈ edges1 ↔ e ∈ edges ∨ (e.i ∈ is ∧ SlowEdge pts e) := by
  intro is
  induction is with
  | nil =>
    intro edges count _
    exact ⟨edges, count, rfl, by simp⟩
  | cons i is ih =>
    intro edges count his
    have hi : i < pts.length := his i (List.mem_cons_self _ _)
    have his1 : ∀ a ∈ is, a < pts.length := fun a ha => his a (List.mem_cons_of_mem _ ha)
    obtain ⟨e1, c1, h1, h2⟩ := slowPairs_spec pts i hi
      (List.range' (i + 1) (pts.length - (i + 1))) edges count (by
        intro j hj
        rw [List.mem_range'_1] at hj
        omega)
    obtain ⟨e2, c2, h3, h4⟩ := ih e1 c1 his1
    refine ⟨e2, c2, ?_, ?_⟩
    · rw [slowOuter, h1]; exact h3
    · intro e
      rw [h4, h2, List.mem_cons]
      constructor
      · rintro ((h | ⟨h5, -, h7⟩) | ⟨h5, h6⟩)
        · exact Or.inl h
        · exact Or.inr ⟨Or.inl h5, h7⟩
        · exact Or.inr ⟨Or.inr h5, h6⟩
      · rintro (h | ⟨h5 | h5, h6⟩)
        · exact Or.inl (Or.inl h)
        · refine Or.inl (Or.inr ⟨h5, ?_, h6⟩)
          rw [List.mem_range'_1]
          have := h6.1
          have := h6.2.1
          omega
        · exact Or.inr ⟨h5, h6⟩

/-- The brute force always returns, leaves the points alone, and adds to the edge
set exactly the pairs that pass its test. -/
theorem computeSlowHull_spec (c : DrawCanvas) :
    ∃ c1, computeSlowHull c = some c1 ∧ c1.points = c.points ∧
      ∀ e, e ∈ c1.edges ↔ e ∈ c.edges ∨ SlowEdge c.points e := by
  obtain ⟨e1, c1, h1, h2⟩ := slowOuter_spec c.points (List.range c.points.length) c.edges 0
    (fun i hi => List.mem_range.mp hi)
  refine ⟨⟨c.points, e1, c1⟩, ?_, rfl, ?_⟩
  · rw [computeSlowHull, h1]
  · intro e
    rw [h2]
    constructor
    · rintro (h | ⟨-, h⟩)
      · exact Or.inl h
      · exact Or.inr h
    · rintro (h | h)
      · exact Or.inl h
      · exact Or.inr ⟨List.mem_range.mpr (lt_trans h.1 h.2.1), h⟩

/-- C1. Started from an empty edge set, `computeSlowHull` returns, and for
`i < j < n` the pair `(i, j)` is in the resulting edge set exactly when it is not
the case that some `k` outside `{i, j}` has `cross > 1e-9` and some `k'` outside
`{i, j}` has `cross < -1e-9` (the `break` is part of the model, so it does not
change this); every pair of the set has `i < j < n`. -/
theorem computeSlowHull_edge_iff (pts : List QPointF) (count : ℤ) :
    ∃ c1, computeSlowHull ⟨pts, ∅, count⟩ = some c1 ∧
      (∀ i j, i < j → j < pts.length →
        ((⟨i, j⟩ : Edge) ∈ c1.edges ↔
          ¬ ((∃ k, k < pts.length ∧ k ≠ i ∧ k ≠ j ∧
                eps < cross (pt pts i) (pt pts j) (pt pts k)) ∧
             (∃ k, k < pts.length ∧ k ≠ i ∧ k ≠ j ∧
                cross (pt pts i) (pt pts j) (pt pts k) < -eps)))) ∧
      (∀ e ∈ c1.edges, e.i < e.j ∧ e.j < pts.length) := by
  obtain ⟨c1, h1, -, h3⟩ := computeSlowHull_spec ⟨pts, ∅, count⟩
  refine ⟨c1, h1, ?_, ?_⟩
  · intro i j hij hj
    rw [h3]
    simp [SlowEdge, SeesPos, SeesNeg, hij, hj]
  · intro e he
    rw [h3] at he
    rcases he with he | he
    · simp at he
    · exact ⟨he.1, he.2.1⟩

theorem slowHull_refPoints_edges :
    ∃ c1, computeSlowHull ⟨refPoints, ∅, 0⟩ = some c1 ∧
      c1.edges = {⟨0, 2⟩, ⟨2, 3⟩, ⟨3, 6⟩, ⟨6, 7⟩, ⟨0, 7⟩} := by
  have h : (computeSlowHull ⟨refPoints, ∅, 0⟩).map
      (fun c => decide (c.edges = {⟨0, 2⟩, ⟨2, 3⟩, ⟨3, 6⟩, ⟨6, 7⟩, ⟨0, 7⟩})) = some true := by
    decide!
  cases hc : computeSlowHull ⟨refPoints, ∅, 0⟩ with
  | none => rw [hc] at h; exact absurd h (by simp)
  | some c1 =>
    rw [hc] at h
    exact ⟨c1, rfl, by simpa using h⟩

/-- C4. On the reference input `computeSlowHull` produces exactly the five edges
`(0,2)`, `(2,3)`, `(3,6)`, `(6,7)`, `(0,7)` of the cycle through `0, 2, 3, 6, 7`,
and no edge has `1`, `4` or `5` as an endpoint. -/
theorem computeSlowHull_refPoints :
    ∃ c1, computeSlowHull ⟨refPoints, ∅, 0⟩ = some c1 ∧
      c1.edges = {⟨0, 2⟩, ⟨2, 3⟩, ⟨3, 6⟩, ⟨6, 7⟩, ⟨0, 7⟩} ∧
      ∀ e ∈ c1.edges, e.i ≠ 1 ∧ e.i ≠ 4 ∧ e.i ≠ 5 ∧ e.j ≠ 1 ∧ e.j ≠ 4 ∧ e.j ≠ 5 := by
  obtain ⟨c1, h0, h1⟩ := slowHull_refPoints_edges
  refine ⟨c1, h0, h1, ?_⟩
  rw [h1]
  decide

/-! ## Monotone chain: the loops as list functions -/

theorem keep_length_le {cr : QPointF → QPointF → QPointF → ℚ} (P : ℕ → QPointF) (id : ℕ) :
    ∀ S : List ℕ, (keep cr P id S).length ≤ S.length
  | [] => by simp [keep]
  | [b] => by simp [keep]
  | b :: a :: rest => by
    rw [keep]
    split
    · have := @keep_length_le cr P id (a :: rest)
      simp only [List.length_cons] at this ⊢
      omega
    · exact le_rfl

theorem keep_ne_nil {cr : QPointF → QPointF → QPointF → ℚ} (P : ℕ → QPointF) (id : ℕ) :
    ∀ S : List ℕ, S ≠ [] → keep cr P id S ≠ []
  | [], h => absurd rfl h
  | [b], _ => by simp [keep]
  | b :: a :: rest, _ => by
    rw [keep]
    split
    · exact keep_ne_nil P id (a :: rest) (by simp)
    · simp

theorem keep_suffix {cr : QPointF → QPointF → QPointF → ℚ} (P : ℕ → QPointF) (id : ℕ) :
    ∀ S : List ℕ, keep cr P id S <:+ S
  | [] => by simp [keep]
  | [b] => by simp [keep]
  | b :: a :: rest => by
    rw [keep]
    split
    · exact (keep_suffix P id (a :: rest)).trans (List.suffix_cons b _)
    · exact List.suffix_refl _

theorem popLoop_cons_cons (pts : List QPointF) (lim id b a : ℕ) (rest : List ℕ) (count : ℤ) :
    popLoop pts lim id (b :: a :: rest) count =
      if (b :: a :: rest).length ≥ lim then
        match pts[a]?, pts[b]?, pts[id]? with
        | some pa, some pb, some pc =>
          if cross pa pb pc ≤ 0 then popLoop pts lim id (a :: rest) (wrapInt (count + 1))
          else some (b :: a :: rest, count)
        | _, _, _ => none
      else some (b :: a :: rest, count) := by
  rw [popLoop.eq_def]

theorem popLoop_eq (pts : List QPointF) (id : ℕ) (hid : id < pts.length) (base : List ℕ) :
    ∀ (S : List ℕ) (count : ℤ), (∀ a ∈ S, a < pts.length) →
      ∃ count1, popLoop pts (base.length + 2) id (S ++ base) count =
        some (keep cross (pt pts) id S ++ base, count1)
  | [], count, _ => by
    cases base with
    | nil => exact ⟨count, by simp [popLoop, keep]⟩
    | cons b tl => exact ⟨count, by simp [popLoop, keep]⟩
  | [b], count, _ => by
    exact ⟨count, by simp [popLoop, keep]⟩
  | b :: a :: rest, count, hS => by
    have hb : b < pts.length := hS b (by simp)
    have ha : a < pts.length := hS a (by simp)
    have hrest : ∀ x ∈ a :: rest, x < pts.length :=
      fun x hx => hS x (List.mem_cons_of_mem _ hx)
    have hlen : (b :: a :: (rest ++ base)).length ≥ base.length + 2 := by
      simp only [List.length_cons, List.length_append]; omega
    obtain ⟨c1, ih⟩ := popLoop_eq pts id hid base (a :: rest) (wrapInt (count + 1)) hrest
    show ∃ count1, popLoop pts (base.length + 2) id (b :: a :: (rest ++ base)) count = _
    rw [popLoop_cons_cons, if_pos hlen]
    simp only [getElem?_pt ha, getElem?_pt hb, getElem?_pt hid]
    rw [keep]
    by_cases hc : cross (pt pts a) (pt pts b) (pt pts id) ≤ 0
    · rw [if_pos hc, if_pos hc]
      simp only [List.cons_append] at ih
      exact ⟨c1, ih⟩
    · rw [if_neg hc, if_neg hc]
      exact ⟨count, by simp⟩

theorem chainStep_eq (pts : List QPointF) (id : ℕ) (hid : id < pts.length) (base S : List ℕ)
    (count : ℤ) (hS : ∀ a ∈ S, a < pts.length) :
    ∃ count1, chainStep pts (base.length + 2) id (S ++ base) count =
      some (id :: keep cross (pt pts) id S ++ base, count1) := by
  obtain ⟨c1, h1⟩ := popLoop_eq pts id hid base S count hS
  rw [chainStep, h1]
  exact ⟨_, rfl⟩

theorem keep_bound {cr : QPointF → QPointF → QPointF → ℚ} (P : ℕ → QPointF) (id n : ℕ) (S : List ℕ) (hS : ∀ a ∈ S, a < n) :
    ∀ a ∈ keep cr P id S, a < n :=
  fun a ha => hS a ((keep_suffix P id S).subset ha)

theorem chainRun_eq (pts : List QPointF) (base : List ℕ) :
    ∀ (ids S : List ℕ) (count : ℤ), (∀ a ∈ ids, a < pts.length) →
      (∀ a ∈ S, a < pts.length) →
      ∃ count1, chainRun pts (base.length + 2) ids (S ++ base) count =
        some (scan cross (pt pts) ids S ++ base, count1)
  | [], S, count, _, _ => ⟨count, rfl⟩
  | id :: ids, S, count, hids, hS => by
    have hid : id < pts.length := hids id (List.mem_cons_self _ _)
    obtain ⟨c1, h1⟩ := chainStep_eq pts id hid base S count hS
    have hS1 : ∀ a ∈ id :: keep cross (pt pts) id S, a < pts.length := by
      intro a ha
      rcases List.mem_cons.mp ha with rfl | ha
      · exact hid
      · exact keep_bound _ _ _ S hS a ha
    obtain ⟨c2, h2⟩ := chainRun_eq pts base ids (id :: keep cross (pt pts) id S) c1
      (fun a ha => hids a (List.mem_cons_of_mem _ ha)) hS1
    refine ⟨c2, ?_⟩
    rw [chainRun, h1]
    exact h2

theorem lowerChain_eq_chainRun (pts : List QPointF) :
    ∀ (ids hull : List ℕ) (count : ℤ),
      lowerChain pts ids hull count = chainRun pts 2 ids hull count
  | [], _, _ => rfl
  | id :: ids, hull, count => by
    rw [lowerChain, chainRun]
    cases chainStep pts 2 id hull count with
    | none => rfl
    | some r => exact lowerChain_eq_chainRun pts ids r.1 r.2

theorem upperChain_eq_chainRun (pts : List QPointF) (idx : List ℕ) (t : ℕ) :
    ∀ (is hull : List ℕ) (count : ℤ), (∀ i ∈ is, i < idx.length) →
      upperChain pts idx t is hull count =
        chainRun pts t (is.map (fun i => idx.getD i 0)) hull count
  | [], _, _, _ => rfl
  | i :: is, hull, count, his => by
    have hi : i < idx.length := his i (List.mem_cons_self _ _)
    have hget : idx[i]? = some (idx.getD i 0) := by
      simp [List.getD_eq_getElem?_getD, List.getElem?_eq_getElem hi]
    rw [upperChain, List.map_cons, chainRun, hget]
    dsimp only
    cases chainStep pts t (idx.getD i 0) hull count with
    | none => rfl
    | some r =>
      exact upperChain_eq_chainRun pts idx t is r.1 r.2
        (fun a ha => his a (List.mem_cons_of_mem _ ha))

theorem map_getD_range_reverse (idx : List ℕ) :
    (List.range (idx.length - 1)).reverse.map (fun i => idx.getD i 0) = idx.reverse.tail := by
  rw [List.tail_reverse, List.map_reverse]
  congr 1
  apply List.ext_getElem
  · simp
  · intro i h1 h2
    simp only [List.length_map, List.length_range] at h1
    simp [List.getD_eq_getElem?_getD, List.getElem?_eq_getElem (show i < idx.length by omega)]

theorem scan_nil_cons {cr : QPointF → QPointF → QPointF → ℚ} (P : ℕ → QPointF) (a : ℕ) (ids : List ℕ) :
    scan cr P (a :: ids) [] = scan cr P ids [a] := by
  simp [scan, keep]

theorem scan_append {cr : QPointF → QPointF → QPointF → ℚ} (P : ℕ → QPointF) :
    ∀ (ids1 ids2 H : List ℕ), scan cr P (ids1 ++ ids2) H = scan cr P ids2 (scan cr P ids1 H)
  | [], _, _ => rfl
  | id :: ids1, ids2, H => by
    rw [List.cons_append, scan, scan, scan_append P ids1 ids2]

theorem scan_concat {cr : QPointF → QPointF → QPointF → ℚ} (P : ℕ → QPointF) (ids H : List ℕ) (q : ℕ) :
    scan cr P (ids ++ [q]) H = q :: keep cr P q (scan cr P ids H) := by
  rw [scan_append, scan, scan]

theorem scan_bound {cr : QPointF → QPointF → QPointF → ℚ} (P : ℕ → QPointF) (n : ℕ) :
    ∀ (ids H : List ℕ), (∀ a ∈ ids, a < n) → (∀ a ∈ H, a < n) → ∀ a ∈ scan cr P ids H, a < n
  | [], _, _, hH => hH
  | id :: ids, H, hids, hH => by
    rw [scan]
    apply scan_bound P n ids _ (fun a ha => hids a (List.mem_cons_of_mem _ ha))
    intro a ha
    rcases List.mem_cons.mp ha with rfl | ha
    · exact hids _ (List.mem_cons_self _ _)
    · exact keep_bound _ _ _ H hH a ha

theorem scan_ne_nil {cr : QPointF → QPointF → QPointF → ℚ} (P : ℕ → QPointF) :
    ∀ (ids H : List ℕ), H ≠ [] → scan cr P ids H ≠ []
  | [], _, hH => hH
  | id :: ids, H, _ => by
    rw [scan]
    exact scan_ne_nil P ids _ (by simp)

/-- For a non-empty `idx` whose entries are in range, the chain passes succeed and
the hull vertex sequence is made of the two chains `scan cr P idx []` (lower) and
`scan cr P idx.reverse []` (upper), each without its top entry. -/
theorem hullFrom_eq (pts : List QPointF) (idx : List ℕ) (hne : idx ≠ [])
    (hlen : idx.length = pts.length) (hb : ∀ a ∈ idx, a < pts.length) :
    ∃ count, hullFrom pts idx =
      some (((scan cross (pt pts) idx.reverse []).tail ++ (scan cross (pt pts) idx []).tail).reverse,
        count) := by
  obtain ⟨init, last, rfl⟩ : ∃ init last, idx = init ++ [last] := by
    rcases List.eq_nil_or_concat idx with h | ⟨init, last, h⟩
    · exact absurd h hne
    · exact ⟨init, last, by simpa using h⟩
  have hlast : last < pts.length := hb last (by simp)
  have hinit : ∀ a ∈ init, a < pts.length := fun a ha => hb a (by simp [ha])
  obtain ⟨c1, h1⟩ := chainRun_eq pts [] (init ++ [last]) [] 0 hb (by simp)
  simp only [List.append_nil, List.length_nil, Nat.zero_add] at h1
  rw [scan_concat] at h1
  set K := keep cross (pt pts) last (scan cross (pt pts) init []) with hK
  have hKb : ∀ a ∈ K, a < pts.length := by
    intro a ha
    exact keep_bound _ _ _ _ (scan_bound _ _ init [] hinit (by simp)) a ha
  have hrev : (init ++ [last]).reverse = last :: init.reverse := by simp
  have htail : (init ++ [last]).reverse.tail = init.reverse := by simp
  have h2 := upperChain_eq_chainRun pts (init ++ [last]) ((last :: K).length + 1)
    (List.range ((init ++ [last]).length - 1)).reverse (last :: K) c1 (by
      intro i hi
      rw [List.mem_reverse, List.mem_range] at hi
      omega)
  rw [map_getD_range_reverse, htail] at h2
  obtain ⟨c2, h3⟩ := chainRun_eq pts K init.reverse [last] c1
    (fun a ha => hinit a (List.mem_reverse.mp ha))
    (fun a ha => by rw [List.mem_singleton.mp ha]; exact hlast)
  have hlim : (last :: K).length + 1 = K.length + 2 := by simp
  rw [hlim] at h2
  rw [List.singleton_append] at h3
  rw [h3] at h2
  have hU : scan cross (pt pts) (init ++ [last]).reverse [] = scan cross (pt pts) init.reverse [last] := by
    rw [hrev, scan_nil_cons]
  rw [scan_concat, hU, List.tail_cons]
  obtain ⟨u, U, hu⟩ : ∃ u U, scan cross (pt pts) init.reverse [last] = u :: U := by
    exact List.exists_cons_of_ne_nil (scan_ne_nil _ _ _ (by simp))
  refine ⟨c2, ?_⟩
  rw [hu] at h2 ⊢
  rw [hullFrom, lowerChain_eq_chainRun, h1]
  simp only
  rw [← hlen, hlim, h2]
  simp

/-! ## Turn lemmas

Vectors that point to the right, or straight up, are ordered by direction; the
sign of the crossExact product of two of them compares their directions, and this
comparison is transitive. -/

theorem turn_trans (ux uy vx vy wx wy : ℚ)
    (hu : 0 < ux ∨ (ux = 0 ∧ 0 ≤ uy)) (hv : 0 < vx ∨ (vx = 0 ∧ 0 < vy))
    (hw : 0 < wx ∨ (wx = 0 ∧ 0 ≤ wy))
    (h1 : 0 ≤ ux * vy - uy * vx) (h2 : 0 ≤ vx * wy - vy * wx) :
    0 ≤ ux * wy - uy * wx := by
  have hux : 0 ≤ ux := by rcases hu with h | ⟨h, -⟩ <;> linarith
  have hwx : 0 ≤ wx := by rcases hw with h | ⟨h, -⟩ <;> linarith
  rcases hv with hvx | ⟨hvx, hvy⟩
  · have h3 : 0 ≤ vx * (ux * wy - uy * wx) := by
      nlinarith [mul_nonneg hux h2, mul_nonneg hwx h1]
    exact nonneg_of_mul_nonneg_right h3 hvx
  · subst hvx
    have hwx0 : wx = 0 := by
      have : vy * wx ≤ 0 := by linarith
      have : wx ≤ 0 := by
        by_contra hc
        push_neg at hc
        nlinarith [mul_pos hvy hc]
      linarith
    have hwy : 0 ≤ wy := by
      rcases hw with h | ⟨-, h⟩
      · linarith
      · exact h
    subst hwx0
    nlinarith [mul_nonneg hux hwy]

theorem turn_trans_strict (ux uy vx vy wx wy : ℚ)
    (hu : 0 < ux ∨ (ux = 0 ∧ 0 ≤ uy)) (hv : 0 < vx ∨ (vx = 0 ∧ 0 ≤ vy))
    (hw : 0 < wx ∨ (wx = 0 ∧ 0 ≤ wy))
    (h1 : 0 < ux * vy - uy * vx) (h2 : 0 < vx * wy - vy * wx) :
    0 < ux * wy - uy * wx := by
  have hux : 0 ≤ ux := by rcases hu with h | ⟨h, -⟩ <;> linarith
  have hwx : 0 ≤ wx := by rcases hw with h | ⟨h, -⟩ <;> linarith
  rcases hv with hvx | ⟨hvx, hvy⟩
  · have h3 : 0 < vx * (ux * wy - uy * wx) := by
      rcases hu with hu | ⟨hu0, huy⟩
      · nlinarith [mul_pos hu h2, mul_nonneg hwx h1.le]
      · subst hu0
        have h4 : 0 < -(uy * vx) := by linarith
        have huy0 : uy = 0 ∨ 0 < uy := by
          rcases eq_or_lt_of_le huy with h | h
          · exact Or.inl h.symm
          · exact Or.inr h
        rcases huy0 with h | h
        · subst h; linarith
        · nlinarith [mul_pos h hvx]
    exact (mul_pos_iff_of_pos_left hvx).mp h3
  · subst hvx
    have : 0 < -(vy * wx) := by linarith
    have h5 : 0 < ux * vy := by linarith
    have hvy0 : 0 < vy := by
      rcases eq_or_lt_of_le hvy with h | h
      · rw [← h] at h5; linarith
      · exact h
    nlinarith [mul_nonneg hvy0.le hwx]

theorem lexLe_iff (p q : QPointF) :
    lexLe p q ↔ 0 < q.x - p.x ∨ (q.x - p.x = 0 ∧ 0 ≤ q.y - p.y) := by
  unfold lexLe
  constructor
  · rintro (h | ⟨h1, h2⟩)
    · exact Or.inl (by linarith)
    · exact Or.inr ⟨by linarith, by linarith⟩
  · rintro (h | ⟨h1, h2⟩)
    · exact Or.inl (by linarith)
    · exact Or.inr ⟨by linarith, by linarith⟩

theorem cross_swap (a b c : QPointF) : crossExact a c b = -crossExact a b c := by
  unfold crossExact; ring

theorem cross_rotate (a b c : QPointF) : crossExact b c a = crossExact a b c := by
  unfold crossExact; ring

theorem cross_self_left (a c : QPointF) : crossExact a a c = 0 := by
  unfold crossExact; ring

theorem cross_self_right (a b : QPointF) : crossExact a b a = 0 := by
  unfold crossExact; ring

theorem cross_self_mid (a b : QPointF) : crossExact a b b = 0 := by
  unfold crossExact; ring

/-- The candidate `q` is left of the top edge `m1 → m0`, and `p` is a point not
after `m0` that is left of the top edge: then `p` is left of the new edge
`m0 → q`. -/
theorem new_edge_before {m1 m0 q p : QPointF} (h10 : lexLe m1 m0) (h0q : lexLe m0 q)
    (hp0 : lexLe p m0) (hp : 0 ≤ crossExact m1 m0 p) (hq : 0 < crossExact m1 m0 q) :
    0 ≤ crossExact m0 q p := by
  rw [lexLe_iff] at h10 h0q hp0
  have hd : 0 < m0.x - m1.x ∨ (m0.x - m1.x = 0 ∧ 0 < m0.y - m1.y) := by
    rcases h10 with h | ⟨h1, h2⟩
    · exact Or.inl h
    · refine Or.inr ⟨h1, lt_of_le_of_ne h2 ?_⟩
      intro h3
      unfold crossExact at hq
      rw [h1, ← h3] at hq
      simp at hq
  have h := turn_trans (m0.x - p.x) (m0.y - p.y) (m0.x - m1.x) (m0.y - m1.y)
    (q.x - m0.x) (q.y - m0.y) hp0 hd h0q
    (by unfold crossExact at hp; linarith) (by unfold crossExact at hq; linarith)
  unfold crossExact
  linarith

/-- The popped entry `b` sat right above `m0` with the candidate `q` not left of
`m0 → b`, and `p` is a point not before `m0` that is left of `m0 → b`: then `p` is
left of the new edge `m0 → q`. -/
theorem new_edge_after {m0 b q p : QPointF} (h0b : lexLe m0 b) (h0q : lexLe m0 q)
    (h0p : lexLe m0 p) (hne : b ≠ m0) (hq : crossExact m0 b q ≤ 0) (hp : 0 ≤ crossExact m0 b p) :
    0 ≤ crossExact m0 q p := by
  rw [lexLe_iff] at h0b h0q h0p
  have he : 0 < b.x - m0.x ∨ (b.x - m0.x = 0 ∧ 0 < b.y - m0.y) := by
    rcases h0b with h | ⟨h1, h2⟩
    · exact Or.inl h
    · refine Or.inr ⟨h1, lt_of_le_of_ne h2 ?_⟩
      intro h3
      exact hne (QPointF.ext (by linarith) (by linarith))
  have h := turn_trans (q.x - m0.x) (q.y - m0.y) (b.x - m0.x) (b.y - m0.y)
    (p.x - m0.x) (p.y - m0.y) h0q he h0p
    (by unfold crossExact at hq; linarith) (by unfold crossExact at hp; linarith)
  unfold crossExact
  linarith

/-- A candidate left of the edge `b → c` of a chain that turns left at `b` is
left of the edge `a → b` below it. -/
theorem old_edge_below {a b c q : QPointF} (hab : lexLe a b) (hbc : lexLe b c)
    (hcq : lexLe c q) (habc : 0 < crossExact a b c) (hq : 0 ≤ crossExact b c q) :
    0 < crossExact a b q := by
  rw [lexLe_iff] at hab hbc hcq
  have hv : 0 < c.x - b.x ∨ (c.x - b.x = 0 ∧ 0 < c.y - b.y) := by
    rcases hbc with h | ⟨h1, h2⟩
    · exact Or.inl h
    · refine Or.inr ⟨h1, lt_of_le_of_ne h2 ?_⟩
      intro h3
      unfold crossExact at habc
      have hx : c.x = b.x := by linarith
      have hy : c.y = b.y := by linarith
      rw [hx, hy] at habc
      linarith
  have h := turn_trans (b.x - a.x) (b.y - a.y) (c.x - b.x) (c.y - b.y)
    (q.x - c.x) (q.y - c.y) hab hv hcq
    (by unfold crossExact at habc; linarith) (by unfold crossExact at hq; linarith)
  unfold crossExact at habc ⊢
  linarith

/-! ## Monotone chain: the edge loop and the whole function -/

theorem emitEdges_spec (vec : List ℕ) :
    ∀ (is : List ℕ) (edges : Finset Edge), (∀ i ∈ is, i < vec.length) →
      ∃ edges1, emitEdges vec is edges = some edges1 ∧
        ∀ e, e ∈ edges1 ↔ e ∈ edges ∨
          ∃ i ∈ is, ∃ a b, vec[i]? = some a ∧ vec[(i + 1) % vec.length]? = some b ∧
            e = ⟨min a b, max a b⟩
  | [], edges, _ => ⟨edges, rfl, by simp⟩
  | i :: is, edges, his => by
    have hi : i < vec.length := his i (List.mem_cons_self _ _)
    have hi1 : (i + 1) % vec.length < vec.length := Nat.mod_lt _ (by omega)
    obtain ⟨e1, h1, h2⟩ := emitEdges_spec vec is
      (insert ⟨min vec[i] vec[(i + 1) % vec.length], max vec[i] vec[(i + 1) % vec.length]⟩ edges)
      (fun a ha => his a (List.mem_cons_of_mem _ ha))
    refine ⟨e1, ?_, ?_⟩
    · rw [emitEdges, List.getElem?_eq_getElem hi, List.getElem?_eq_getElem hi1]
      exact h1
    · intro e
      rw [h2, Finset.mem_insert]
      constructor
      · rintro ((h | h) | ⟨k, hk, a, b, h3, h4, h5⟩)
        · exact Or.inr ⟨i, List.mem_cons_self _ _, _, _, List.getElem?_eq_getElem hi,
            List.getElem?_eq_getElem hi1, h⟩
        · exact Or.inl h
        · exact Or.inr ⟨k, List.mem_cons_of_mem _ hk, a, b, h3, h4, h5⟩
      · rintro (h | ⟨k, hk, a, b, h3, h4, h5⟩)
        · exact Or.inl (Or.inr h)
        · rcases List.mem_cons.mp hk with rfl | hk
          · rw [List.getElem?_eq_getElem hi] at h3
            rw [List.getElem?_eq_getElem hi1] at h4
            cases h3
            cases h4
            exact Or.inl (Or.inl h5)
          · exact Or.inr ⟨k, hk, a, b, h3, h4, h5⟩

/-- Whenever the chain passes succeed, so does the edge loop, and the edge set
grows by exactly the emitted edges of the hull vector. -/
theorem fastHullFrom_of_hullFrom (c : DrawCanvas) (idx vec : List ℕ) (count : ℤ)
    (h : hullFrom c.points idx = some (vec, count)) :
    ∃ edges1, fastHullFrom c idx = some ⟨c.points, edges1, count⟩ ∧
      ∀ e, e ∈ edges1 ↔ e ∈ c.edges ∨ Emitted vec e := by
  obtain ⟨e1, h1, h2⟩ := emitEdges_spec vec (List.range vec.length) c.edges
    (fun i hi => List.mem_range.mp hi)
  refine ⟨e1, ?_, ?_⟩
  · rw [fastHullFrom, h]
    simp only [h1]
  · intro e
    rw [h2]
    constructor
    · rintro (h | ⟨i, hi, a, b, h3, h4, h5⟩)
      · exact Or.inl h
      · exact Or.inr ⟨a, b, ⟨i, List.mem_range.mp hi, h3, h4⟩, h5⟩
    · rintro (h | ⟨a, b, ⟨i, hi, h3, h4⟩, h5⟩)
      · exact Or.inl h
      · exact Or.inr ⟨i, List.mem_range.mpr hi, a, b, h3, h4, h5⟩

theorem fastHullFrom_eq_some (c c1 : DrawCanvas) (idx : List ℕ)
    (h : fastHullFrom c idx = some c1) :
    ∃ vec count, hullFrom c.points idx = some (vec, count) ∧ c1.points = c.points ∧
      c1.iterationCount = count ∧ ∀ e, e ∈ c1.edges ↔ e ∈ c.edges ∨ Emitted vec e := by
  cases hh : hullFrom c.points idx with
  | none => rw [fastHullFrom, hh] at h; exact absurd h (by simp)
  | some r =>
    obtain ⟨vec, count⟩ := r
    obtain ⟨e1, h1, h2⟩ := fastHullFrom_of_hullFrom c idx vec count hh
    rw [h1] at h
    cases h
    exact ⟨vec, count, rfl, rfl, rfl, h2⟩

/-! ### The sort -/

theorem idxLess_eq_false_iff (pts : List QPointF) (a b : ℕ) :
    idxLess pts b a = false ↔ lexLe (pt pts a) (pt pts b) := by
  unfold idxLess lexLe
  by_cases h : (pt pts b).x = (pt pts a).x
  · rw [if_pos h]
    simp only [decide_eq_false_iff_not, not_lt]
    constructor
    · intro h1; exact Or.inr ⟨h.symm, h1⟩
    · rintro (h1 | ⟨-, h1⟩)
      · exact absurd h1 (by rw [h]; exact lt_irrefl _)
      · exact h1
  · rw [if_neg h]
    simp only [decide_eq_false_iff_not, not_lt]
    constructor
    · intro h1; exact Or.inl (lt_of_le_of_ne h1 (Ne.symm h))
    · rintro (h1 | ⟨h1, -⟩)
      · exact h1.le
      · exact absurd h1.symm h

theorem lexLe_refl (p : QPointF) : lexLe p p := Or.inr ⟨rfl, le_rfl⟩

theorem lexLe_total (p q : QPointF) : lexLe p q ∨ lexLe q p := by
  unfold lexLe
  rcases lt_trichotomy p.x q.x with h | h | h
  · exact Or.inl (Or.inl h)
  · rcases le_total p.y q.y with h1 | h1
    · exact Or.inl (Or.inr ⟨h, h1⟩)
    · exact Or.inr (Or.inr ⟨h.symm, h1⟩)
  · exact Or.inr (Or.inl h)

theorem lexLe_trans {p q r : QPointF} (h1 : lexLe p q) (h2 : lexLe q r) : lexLe p r := by
  unfold lexLe at *
  rcases h1 with h1 | ⟨h1, h1'⟩ <;> rcases h2 with h2 | ⟨h2, h2'⟩
  · exact Or.inl (lt_trans h1 h2)
  · exact Or.inl (h2 ▸ h1)
  · exact Or.inl (h1 ▸ h2)
  · exact Or.inr ⟨h1.trans h2, h1'.trans h2'⟩

theorem lexLe_antisymm {p q : QPointF} (h1 : lexLe p q) (h2 : lexLe q p) : p = q := by
  unfold lexLe at *
  rcases h1 with h1 | ⟨h1, h1'⟩ <;> rcases h2 with h2 | ⟨h2, h2'⟩
  · exact absurd h1 (not_lt.mpr h2.le)
  · exact absurd h1 (by rw [h2]; exact lt_irrefl _)
  · exact absurd h2 (by rw [h1]; exact lt_irrefl _)
  · exact QPointF.ext h1 (le_antisymm h1' h2')

theorem sortIdx_perm (pts : List QPointF) (idx : List ℕ) : (sortIdx pts idx).Perm idx :=
  List.perm_insertionSort _ idx

theorem sortIdx_sorted (pts : List QPointF) (idx : List ℕ) :
    (sortIdx pts idx).Pairwise (fun a b => lexLe (pt pts a) (pt pts b)) := by
  have hT : IsTotal ℕ (fun a b => idxLess pts b a = false) :=
    ⟨fun a b => by
      simp only [idxLess_eq_false_iff]
      exact lexLe_total _ _⟩
  have hR : IsTrans ℕ (fun a b => idxLess pts b a = false) :=
    ⟨fun a b c => by
      simp only [idxLess_eq_false_iff]
      exact lexLe_trans⟩
  have h := List.sorted_insertionSort (fun a b => idxLess pts b a = false) idx
  unfold List.Sorted at h
  exact h.imp (fun hab => (idxLess_eq_false_iff pts _ _).mp hab)

theorem sortIdx_sortedIdx (pts : List QPointF) :
    SortedIdx pts (sortIdx pts (List.range pts.length)) :=
  ⟨sortIdx_perm pts _, sortIdx_sorted pts _⟩

theorem SortedIdx.mem_iff {pts : List QPointF} {idx : List ℕ} (h : SortedIdx pts idx) (a : ℕ) :
    a ∈ idx ↔ a < pts.length := by
  rw [h.1.mem_iff, List.mem_range]

theorem SortedIdx.length_eq {pts : List QPointF} {idx : List ℕ} (h : SortedIdx pts idx) :
    idx.length = pts.length := by
  rw [h.1.length_eq, List.length_range]

theorem SortedIdx.nodup {pts : List QPointF} {idx : List ℕ} (h : SortedIdx pts idx) :
    idx.Nodup :=
  h.1.nodup_iff.mpr (List.nodup_range _)

theorem SortedIdx.ne_nil {pts : List QPointF} {idx : List ℕ} (h : SortedIdx pts idx)
    (hne : pts ≠ []) : idx ≠ [] := by
  intro h1
  have := h.length_eq
  rw [h1] at this
  exact hne (List.length_eq_zero.mp this.symm)

theorem SortedIdx.eq_nil {idx : List ℕ} (h : SortedIdx [] idx) : idx = [] :=
  List.length_eq_zero.mp h.length_eq

/-- On a non-empty point list the body of `computeFastHull` returns, whatever
sorted order `std::sort` leaves. -/
theorem fastHullFrom_isSome (c : DrawCanvas) (idx : List ℕ) (hs : SortedIdx c.points idx)
    (h : c.points ≠ []) : ∃ c1, fastHullFrom c idx = some c1 := by
  obtain ⟨count, h1⟩ := hullFrom_eq c.points idx (hs.ne_nil h) hs.length_eq
    (fun a ha => (hs.mem_iff a).mp ha)
  obtain ⟨e1, h2, -⟩ := fastHullFrom_of_hullFrom c _ _ count h1
  exact ⟨_, h2⟩

/-- On a non-empty point list `computeFastHull` returns. -/
theorem computeFastHull_isSome (c : DrawCanvas) (h : c.points ≠ []) :
    ∃ c1, computeFastHull c = some c1 :=
  fastHullFrom_isSome c _ (sortIdx_sortedIdx c.points) h

/-! ## Small inputs, the reference input, idempotence -/

theorem computeFastHull_two_edges (p q : QPointF) (edges : Finset Edge) (count : ℤ) :
    ∃ c1, computeFastHull ⟨[p, q], edges, count⟩ = some c1 ∧
      c1.edges = insert ⟨0, 1⟩ edges := by
  have hs : sortIdx [p, q] [0, 1] = [0, 1] ∨ sortIdx [p, q] [0, 1] = [1, 0] := by
    by_cases h : idxLess [p, q] 1 0 = false
    · left; simp [sortIdx, h]
    · right; simp [sortIdx, h]
  rcases hs with hs | hs
  · refine ⟨⟨[p, q], insert ⟨0, 1⟩ edges, 0⟩, ?_, rfl⟩
    simp [computeFastHull, hs, fastHullFrom, hullFrom, lowerChain, upperChain, chainStep,
      popLoop, emitEdges, List.range, List.range.loop]
  · refine ⟨⟨[p, q], insert ⟨0, 1⟩ edges, 0⟩, ?_, rfl⟩
    simp [computeFastHull, hs, fastHullFrom, hullFrom, lowerChain, upperChain, chainStep,
      popLoop, emitEdges, List.range, List.range.loop]

theorem computeFastHull_one_edges (p : QPointF) (edges : Finset Edge) (count : ℤ) :
    ∃ c1, computeFastHull ⟨[p], edges, count⟩ = some c1 ∧ c1.edges = edges := by
  refine ⟨⟨[p], edges, 0⟩, ?_, rfl⟩
  simp [computeFastHull, sortIdx, fastHullFrom, hullFrom, lowerChain, upperChain, chainStep,
    popLoop, emitEdges, List.range, List.range.loop]

theorem slowEdge_small (pts : List QPointF) (e : Edge) :
    SlowEdge pts e ↔ e.i < e.j ∧ e.j < pts.length ∧
      ¬ ((∃ k, k < pts.length ∧ k ≠ e.i ∧ k ≠ e.j ∧
            eps < cross (pt pts e.i) (pt pts e.j) (pt pts k)) ∧
         (∃ k, k < pts.length ∧ k ≠ e.i ∧ k ≠ e.j ∧
            cross (pt pts e.i) (pt pts e.j) (pt pts k) < -eps)) := by
  simp [SlowEdge, SeesPos, SeesNeg]

theorem computeSlowHull_short (pts : List QPointF) (count : ℤ) (h : pts.length ≤ 1) :
    ∃ c1, computeSlowHull ⟨pts, ∅, count⟩ = some c1 ∧ c1.edges = ∅ := by
  obtain ⟨c1, h1, -, h3⟩ := computeSlowHull_spec ⟨pts, ∅, count⟩
  refine ⟨c1, h1, ?_⟩
  apply Finset.eq_empty_of_forall_not_mem
  intro e he
  rw [h3] at he
  rcases he with he | he
  · simp at he
  · have h4 := he.1
    have h5 := he.2.1
    simp only at h5
    omega

theorem computeSlowHull_two_edges (pts : List QPointF) (count : ℤ) (h : pts.length = 2) :
    ∃ c1, computeSlowHull ⟨pts, ∅, count⟩ = some c1 ∧ c1.edges = {⟨0, 1⟩} := by
  obtain ⟨c1, h1, -, h3⟩ := computeSlowHull_spec ⟨pts, ∅, count⟩
  refine ⟨c1, h1, ?_⟩
  ext e
  rw [h3, Finset.mem_singleton, slowEdge_small]
  simp only [Finset.not_mem_empty, false_or, h]
  constructor
  · rintro ⟨h4, h5, -⟩
    cases e with
    | mk i j =>
      simp only at h4 h5
      simp only [Edge.mk.injEq]
      omega
  · rintro rfl
    refine ⟨by decide, by decide, ?_⟩
    rintro ⟨⟨k, hk, hk0, hk1, -⟩, -⟩
    simp only at hk0 hk1
    omega

/-- C6, counterexample. On the two points `(0,0)`, `(1,0)` both functions return
the edge set `{(0,1)}`, which is not empty. -/
theorem two_points_edge_set_nonempty :
    (∃ c1, computeSlowHull ⟨[⟨0, 0⟩, ⟨1, 0⟩], ∅, 0⟩ = some c1 ∧
      c1.edges = {⟨0, 1⟩} ∧ c1.edges ≠ ∅) ∧
    (∃ c1, computeFastHull ⟨[⟨0, 0⟩, ⟨1, 0⟩], ∅, 0⟩ = some c1 ∧
      c1.edges = {⟨0, 1⟩} ∧ c1.edges ≠ ∅) := by
  constructor
  · obtain ⟨c1, h1, h2⟩ := computeSlowHull_two_edges [⟨0, 0⟩, ⟨1, 0⟩] 0 rfl
    exact ⟨c1, h1, h2, by rw [h2]; decide⟩
  · obtain ⟨c1, h1, h2⟩ := computeFastHull_two_edges ⟨0, 0⟩ ⟨1, 0⟩ ∅ 0
    have h3 : c1.edges = {⟨0, 1⟩} := by rw [h2]; rfl
    exact ⟨c1, h1, h3, by rw [h3]; decide⟩

/-- C6, amended. Started from an empty edge set: for `n = 0` and `n = 1`
`computeSlowHull` returns the empty edge set; for `n = 1` so does
`computeFastHull`; for `n = 2` both return exactly `{(0,1)}`. -/
theorem small_inputs_edge_sets (pts : List QPointF) (count : ℤ) :
    (pts.length ≤ 1 → ∃ c1, computeSlowHull ⟨pts, ∅, count⟩ = some c1 ∧ c1.edges = ∅) ∧
    (pts.length = 1 → ∃ c1, computeFastHull ⟨pts, ∅, count⟩ = some c1 ∧ c1.edges = ∅) ∧
    (pts.length = 2 →
      (∃ c1, computeSlowHull ⟨pts, ∅, count⟩ = some c1 ∧ c1.edges = {⟨0, 1⟩}) ∧
      (∃ c1, computeFastHull ⟨pts, ∅, count⟩ = some c1 ∧ c1.edges = {⟨0, 1⟩})) := by
  refine ⟨computeSlowHull_short pts count, ?_, ?_⟩
  · intro h
    obtain ⟨p, rfl⟩ := List.length_eq_one.mp h
    exact computeFastHull_one_edges p ∅ count
  · intro h
    refine ⟨computeSlowHull_two_edges pts count h, ?_⟩
    obtain ⟨p, q, rfl⟩ := List.length_eq_two.mp h
    obtain ⟨c1, h1, h2⟩ := computeFastHull_two_edges p q ∅ count
    exact ⟨c1, h1, by rw [h2]; rfl⟩

theorem small_inputs_edge_sets_witness :
    (∃ c1, computeSlowHull ⟨[⟨3, 4⟩, ⟨1, 2⟩], ∅, 0⟩ = some c1 ∧ c1.edges = {⟨0, 1⟩}) ∧
    (∃ c1, computeFastHull ⟨[⟨3, 4⟩, ⟨1, 2⟩], ∅, 0⟩ = some c1 ∧ c1.edges = {⟨0, 1⟩}) :=
  (small_inputs_edge_sets [⟨3, 4⟩, ⟨1, 2⟩] 0).2.2 rfl

theorem fastHullFrom_nil_none (edges : Finset Edge) (count : ℤ) :
    fastHullFrom ⟨[], edges, count⟩ [] = none := by
  simp [fastHullFrom, hullFrom, lowerChain, upperChain]

theorem fastHull_nil_none (edges : Finset Edge) (count : ℤ) :
    computeFastHull ⟨[], edges, count⟩ = none := by
  simp [computeFastHull, sortIdx, fastHullFrom_nil_none]

theorem points_ne_nil_of_fastHullFrom {pts : List QPointF} {edges : Finset Edge} {count : ℤ}
    {idx : List ℕ} {c1 : DrawCanvas} (hs : SortedIdx pts idx)
    (h : fastHullFrom ⟨pts, edges, count⟩ idx = some c1) : pts ≠ [] := by
  rintro rfl
  rw [hs.eq_nil, fastHullFrom_nil_none] at h
  exact absurd h (by simp)

/-- C7, at the failing input. On the empty point list both chain passes leave the
stack empty, so `computeFastHull` applies the unconditional `hull.pop_back()` to an
empty `hull` and does not return. -/
theorem computeFastHull_nil (edges : Finset Edge) (count : ℤ) :
    lowerChain [] (sortIdx [] (List.range 0)) [] 0 = some ([], 0) ∧
    upperChain [] (sortIdx [] (List.range 0)) 1 (List.range (0 - 1)).reverse [] 0 =
      some ([], 0) ∧
    hullFrom [] (sortIdx [] (List.range 0)) = none ∧
    computeFastHull ⟨[], edges, count⟩ = none := by
  refine ⟨rfl, rfl, rfl, fastHull_nil_none edges count⟩

theorem noThreeCollinear_of_check (pts : List QPointF) (h : noThreeCollinearCheck pts = true) :
    NoThreeCollinear pts := by
  intro i hi j hj k hk hij hik hjk
  simp only [noThreeCollinearCheck, List.all_eq_true, List.mem_range, Bool.or_eq_true,
    decide_eq_true_eq] at h
  rcases h i hi j hj k hk with ((h | h) | h) | h
  · exact absurd h hij
  · exact absurd h hik
  · exact absurd h hjk
  · exact h

theorem noThreeCollinear_refPoints : NoThreeCollinear refPoints :=
  noThreeCollinear_of_check refPoints (by decide!)

theorem hullFrom_refPoints :
    hullFrom refPoints (sortIdx refPoints (List.range refPoints.length)) =
      some ([0, 2, 3, 6, 7], 15) := by
  decide!

/-- C5. On the reference input no three points are collinear, the hull vertex
sequence after the final `pop_back` is `0, 2, 3, 6, 7` (a rotation of that cycle,
by zero places), and `computeFastHull` and `computeSlowHull` produce the same edge
set. -/
theorem computeFastHull_refPoints :
    NoThreeCollinear refPoints ∧
    (∃ vec count k,
      hullFrom refPoints (sortIdx refPoints (List.range refPoints.length)) = some (vec, count) ∧
      vec = [0, 2, 3, 6, 7] ∧
      (vec = [0, 2, 3, 6, 7].rotate k ∨ vec = [0, 2, 3, 6, 7].reverse.rotate k)) ∧
    (∃ c1 c2, computeFastHull ⟨refPoints, ∅, 0⟩ = some c1 ∧
      computeSlowHull ⟨refPoints, ∅, 0⟩ = some c2 ∧ c1.edges = c2.edges) := by
  refine ⟨noThreeCollinear_refPoints, ⟨_, _, 0, hullFrom_refPoints, rfl, Or.inl rfl⟩, ?_⟩
  obtain ⟨c2, h2, h3⟩ := slowHull_refPoints_edges
  have h : (computeFastHull ⟨refPoints, ∅, 0⟩).map
      (fun c => decide (c.edges = {⟨0, 2⟩, ⟨2, 3⟩, ⟨3, 6⟩, ⟨6, 7⟩, ⟨0, 7⟩})) = some true := by
    decide!
  cases hc : computeFastHull ⟨refPoints, ∅, 0⟩ with
  | none => rw [hc] at h; exact absurd h (by simp)
  | some c1 =>
    rw [hc] at h
    have h1 : c1.edges = {⟨0, 2⟩, ⟨2, 3⟩, ⟨3, 6⟩, ⟨6, 7⟩, ⟨0, 7⟩} := by simpa using h
    exact ⟨c1, c2, rfl, h2, by rw [h1, h3]⟩

theorem slowPairs_count_indep (pts : List QPointF) (i : ℕ) :
    ∀ (js : List ℕ) (e1 e2 : Finset Edge) (count : ℤ),
      (slowPairs pts i js e1 count).map Prod.snd = (slowPairs pts i js e2 count).map Prod.snd
  | [], _, _, _ => rfl
  | j :: js, e1, e2, count => by
    rw [slowPairs, slowPairs]
    cases slowInner pts i j (List.range pts.length) false false count with
    | none => rfl
    | some r => exact slowPairs_count_indep pts i js _ _ _

theorem slowOuter_count_indep (pts : List QPointF) :
    ∀ (is : List ℕ) (e1 e2 : Finset Edge) (count : ℤ),
      (slowOuter pts is e1 count).map Prod.snd = (slowOuter pts is e2 count).map Prod.snd
  | [], _, _, _ => rfl
  | i :: is, e1, e2, count => by
    have h := slowPairs_count_indep pts i (List.range' (i + 1) (pts.length - (i + 1))) e1 e2 count
    rw [slowOuter, slowOuter]
    cases h1 : slowPairs pts i (List.range' (i + 1) (pts.length - (i + 1))) e1 count with
    | none =>
      cases h2 : slowPairs pts i (List.range' (i + 1) (pts.length - (i + 1))) e2 count with
      | none => rfl
      | some r2 => rw [h1, h2] at h; exact absurd h (by simp)
    | some r1 =>
      cases h2 : slowPairs pts i (List.range' (i + 1) (pts.length - (i + 1))) e2 count with
      | none => rw [h1, h2] at h; exact absurd h (by simp)
      | some r2 =>
        rw [h1, h2] at h
        have h3 : r1.2 = r2.2 := by simpa using h
        obtain ⟨a1, n1⟩ := r1
        obtain ⟨a2, n2⟩ := r2
        simp only at h3
        subst h3
        exact slowOuter_count_indep pts is a1 a2 n1

theorem computeSlowHull_twice (c c1 : DrawCanvas) (h : computeSlowHull c = some c1) :
    computeSlowHull c1 = some c1 := by
  obtain ⟨d, hd, hp, he⟩ := computeSlowHull_spec c
  rw [h] at hd
  cases hd
  obtain ⟨c2, h2, hp2, he2⟩ := computeSlowHull_spec c1
  rw [h2]
  have hedges : c2.edges = c1.edges := by
    ext e
    rw [he2, he, hp]
    constructor
    · rintro ((h | h) | h)
      · exact Or.inl h
      · exact Or.inr h
      · exact Or.inr h
    · intro h; exact Or.inl h
  have hcount : c2.iterationCount = c1.iterationCount := by
    have hi := slowOuter_count_indep c.points (List.range c.points.length) c.edges c1.edges 0
    rw [computeSlowHull] at h h2
    rw [hp] at h2
    cases h3 : slowOuter c.points (List.range c.points.length) c.edges 0 with
    | none => rw [h3] at h; exact absurd h (by simp)
    | some r =>
      cases h4 : slowOuter c.points (List.range c.points.length) c1.edges 0 with
      | none => rw [h4] at h2; exact absurd h2 (by simp)
      | some r2 =>
        rw [h3] at h
        rw [h4] at h2
        rw [h3, h4] at hi
        simp only [Option.some.injEq] at h h2
        rw [← h, ← h2]
        simpa using hi.symm
  cases c1
  cases c2
  simp only at hedges hcount hp2
  subst hedges hcount hp2
  rfl

/-- A second run of the body of `computeFastHull` with the same sorted order
returns the state it started from. -/
theorem fastHullFrom_twice (c c1 : DrawCanvas) (idx : List ℕ)
    (h : fastHullFrom c idx = some c1) : fastHullFrom c1 idx = some c1 := by
  obtain ⟨vec, count, h1, hp, hc, he⟩ := fastHullFrom_eq_some c c1 idx h
  rw [← hp] at h1
  obtain ⟨e2, h2, h3⟩ := fastHullFrom_of_hullFrom c1 idx vec count h1
  rw [h2]
  have hedges : e2 = c1.edges := by
    ext e
    rw [h3, he]
    constructor
    · rintro ((h | h) | h)
      · exact Or.inl h
      · exact Or.inr h
      · exact Or.inr h
    · intro h; exact Or.inl h
  cases c1
  simp only at hedges hc
  subst hedges hc
  rfl

theorem computeFastHull_twice (c c1 : DrawCanvas) (h : computeFastHull c = some c1) :
    computeFastHull c1 = some c1 := by
  obtain ⟨vec, count, -, hp, -, -⟩ := fastHullFrom_eq_some c c1 _ h
  rw [computeFastHull, hp]
  exact fastHullFrom_twice c c1 _ h

/-- C9. A second run of `computeSlowHull` on the state left by a first run leaves
that state (points, edge set and `iterationCount`) unchanged, and the same holds
for `computeFastHull`; the first run of `computeSlowHull` always returns and that
of `computeFastHull` returns on every non-empty point list. -/
theorem hull_idempotent (c : DrawCanvas) :
    (∃ c1, computeSlowHull c = some c1 ∧ computeSlowHull c1 = some c1) ∧
    (c.points ≠ [] → ∃ c1, computeFastHull c = some c1 ∧ computeFastHull c1 = some c1) ∧
    (∀ c1, computeFastHull c = some c1 → computeFastHull c1 = some c1) := by
  refine ⟨?_, ?_, fun c1 h => computeFastHull_twice c c1 h⟩
  · obtain ⟨c1, h1, -⟩ := computeSlowHull_spec c
    exact ⟨c1, h1, computeSlowHull_twice c c1 h1⟩
  · intro hne
    obtain ⟨c1, h1⟩ := computeFastHull_isSome c hne
    exact ⟨c1, h1, computeFastHull_twice c c1 h1⟩

theorem hull_idempotent_witness :
    ∃ c1, computeFastHull ⟨refPoints, {⟨1, 4⟩}, 7⟩ = some c1 ∧ computeFastHull c1 = some c1 := by
  have h := (hull_idempotent (DrawCanvas.mk refPoints {Edge.mk 1 4} 7)).2.1
  apply h
  show refPoints ≠ []
  unfold refPoints
  exact List.cons_ne_nil _ _

/-! ## Soundness of a chain pass -/

theorem keep_stop {cr : QPointF → QPointF → QPointF → ℚ} (P : ℕ → QPointF) (q : ℕ) :
    ∀ (H : List ℕ) (b a : ℕ) (rest : List ℕ), keep cr P q H = b :: a :: rest →
      0 < cr (P a) (P b) (P q)
  | [], _, _, _, h => by simp [keep] at h
  | [x], _, _, _, h => by simp [keep] at h
  | x :: y :: tl, b, a, rest, h => by
    rw [keep] at h
    by_cases hc : cr (P y) (P x) (P q) ≤ 0
    · rw [if_pos hc] at h
      exact keep_stop P q (y :: tl) b a rest h
    · rw [if_neg hc] at h
      simp only [List.cons.injEq] at h
      obtain ⟨rfl, rfl, -⟩ := h
      exact not_le.mp hc

theorem keep_last_popped (P : ℕ → QPointF) (q : ℕ) :
    ∀ (H : List ℕ) (m : ℕ) (rest : List ℕ), keep crossExact P q H = m :: rest →
      H = m :: rest ∨
        ∃ pre x, H = pre ++ x :: m :: rest ∧ crossExact (P m) (P x) (P q) ≤ 0
  | [], _, _, h => by simp [keep] at h
  | [x], m, rest, h => by
    left
    simpa [keep] using h
  | x :: y :: tl, m, rest, h => by
    rw [keep] at h
    by_cases hc : crossExact (P y) (P x) (P q) ≤ 0
    · rw [if_pos hc] at h
      right
      rcases keep_last_popped P q (y :: tl) m rest h with h1 | ⟨pre, z, h1, h2⟩
      · simp only [List.cons.injEq] at h1
        obtain ⟨rfl, rfl⟩ := h1
        exact ⟨[], x, rfl, hc⟩
      · exact ⟨x :: pre, z, by rw [h1]; rfl, h2⟩
    · rw [if_neg hc] at h
      exact Or.inl h

theorem pair_infix_cons {b a q : ℕ} {H : List ℕ} (h : [b, a] <:+: q :: H) :
    (b = q ∧ H.head? = some a) ∨ [b, a] <:+: H := by
  rcases List.infix_cons_iff.mp h with h | h
  · left
    rw [List.cons_prefix_cons] at h
    refine ⟨h.1, ?_⟩
    cases H with
    | nil => simp at h
    | cons x tl =>
      have := (List.cons_prefix_cons.mp h.2).1
      simp [this]
  · exact Or.inr h

theorem triple_infix_cons {c b a q : ℕ} {H : List ℕ} (h : [c, b, a] <:+: q :: H) :
    (c = q ∧ ∃ rest, H = b :: a :: rest) ∨ [c, b, a] <:+: H := by
  rcases List.infix_cons_iff.mp h with h | h
  · left
    rw [List.cons_prefix_cons] at h
    refine ⟨h.1, ?_⟩
    obtain ⟨t, ht⟩ := h.2
    exact ⟨t, ht.symm⟩
  · exact Or.inr h

/-- A candidate `q`, not before the top of a left-turning sorted chain and left of
its top edge, is left of every edge of the chain. -/
theorem left_of_chain (P : ℕ → QPointF) (q : ℕ) :
    ∀ (G : List ℕ),
      (∀ b a, [b, a] <:+: G → lexLe (P a) (P b)) →
      (∀ c b a, [c, b, a] <:+: G → 0 < crossExact (P a) (P b) (P c)) →
      (∀ t, G.head? = some t → lexLe (P t) (P q)) →
      (∀ m a rest, G = m :: a :: rest → 0 < crossExact (P a) (P m) (P q)) →
      ∀ b a, [b, a] <:+: G → 0 < crossExact (P a) (P b) (P q)
  | [], _, _, _, _, b, a, h => by simp at h
  | [x], _, _, _, _, b, a, h => by
    have := h.length_le
    simp at this
  | m :: a1 :: rest, hs, hc, ht, hstop, b, a, h => by
    rcases pair_infix_cons h with ⟨rfl, h1⟩ | h1
    · simp only [List.head?_cons, Option.some.injEq] at h1
      subst h1
      exact hstop _ _ _ rfl
    · have hma : lexLe (P a1) (P m) := hs m a1 ⟨[], rest, rfl⟩
      have hmq : lexLe (P m) (P q) := ht m rfl
      apply left_of_chain P q (a1 :: rest)
        (fun b a hba => hs b a (hba.trans (List.infix_cons (List.infix_refl _))))
        (fun c b a hcba => hc c b a (hcba.trans (List.infix_cons (List.infix_refl _))))
        (fun t ht1 => by
          simp only [List.head?_cons, Option.some.injEq] at ht1
          subst ht1
          exact lexLe_trans hma hmq)
        (fun m1 a2 rest2 hG => by
          simp only [List.cons.injEq] at hG
          obtain ⟨rfl, rfl⟩ := hG
          exact old_edge_below (hs _ _ ⟨[m], rest2, rfl⟩) hma hmq
            (hc _ _ _ ⟨[], rest2, rfl⟩) (hstop _ _ _ rfl).le)
        b a h1

theorem suffix_getLast? {H1 H : List ℕ} (hs : H1 <:+ H) (hne : H1 ≠ []) :
    H1.getLast? = H.getLast? := by
  obtain ⟨pre, rfl⟩ := hs
  rw [List.getLast?_append]
  cases h : H1.getLast? with
  | none => exact absurd (List.getLast?_eq_none_iff.mp h) hne
  | some x => rfl

theorem head?_mem_of_suffix {H1 H : List ℕ} {m : ℕ} (hs : H1 <:+ H)
    (hm : H1.head? = some m) : m ∈ H :=
  hs.subset (List.mem_of_mem_head? hm)

/-- One iteration of a chain pass keeps the invariant. -/
theorem ChainInv.step {P : ℕ → QPointF} {seen H : List ℕ} (inv : ChainInv P seen H) (q : ℕ)
    (hq : ∀ p ∈ seen, lexLe (P p) (P q)) :
    ChainInv P (q :: seen) (q :: keep crossExact P q H) := by
  have hsuf := @keep_suffix crossExact P q H
  have hne := @keep_ne_nil crossExact P q H inv.ne
  obtain ⟨m, rest, hK⟩ := List.exists_cons_of_ne_nil hne
  have hinf : ∀ {l : List ℕ}, l <:+: keep crossExact P q H → l <:+: H := fun h => h.trans hsuf.isInfix
  have hmH : m ∈ H := hsuf.subset (by rw [hK]; exact List.mem_cons_self _ _)
  have hHseen : ∀ x ∈ H, x ∈ seen := fun x hx => inv.sub.subset hx
  have hmq : lexLe (P m) (P q) := hq m (hHseen m hmH)
  have hstop : ∀ a rest1, rest = a :: rest1 → 0 < crossExact (P a) (P m) (P q) := by
    intro a rest1 h
    exact keep_stop P q H m a rest1 (by rw [hK, h])
  have hlast : (keep crossExact P q H).getLast? = H.getLast? := suffix_getLast? hsuf hne
  have hnewleft : ∀ b a, [b, a] <:+: keep crossExact P q H → 0 < crossExact (P a) (P b) (P q) := by
    apply left_of_chain P q (keep crossExact P q H)
      (fun b a h => inv.sorted b a (hinf h))
      (fun c b a h => inv.convex c b a (hinf h))
    · intro t ht
      rw [hK] at ht
      simp only [List.head?_cons, Option.some.injEq] at ht
      subst ht
      exact hmq
    · intro m1 a rest1 h
      exact keep_stop P q H m1 a rest1 h
  refine ⟨by simp, (hsuf.sublist.trans inv.sub).cons₂ q, ?_, ?_, ?_, ?_, ?_, ?_⟩
  · -- sorted
    intro b a h
    rcases pair_infix_cons h with ⟨hbq, h1⟩ | h1
    · rw [hK] at h1
      simp only [List.head?_cons, Option.some.injEq] at h1
      rw [hbq, ← h1]
      exact hmq
    · exact inv.sorted b a (hinf h1)
  · -- convex
    intro c b a h
    rcases triple_infix_cons h with ⟨hcq, rest1, h1⟩ | h1
    · rw [hcq]
      exact keep_stop P q H b a rest1 h1
    · exact inv.convex c b a (hinf h1)
  · -- top
    intro t ht p hp
    simp only [List.head?_cons, Option.some.injEq] at ht
    subst ht
    rcases List.mem_cons.mp hp with rfl | hp
    · exact lexLe_refl _
    · exact hq p hp
  · -- bottom
    intro l hl p hp
    have hl1 : H.getLast? = some l := by
      rw [← hlast, ← hl, hK]
      simp [List.getLast?_cons_cons]
    rcases List.mem_cons.mp hp with rfl | hp
    · obtain ⟨ys, hys⟩ := List.getLast?_eq_some_iff.mp hl1
      exact hq l (hHseen l (by rw [hys]; simp))
    · exact inv.bottom l hl1 p hp
  · -- left
    intro b a h p hp
    rcases pair_infix_cons h with ⟨hbq, h1⟩ | h1
    · rw [hK] at h1
      simp only [List.head?_cons, Option.some.injEq] at h1
      rw [hbq, ← h1]
      rcases List.mem_cons.mp hp with hpq | hp
      · rw [hpq, cross_self_mid]
      · rcases lexLe_total (P p) (P m) with hpa | hap
        · cases rest with
          | nil =>
            have hl1 : H.getLast? = some m := by rw [← hlast, hK]; rfl
            have := lexLe_antisymm hpa (inv.bottom m hl1 p hp)
            rw [this, cross_self_right]
          | cons a1 rest1 =>
            have hin : [m, a1] <:+: H := hinf (by rw [hK]; exact ⟨[], rest1, rfl⟩)
            exact new_edge_before (inv.sorted _ _ hin) hmq hpa (inv.left _ _ hin p hp)
              (hstop a1 rest1 rfl)
        · rcases keep_last_popped P q H m rest hK with h2 | ⟨pre, x, h2, h3⟩
          · have ht : H.head? = some m := by rw [h2]; rfl
            have := lexLe_antisymm (inv.top m ht p hp) hap
            rw [this, cross_self_right]
          · have hin : [x, m] <:+: H := ⟨pre, rest, by rw [h2]; simp⟩
            by_cases hxa : P x = P m
            · have := inv.flat x m hin hxa.symm p hp
              rw [this, cross_self_right]
            · exact new_edge_after (inv.sorted _ _ hin) hmq hap hxa h3 (inv.left _ _ hin p hp)
    · rcases List.mem_cons.mp hp with hpq | hp
      · rw [hpq]
        exact (hnewleft b a h1).le
      · exact inv.left b a (hinf h1) p hp
  · -- flat
    intro b a h hab p hp
    rcases pair_infix_cons h with ⟨hbq, h1⟩ | h1
    · rw [hK] at h1
      simp only [List.head?_cons, Option.some.injEq] at h1
      rw [hbq, ← h1] at hab
      rw [← h1]
      rcases List.mem_cons.mp hp with hpq | hp
      · rw [hpq]
        exact hab.symm
      · cases rest with
        | nil =>
          have hl1 : H.getLast? = some m := by rw [← hlast, hK]; rfl
          apply lexLe_antisymm _ (inv.bottom m hl1 p hp)
          rw [hab]
          exact hq p hp
        | cons a1 rest1 =>
          have := hstop a1 rest1 rfl
          rw [← hab, cross_self_mid] at this
          exact absurd this (lt_irrefl _)
    · exfalso
      have h2 := hnewleft b a h1
      have hbm : b ∈ seen := hHseen b ((hinf h1).subset (by simp))
      have hb : P b = P a := inv.flat b a (hinf h1) hab b hbm
      rw [hb, cross_self_left] at h2
      exact lt_irrefl _ h2

theorem chainInv_singleton (P : ℕ → QPointF) (s : ℕ) : ChainInv P [s] [s] := by
  refine ⟨by simp, List.Sublist.refl _, ?_, ?_, ?_, ?_, ?_, ?_⟩
  · intro b a h
    have := h.length_le
    simp at this
  · intro c b a h
    have := h.length_le
    simp at this
  · intro t ht p hp
    simp only [List.head?_cons, Option.some.injEq] at ht
    rw [List.mem_singleton] at hp
    subst ht hp
    exact lexLe_refl _
  · intro l hl p hp
    simp only [List.getLast?_singleton, Option.some.injEq] at hl
    rw [List.mem_singleton] at hp
    subst hl hp
    exact lexLe_refl _
  · intro b a h
    have := h.length_le
    simp at this
  · intro b a h
    have := h.length_le
    simp at this

theorem scan_inv (P : ℕ → QPointF) :
    ∀ (ids seen H : List ℕ), ChainInv P seen H →
      ids.Pairwise (fun a b => lexLe (P a) (P b)) →
      (∀ p ∈ seen, ∀ q ∈ ids, lexLe (P p) (P q)) →
      ChainInv P (ids.reverse ++ seen) (scan crossExact P ids H)
  | [], seen, H, inv, _, _ => by simpa [scan] using inv
  | q :: ids, seen, H, inv, hpw, hsq => by
    rw [scan]
    have h1 := inv.step q (fun p hp => hsq p hp q (List.mem_cons_self _ _))
    rw [List.pairwise_cons] at hpw
    have h2 := scan_inv P ids (q :: seen) (q :: keep crossExact P q H) h1 hpw.2 (by
      intro p hp r hr
      rcases List.mem_cons.mp hp with rfl | hp
      · exact hpw.1 r hr
      · exact hsq p hp r (List.mem_cons_of_mem _ hr))
    simpa using h2

/-- After a pass over a sorted non-empty list of candidates the stack satisfies
the chain invariant for all candidates. -/
theorem scan_chainInv (P : ℕ → QPointF) (ids : List ℕ) (hne : ids ≠ [])
    (hpw : ids.Pairwise (fun a b => lexLe (P a) (P b))) :
    ChainInv P ids.reverse (scan crossExact P ids []) := by
  obtain ⟨s, rest, rfl⟩ := List.exists_cons_of_ne_nil hne
  rw [scan_nil_cons]
  rw [List.pairwise_cons] at hpw
  have h := scan_inv P rest [s] [s] (chainInv_singleton P s) hpw.2 (by
    intro p hp q hq
    rw [List.mem_singleton] at hp
    subst hp
    exact hpw.1 q hq)
  simpa using h

/-! ## The upper pass as a lower pass on the reflected points -/

theorem cross_negPt (a b c : QPointF) : crossExact (negPt a) (negPt b) (negPt c) = crossExact a b c := by
  unfold crossExact negPt
  ring

theorem lexLe_negPt (a b : QPointF) : lexLe (negPt a) (negPt b) ↔ lexLe b a := by
  unfold lexLe negPt
  constructor
  · rintro (h | ⟨h1, h2⟩)
    · exact Or.inl (by simpa using h)
    · exact Or.inr ⟨by simpa using h1.symm, by simpa using h2⟩
  · rintro (h | ⟨h1, h2⟩)
    · exact Or.inl (by simpa using h)
    · exact Or.inr ⟨by simpa using h1.symm, by simpa using h2⟩

theorem keep_congr (P Q : ℕ → QPointF)
    (h : ∀ a b c, crossExact (P a) (P b) (P c) = crossExact (Q a) (Q b) (Q c)) (q : ℕ) :
    ∀ H : List ℕ, keep crossExact P q H = keep crossExact Q q H
  | [] => rfl
  | [_] => rfl
  | b :: a :: rest => by
    rw [keep, keep, h, keep_congr P Q h q (a :: rest)]

theorem scan_congr (P Q : ℕ → QPointF)
    (h : ∀ a b c, crossExact (P a) (P b) (P c) = crossExact (Q a) (Q b) (Q c)) :
    ∀ ids H : List ℕ, scan crossExact P ids H = scan crossExact Q ids H
  | [], _ => rfl
  | q :: ids, H => by
    rw [scan, scan, keep_congr P Q h, scan_congr P Q h ids]

/-- The stack of the upper pass, taken alone, satisfies the chain invariant for
the reflected points. -/
theorem scan_reverse_chainInv (P : ℕ → QPointF) (ids : List ℕ) (hne : ids ≠ [])
    (hpw : ids.Pairwise (fun a b => lexLe (P a) (P b))) :
    ChainInv (fun i => negPt (P i)) ids (scan crossExact P ids.reverse []) := by
  have h := scan_chainInv (fun i => negPt (P i)) ids.reverse (by simpa using hne) (by
    rw [List.pairwise_reverse]
    exact hpw.imp (fun hab => (lexLe_negPt _ _).mpr hab))
  rw [List.reverse_reverse] at h
  rw [scan_congr P (fun i => negPt (P i)) (fun a b c => (cross_negPt _ _ _).symm)]
  exact h

/-- Every candidate is on the closed left of every edge of the lower chain. -/
theorem lower_left (P : ℕ → QPointF) (ids : List ℕ) (hne : ids ≠ [])
    (hpw : ids.Pairwise (fun a b => lexLe (P a) (P b))) (b a : ℕ)
    (h : [b, a] <:+: scan crossExact P ids []) (p : ℕ) (hp : p ∈ ids) :
    0 ≤ crossExact (P a) (P b) (P p) :=
  (scan_chainInv P ids hne hpw).left b a h p (List.mem_reverse.mpr hp)

/-- Every candidate is on the closed left of every edge of the upper chain. -/
theorem upper_left (P : ℕ → QPointF) (ids : List ℕ) (hne : ids ≠ [])
    (hpw : ids.Pairwise (fun a b => lexLe (P a) (P b))) (b a : ℕ)
    (h : [b, a] <:+: scan crossExact P ids.reverse []) (p : ℕ) (hp : p ∈ ids) :
    0 ≤ crossExact (P a) (P b) (P p) := by
  have := (scan_reverse_chainInv P ids hne hpw).left b a h p hp
  simpa only [cross_negPt] using this

/-! ## From the rounded turn test to the exact one -/

theorem keep_congr_on (cr1 cr2 : QPointF → QPointF → QPointF → ℚ) (P : ℕ → QPointF) (n : ℕ)
    (h : ∀ a < n, ∀ b < n, ∀ c < n, (cr1 (P a) (P b) (P c) ≤ 0 ↔ cr2 (P a) (P b) (P c) ≤ 0))
    (id : ℕ) (hid : id < n) :
    ∀ H : List ℕ, (∀ a ∈ H, a < n) → keep cr1 P id H = keep cr2 P id H
  | [], _ => rfl
  | [_], _ => rfl
  | b :: a :: rest, hH => by
    have ha : a < n := hH a (by simp)
    have hb : b < n := hH b (by simp)
    have ih := keep_congr_on cr1 cr2 P n h id hid (a :: rest)
      (fun x hx => hH x (List.mem_cons_of_mem _ hx))
    rw [keep, keep, ih]
    by_cases hc : cr1 (P a) (P b) (P id) ≤ 0
    · rw [if_pos hc, if_pos ((h a ha b hb id hid).mp hc)]
    · rw [if_neg hc, if_neg (fun h2 => hc ((h a ha b hb id hid).mpr h2))]

theorem scan_congr_on (cr1 cr2 : QPointF → QPointF → QPointF → ℚ) (P : ℕ → QPointF) (n : ℕ)
    (h : ∀ a < n, ∀ b < n, ∀ c < n, (cr1 (P a) (P b) (P c) ≤ 0 ↔ cr2 (P a) (P b) (P c) ≤ 0)) :
    ∀ ids H : List ℕ, (∀ a ∈ ids, a < n) → (∀ a ∈ H, a < n) →
      scan cr1 P ids H = scan cr2 P ids H
  | [], _, _, _ => rfl
  | q :: ids, H, hids, hH => by
    have hq : q < n := hids q (List.mem_cons_self _ _)
    rw [scan, scan, keep_congr_on cr1 cr2 P n h q hq H hH]
    apply scan_congr_on cr1 cr2 P n h ids _ (fun a ha => hids a (List.mem_cons_of_mem _ ha))
    intro a ha
    rcases List.mem_cons.mp ha with rfl | ha
    · exact hq
    · exact keep_bound _ _ _ H hH a ha

/-- Where rounding changes no test, the stacks that the program builds are the
stacks of the exact chain passes. -/
theorem scan_cross_eq_exact (pts : List QPointF) (hsafe : RoundingSafe pts) (ids H : List ℕ)
    (hids : ∀ a ∈ ids, a < pts.length) (hH : ∀ a ∈ H, a < pts.length) :
    scan cross (pt pts) ids H = scan crossExact (pt pts) ids H :=
  scan_congr_on cross crossExact (pt pts) pts.length
    (fun a ha b hb c hc => (hsafe.2 a ha b hb c hc).1) ids H hids hH

theorem roundingSafe_of_check (pts : List QPointF) (h : roundingSafeCheck pts = true) :
    RoundingSafe pts := by
  unfold roundingSafeCheck at h
  rw [Bool.and_eq_true] at h
  obtain ⟨h1, h2⟩ := h
  constructor
  · intro p hp
    rw [List.all_eq_true] at h1
    have := h1 p hp
    simpa using this
  · intro i hi j hj k hk
    rw [List.all_eq_true] at h2
    have h3 := h2 i (List.mem_range.mpr hi)
    rw [List.all_eq_true] at h3
    have h4 := h3 j (List.mem_range.mpr hj)
    rw [List.all_eq_true] at h4
    have h5 := h4 k (List.mem_range.mpr hk)
    simp only [Bool.and_eq_true, decide_eq_true_eq] at h5
    exact ⟨h5.1.1, h5.1.2, h5.2⟩

/-- Points with integer coordinates of magnitude below `2^25`: every `cross` value
is exact, so rounding changes no test. -/
theorem roundingSafe_of_smallInt (pts : List QPointF) (h : ∀ p ∈ pts, SmallInt p) :
    RoundingSafe pts := by
  have hpt : ∀ i, i < pts.length → SmallInt (pt pts i) := fun i hi => h _ (by
    have := getElem?_pt hi
    rw [List.getElem?_eq_getElem hi] at this
    rw [← Option.some.inj this]
    exact List.getElem_mem hi)
  constructor
  · intro p hp
    obtain ⟨x, y, hx, hy, hx1, hy1⟩ := h p hp
    have hb : ((2 : ℤ) ^ 25 : ℤ) ≤ 2 ^ 200 :=
      pow_le_pow_right₀ (show (1 : ℤ) ≤ 2 by decide) (show 25 ≤ 200 by decide)
    have h1 : |x| < 2 ^ 200 := lt_of_lt_of_le hx1 hb
    have h2 : |y| < 2 ^ 200 := lt_of_lt_of_le hy1 hb
    rw [hx, hy]
    exact ⟨by exact_mod_cast h1, by exact_mod_cast h2⟩
  · intro i hi j hj k hk
    rw [cross_eq_exact_of_smallInt (hpt i hi) (hpt j hj) (hpt k hk)]
    exact ⟨Iff.rfl, Iff.rfl, Iff.rfl⟩

theorem roundingSafe_refPoints : RoundingSafe refPoints :=
  roundingSafe_of_smallInt refPoints smallInt_refPoints

/-! ## The pairs read by the edge loop -/

theorem cycPair_iff_zip (vec : List ℕ) (a b : ℕ) :
    CycPair vec a b ↔ (a, b) ∈ vec.zip (vec.rotate 1) := by
  rw [List.mem_iff_getElem?]
  constructor
  · rintro ⟨i, hi, h1, h2⟩
    refine ⟨i, ?_⟩
    rw [List.getElem?_zip_eq_some]
    exact ⟨h1, by rw [List.getElem?_rotate hi]; exact h2⟩
  · rintro ⟨i, h⟩
    rw [List.getElem?_zip_eq_some] at h
    have hi : i < vec.length := by
      by_contra hc
      rw [List.getElem?_eq_none (not_lt.mp hc)] at h
      exact absurd h.1 (by simp)
    exact ⟨i, hi, h.1, by rw [← List.getElem?_rotate hi]; exact h.2⟩

theorem mem_zip_tail_iff (a b : ℕ) :
    ∀ l : List ℕ, (a, b) ∈ l.zip l.tail ↔ [a, b] <:+: l
  | [] => by simp
  | [x] => by
    simp only [List.tail_cons, List.zip_nil_right, List.not_mem_nil, false_iff]
    intro h
    have := h.length_le
    simp at this
  | x :: y :: tl => by
    have ih := mem_zip_tail_iff a b (y :: tl)
    rw [List.tail_cons] at ih ⊢
    rw [List.zip_cons_cons, List.mem_cons, ih]
    rw [show ([a, b] <:+: x :: y :: tl) ↔ ([a, b] <+: x :: y :: tl ∨ [a, b] <:+: y :: tl) from
      List.infix_cons_iff]
    apply or_congr_left
    rw [List.cons_prefix_cons, List.cons_prefix_cons]
    simp only [Prod.mk.injEq, List.nil_prefix, and_true]

/-- The hull vector is the lower chain without its last vertex followed by the
upper chain without its last vertex; the pairs read by the edge loop are the
edges of the two chains.  Here `y :: K` and `x :: J` are the two stacks, top
first. -/
theorem cycPair_of_chains (K J : List ℕ) (x y : ℕ) (hK : K.getLast? = some x)
    (hJ : J.getLast? = some y) (a b : ℕ) :
    CycPair (J ++ K).reverse a b ↔ [b, a] <:+: y :: K ∨ [b, a] <:+: x :: J := by
  obtain ⟨K1, rfl⟩ := List.getLast?_eq_some_iff.mp hK
  obtain ⟨J1, rfl⟩ := List.getLast?_eq_some_iff.mp hJ
  have hvec : (J1 ++ [y] ++ (K1 ++ [x])).reverse = (x :: K1.reverse) ++ (y :: J1.reverse) := by
    simp
  have hrot : ((x :: K1.reverse) ++ (y :: J1.reverse)).rotate 1 =
      (K1.reverse ++ [y]) ++ (J1.reverse ++ [x]) := by
    rw [List.cons_append, List.rotate_cons_succ, List.rotate_zero]
    simp
  have hA : (y :: (K1 ++ [x])).reverse = (x :: K1.reverse) ++ [y] := by simp
  have hB : (x :: (J1 ++ [y])).reverse = (y :: J1.reverse) ++ [x] := by simp
  have hzA : ((x :: K1.reverse) ++ [y]).zip ((x :: K1.reverse) ++ [y]).tail =
      (x :: K1.reverse).zip (K1.reverse ++ [y]) := by
    have : ((x :: K1.reverse) ++ [y]).tail = (K1.reverse ++ [y]) ++ [] := by simp
    rw [this, List.zip_append (by simp)]
    simp
  have hzB : ((y :: J1.reverse) ++ [x]).zip ((y :: J1.reverse) ++ [x]).tail =
      (y :: J1.reverse).zip (J1.reverse ++ [x]) := by
    have : ((y :: J1.reverse) ++ [x]).tail = (J1.reverse ++ [x]) ++ [] := by simp
    rw [this, List.zip_append (by simp)]
    simp
  rw [cycPair_iff_zip, hvec, hrot, List.zip_append (by simp), List.mem_append,
    ← hzA, ← hzB, mem_zip_tail_iff, mem_zip_tail_iff, ← hA, ← hB]
  have hr : [a, b] = [b, a].reverse := rfl
  rw [hr, List.reverse_infix, List.reverse_infix]

/-! ## The edge set of `computeFastHull` -/

theorem scan_getLast? {cr : QPointF → QPointF → QPointF → ℚ} (P : ℕ → QPointF) :
    ∀ (ids H : List ℕ), H ≠ [] → (scan cr P ids H).getLast? = H.getLast?
  | [], _, _ => rfl
  | q :: ids, H, hne => by
    rw [scan, scan_getLast? P ids (q :: keep cr P q H) (by simp)]
    obtain ⟨m, rest, hK⟩ := List.exists_cons_of_ne_nil (keep_ne_nil P q H hne)
    rw [← suffix_getLast? (keep_suffix P q H) (keep_ne_nil P q H hne), hK,
      List.getLast?_cons_cons]

theorem cycPair_scan {cr : QPointF → QPointF → QPointF → ℚ} (P : ℕ → QPointF) (idx : List ℕ) (hne : idx ≠ []) (a b : ℕ) :
    CycPair ((scan cr P idx.reverse []).tail ++ (scan cr P idx []).tail).reverse a b ↔
      [b, a] <:+: scan cr P idx [] ∨ [b, a] <:+: scan cr P idx.reverse [] := by
  obtain ⟨x, rest, rfl⟩ := List.exists_cons_of_ne_nil hne
  rcases List.eq_nil_or_concat rest with rfl | ⟨mid, y, rfl⟩
  · have h1 : scan cr P [x] [] = [x] := by simp [scan, keep]
    simp only [List.reverse_singleton, h1, List.tail_cons, List.append_nil, List.reverse_nil]
    constructor
    · rintro ⟨i, hi, -⟩
      simp at hi
    · rintro (h | h) <;>
      · have := h.length_le
        simp at this
  · have hL : scan cr P (x :: (mid ++ [y])) [] = y :: keep cr P y (scan cr P mid [x]) := by
      rw [← List.cons_append, scan_concat, scan_nil_cons]
    have hrev : (x :: (mid ++ [y])).reverse = (y :: mid.reverse) ++ [x] := by simp
    have hU : scan cr P (x :: (mid ++ [y])).reverse [] = x :: keep cr P x (scan cr P mid.reverse [y]) := by
      rw [hrev, scan_concat, scan_nil_cons]
    have hK : (keep cr P y (scan cr P mid [x])).getLast? = some x := by
      rw [suffix_getLast? (keep_suffix _ _ _) (keep_ne_nil _ _ _ (scan_ne_nil _ _ _ (by simp))),
        scan_getLast? _ _ _ (by simp)]
      rfl
    have hJ : (keep cr P x (scan cr P mid.reverse [y])).getLast? = some y := by
      rw [suffix_getLast? (keep_suffix _ _ _) (keep_ne_nil _ _ _ (scan_ne_nil _ _ _ (by simp))),
        scan_getLast? _ _ _ (by simp)]
      rfl
    simp only [List.concat_eq_append] at *
    rw [hL, hU, List.tail_cons, List.tail_cons]
    exact cycPair_of_chains _ _ x y hK hJ a b

/-- On a non-empty point list the body of `computeFastHull` returns, keeps the
points, and adds to the edge set exactly the canonical forms of the edges of the
two chains. -/
theorem fastHullFrom_spec (c : DrawCanvas) (idx : List ℕ) (hs : SortedIdx c.points idx)
    (hne : c.points ≠ []) :
    ∃ c1, fastHullFrom c idx = some c1 ∧ c1.points = c.points ∧
      ∀ e, e ∈ c1.edges ↔ e ∈ c.edges ∨
        ∃ a b, ChainEdge c.points idx a b ∧ e = ⟨min a b, max a b⟩ := by
  obtain ⟨count, h1⟩ := hullFrom_eq c.points idx (hs.ne_nil hne) hs.length_eq
    (fun a ha => (hs.mem_iff a).mp ha)
  obtain ⟨e1, h2, h3⟩ := fastHullFrom_of_hullFrom c _ _ count h1
  refine ⟨_, h2, rfl, ?_⟩
  intro e
  rw [h3]
  apply or_congr_right
  unfold Emitted ChainEdge
  constructor
  · rintro ⟨a, b, h4, h5⟩
    exact ⟨a, b, (cycPair_scan _ _ (hs.ne_nil hne) a b).mp h4, h5⟩
  · rintro ⟨a, b, h4, h5⟩
    exact ⟨a, b, (cycPair_scan _ _ (hs.ne_nil hne) a b).mpr h4, h5⟩

theorem scan_sublist {cr : QPointF → QPointF → QPointF → ℚ} (P : ℕ → QPointF) :
    ∀ ids H : List ℕ, (scan cr P ids H).Sublist (ids.reverse ++ H)
  | [], H => by
    rw [scan]
    simp
  | q :: ids, H => by
    rw [scan]
    refine (scan_sublist P ids (q :: keep cr P q H)).trans ?_
    rw [List.reverse_cons, List.append_assoc]
    exact (List.Sublist.refl _).append (((keep_suffix P q H).sublist).cons₂ q)

/-- The two ends of a chain edge are distinct indices below `n`: each pass pushes
every index once.  This does not depend on the values of `cross`. -/
theorem chainEdge_ne (pts : List QPointF) (idx : List ℕ) (hs : SortedIdx pts idx)
    (a b : ℕ) (h : ChainEdge pts idx a b) :
    a ≠ b ∧ a < pts.length ∧ b < pts.length := by
  have hnd := hs.nodup
  have hL : (scan cross (pt pts) idx []).Sublist idx.reverse := by
    have := @scan_sublist cross (pt pts) idx []
    simpa using this
  have hU : (scan cross (pt pts) idx.reverse []).Sublist idx := by
    have := @scan_sublist cross (pt pts) idx.reverse []
    simpa using this
  have hmem : ∀ x, x ∈ [b, a] → x < pts.length := by
    intro x hx
    rcases h with hh | hh
    · have := hL.subset (hh.subset hx)
      exact (hs.mem_iff x).mp (List.mem_reverse.mp this)
    · have := hU.subset (hh.subset hx)
      exact (hs.mem_iff x).mp this
  have hne2 : a ≠ b := by
    have hnd2 : [b, a].Nodup := by
      rcases h with hh | hh
      · exact (hh.sublist.trans hL).nodup (List.nodup_reverse.mpr hnd)
      · exact (hh.sublist.trans hU).nodup hnd
    intro hab
    rw [hab] at hnd2
    simp at hnd2
  exact ⟨hne2, hmem a (by simp), hmem b (by simp)⟩

/-- Where rounding changes no test, the chain edges of the program are the edges
of the exact chains. -/
theorem chainEdge_iff_exact (pts : List QPointF) (hsafe : RoundingSafe pts) (idx : List ℕ)
    (hs : SortedIdx pts idx) (a b : ℕ) :
    ChainEdge pts idx a b ↔
      ([b, a] <:+: scan crossExact (pt pts) idx [] ∨
        [b, a] <:+: scan crossExact (pt pts) idx.reverse []) := by
  unfold ChainEdge
  rw [scan_cross_eq_exact pts hsafe idx [] (fun x hx => (hs.mem_iff x).mp hx) (by simp),
    scan_cross_eq_exact pts hsafe idx.reverse []
      (fun x hx => (hs.mem_iff x).mp (List.mem_reverse.mp hx)) (by simp)]

/-- Where rounding changes no test: the two ends of a chain edge are distinct
indices below `n`, and every point is on the closed left of the edge. -/
theorem chainEdge_sound (pts : List QPointF) (hsafe : RoundingSafe pts) (idx : List ℕ)
    (hs : SortedIdx pts idx)
    (hne : pts ≠ []) (a b : ℕ) (h : ChainEdge pts idx a b) :
    a ≠ b ∧ a < pts.length ∧ b < pts.length ∧
      ∀ p, p < pts.length → 0 ≤ crossExact (pt pts a) (pt pts b) (pt pts p) := by
  have hidx := hs.ne_nil hne
  have hpw := hs.2
  obtain ⟨h1, h2, h3⟩ := chainEdge_ne pts idx hs a b h
  refine ⟨h1, h2, h3, ?_⟩
  intro p hp
  have hpm : p ∈ idx := (hs.mem_iff p).mpr hp
  rcases (chainEdge_iff_exact pts hsafe idx hs a b).mp h with hh | hh
  · exact lower_left (pt pts) _ hidx hpw b a hh p hpm
  · exact upper_left (pt pts) _ hidx hpw b a hh p hpm
theorem cross_swap_left (a b c : QPointF) : crossExact b a c = -crossExact a b c := by
  unfold crossExact; ring

/-- An edge emitted by the monotone chain is canonical: `i < j < n`.  This does
not depend on the values of `cross`. -/
theorem fast_edge_canonical (pts : List QPointF) (idx : List ℕ) (hs : SortedIdx pts idx)
    (e : Edge) (he : ∃ a b, ChainEdge pts idx a b ∧ e = ⟨min a b, max a b⟩) :
    e.i < e.j ∧ e.j < pts.length := by
  obtain ⟨a, b, hab, rfl⟩ := he
  obtain ⟨hne2, ha, hb⟩ := chainEdge_ne pts idx hs a b hab
  rcases lt_or_gt_of_ne hne2 with h | h
  · rw [min_eq_left h.le, max_eq_right h.le]
    exact ⟨h, hb⟩
  · rw [min_eq_right h.le, max_eq_left h.le]
    exact ⟨h, ha⟩

/-- Where rounding changes no test, an edge emitted by the monotone chain has all
points on one closed side. -/
theorem fast_edge_one_side (pts : List QPointF) (hsafe : RoundingSafe pts) (idx : List ℕ)
    (hs : SortedIdx pts idx) (hne : pts ≠ []) (e : Edge)
    (he : ∃ a b, ChainEdge pts idx a b ∧ e = ⟨min a b, max a b⟩) :
    e.i < e.j ∧ e.j < pts.length ∧
      ((∀ p, p < pts.length → 0 ≤ crossExact (pt pts e.i) (pt pts e.j) (pt pts p)) ∨
       (∀ p, p < pts.length → crossExact (pt pts e.i) (pt pts e.j) (pt pts p) ≤ 0)) := by
  obtain ⟨a, b, hab, rfl⟩ := he
  obtain ⟨hne2, ha, hb, hleft⟩ := chainEdge_sound pts hsafe idx hs hne a b hab
  rcases lt_or_gt_of_ne hne2 with h | h
  · rw [min_eq_left h.le, max_eq_right h.le]
    exact ⟨h, hb, Or.inl hleft⟩
  · rw [min_eq_right h.le, max_eq_left h.le]
    refine ⟨h, ha, Or.inr ?_⟩
    intro p hp
    rw [cross_swap_left]
    linarith [hleft p hp]

theorem slowEdge_of_one_side (pts : List QPointF) (hsafe : RoundingSafe pts) (e : Edge)
    (h1 : e.i < e.j) (h2 : e.j < pts.length)
    (h3 : (∀ p, p < pts.length → 0 ≤ crossExact (pt pts e.i) (pt pts e.j) (pt pts p)) ∨
       (∀ p, p < pts.length → crossExact (pt pts e.i) (pt pts e.j) (pt pts p) ≤ 0)) :
    SlowEdge pts e := by
  refine ⟨h1, h2, ?_⟩
  rintro ⟨⟨k, hk, -, -, hpos⟩, ⟨k1, hk1, -, -, hneg⟩⟩
  have he := eps_pos
  rw [List.mem_range] at hk hk1
  have hi : e.i < pts.length := lt_trans h1 h2
  rw [(hsafe.2 e.i hi e.j h2 k hk).2.1] at hpos
  rw [(hsafe.2 e.i hi e.j h2 k1 hk1).2.2] at hneg
  rcases h3 with h3 | h3
  · linarith [h3 k1 hk1]
  · linarith [h3 k hk]

/-- Every edge of `computeFastHull` is canonical, for every order that
`std::sort` may leave. -/
theorem fastHullFrom_edges_canonical (pts : List QPointF) (count : ℤ) (idx : List ℕ)
    (hs : SortedIdx pts idx) (c1 : DrawCanvas)
    (hc1 : fastHullFrom ⟨pts, ∅, count⟩ idx = some c1) (e : Edge) (he : e ∈ c1.edges) :
    e.i < e.j ∧ e.j < pts.length := by
  have hne : pts ≠ [] := points_ne_nil_of_fastHullFrom hs hc1
  obtain ⟨d, hd, -, hedges⟩ := fastHullFrom_spec ⟨pts, ∅, count⟩ idx hs hne
  rw [hc1] at hd
  cases hd
  rw [hedges] at he
  rcases he with he | he
  · simp at he
  · exact fast_edge_canonical pts idx hs e he

/-- Soundness of the monotone chain where rounding changes no test, for every
order that `std::sort` may leave: each emitted edge is canonical, has all points
on one closed side, and passes the brute-force test. -/
theorem fastHullFrom_edges_extreme (pts : List QPointF) (hsafe : RoundingSafe pts)
    (count : ℤ) (idx : List ℕ)
    (hs : SortedIdx pts idx) (c1 : DrawCanvas)
    (hc1 : fastHullFrom ⟨pts, ∅, count⟩ idx = some c1) (e : Edge) (he : e ∈ c1.edges) :
    (e.i < e.j ∧ e.j < pts.length) ∧
    ¬ (∃ k k1, k < pts.length ∧ k1 < pts.length ∧
        0 < crossExact (pt pts e.i) (pt pts e.j) (pt pts k) ∧
        crossExact (pt pts e.i) (pt pts e.j) (pt pts k1) < 0) ∧
    SlowEdge pts e := by
  have hne : pts ≠ [] := points_ne_nil_of_fastHullFrom hs hc1
  obtain ⟨d, hd, -, hedges⟩ := fastHullFrom_spec ⟨pts, ∅, count⟩ idx hs hne
  rw [hc1] at hd
  cases hd
  rw [hedges] at he
  rcases he with he | he
  · simp at he
  · obtain ⟨h1, h2, h3⟩ := fast_edge_one_side pts hsafe idx hs hne e he
    refine ⟨⟨h1, h2⟩, ?_, slowEdge_of_one_side pts hsafe e h1 h2 h3⟩
    rintro ⟨k, k1, hk, hk1, hpos, hneg⟩
    rcases h3 with h3 | h3
    · linarith [h3 k1 hk1]
    · linarith [h3 k hk]

theorem fastHullFrom_edges_extreme_witness :
    ∃ c1, fastHullFrom ⟨refPoints, ∅, 0⟩ [0, 7, 5, 4, 6, 1, 2, 3] = some c1 ∧
      ∀ e ∈ c1.edges, SlowEdge refPoints e := by
  have hs : SortedIdx refPoints [0, 7, 5, 4, 6, 1, 2, 3] := by
    have h : sortIdx refPoints (List.range refPoints.length) = [0, 7, 5, 4, 6, 1, 2, 3] := by
      decide!
    rw [← h]
    exact sortIdx_sortedIdx refPoints
  obtain ⟨c1, hc1⟩ := fastHullFrom_isSome ⟨refPoints, ∅, 0⟩ _ hs (List.cons_ne_nil _ _)
  exact ⟨c1, hc1, fun e he =>
    (fastHullFrom_edges_extreme refPoints roundingSafe_refPoints 0 _ hs c1 hc1 e he).2.2⟩

/-- C3, counterexample. On four points with integer coordinates `computeFastHull`
produces the edge `(0, 2)`, although point `1` is strictly on one side of the line
through `p_0` and `p_2` and point `3` strictly on the other (`cross` is `1` and
`-397625032`, computed and exact alike), and `computeSlowHull` does not report
that edge: the turn test of the upper pass at point `1`,
`cross(p_2, p_1, p_0)`, has the exact value 1 and rounds to zero, so the hull
vertex `1` is popped. -/
theorem skewPoints_edge_not_extreme :
    (∃ c1, computeFastHull ⟨skewPoints, ∅, 0⟩ = some c1 ∧ (⟨0, 2⟩ : Edge) ∈ c1.edges) ∧
    (∃ c2, computeSlowHull ⟨skewPoints, ∅, 0⟩ = some c2 ∧ (⟨0, 2⟩ : Edge) ∉ c2.edges) ∧
    cross (pt skewPoints 0) (pt skewPoints 2) (pt skewPoints 1) = 1 ∧
    cross (pt skewPoints 0) (pt skewPoints 2) (pt skewPoints 3) = -397625032 ∧
    crossExact (pt skewPoints 0) (pt skewPoints 2) (pt skewPoints 1) = 1 ∧
    crossExact (pt skewPoints 0) (pt skewPoints 2) (pt skewPoints 3) = -397625032 ∧
    cross (pt skewPoints 2) (pt skewPoints 1) (pt skewPoints 0) = 0 ∧
    crossExact (pt skewPoints 2) (pt skewPoints 1) (pt skewPoints 0) = 1 := by
  have hf : (computeFastHull ⟨skewPoints, ∅, 0⟩).map
      (fun c => decide (c.edges = {⟨0, 2⟩, ⟨0, 3⟩, ⟨2, 3⟩})) = some true := by
    decide!
  have hsl : (computeSlowHull ⟨skewPoints, ∅, 0⟩).map
      (fun c => decide (c.edges = {⟨0, 1⟩, ⟨0, 3⟩, ⟨1, 2⟩, ⟨2, 3⟩})) = some true := by
    decide!
  refine ⟨?_, ?_, by decide!, by decide!, by decide!, by decide!, by decide!, by decide!⟩
  · cases h1 : computeFastHull ⟨skewPoints, ∅, 0⟩ with
    | none => rw [h1] at hf; exact absurd hf (by simp)
    | some c1 =>
      rw [h1] at hf
      have e1 : c1.edges = {⟨0, 2⟩, ⟨0, 3⟩, ⟨2, 3⟩} := by simpa using hf
      exact ⟨c1, rfl, by rw [e1]; decide⟩
  · cases h2 : computeSlowHull ⟨skewPoints, ∅, 0⟩ with
    | none => rw [h2] at hsl; exact absurd hsl (by simp)
    | some c2 =>
      rw [h2] at hsl
      have e2 : c2.edges = {⟨0, 1⟩, ⟨0, 3⟩, ⟨1, 2⟩, ⟨2, 3⟩} := by simpa using hsl
      exact ⟨c2, rfl, by rw [e2]; decide⟩

/-- C3, amended. On a point list on which rounding changes the outcome of no test
(`RoundingSafe`: coordinates below `2^200` and, for every three points, `cross`
passes the tests `<= 0`, `> 1e-9`, `< -1e-9` exactly when the exact value of its
expression does; in particular integer coordinates below `2^25`), every edge
`(a, b)` produced by `computeFastHull` has all points on one closed side of the
line through `p_a` and `p_b`: there are no `k`, `k'` with the exact value of
`cross(p_a,p_b,p_k)` positive and that of `cross(p_a,p_b,p_k')` negative; and the
edge is also in the edge set of `computeSlowHull` for the same input.  (On a
non-empty point list `computeFastHull` does return.) -/
theorem computeFastHull_edges_extreme (pts : List QPointF) (count : ℤ)
    (hsafe : RoundingSafe pts) :
    (pts ≠ [] → ∃ c1, computeFastHull ⟨pts, ∅, count⟩ = some c1) ∧
    ∀ c1, computeFastHull ⟨pts, ∅, count⟩ = some c1 → ∀ e ∈ c1.edges,
      ¬ (∃ k k1, k < pts.length ∧ k1 < pts.length ∧
          0 < crossExact (pt pts e.i) (pt pts e.j) (pt pts k) ∧
          crossExact (pt pts e.i) (pt pts e.j) (pt pts k1) < 0) ∧
      ∃ c2, computeSlowHull ⟨pts, ∅, count⟩ = some c2 ∧ e ∈ c2.edges := by
  refine ⟨fun hne => computeFastHull_isSome ⟨pts, ∅, count⟩ hne, ?_⟩
  intro c1 hc1 e he
  obtain ⟨-, h2, h3⟩ := fastHullFrom_edges_extreme pts hsafe count _ (sortIdx_sortedIdx pts)
    c1 hc1 e he
  obtain ⟨c2, hc2, -, h4⟩ := computeSlowHull_spec ⟨pts, ∅, count⟩
  exact ⟨h2, c2, hc2, (h4 e).mpr (Or.inr h3)⟩

theorem computeFastHull_edges_extreme_witness :
    RoundingSafe refPoints ∧
    ∃ c1, computeFastHull ⟨refPoints, ∅, 0⟩ = some c1 ∧ ∀ e ∈ c1.edges,
      ¬ (∃ k k1, k < refPoints.length ∧ k1 < refPoints.length ∧
          0 < crossExact (pt refPoints e.i) (pt refPoints e.j) (pt refPoints k) ∧
          crossExact (pt refPoints e.i) (pt refPoints e.j) (pt refPoints k1) < 0) ∧
      ∃ c2, computeSlowHull ⟨refPoints, ∅, 0⟩ = some c2 ∧ e ∈ c2.edges := by
  have h := computeFastHull_edges_extreme refPoints 0 roundingSafe_refPoints
  obtain ⟨c1, hc1⟩ := h.1 (List.cons_ne_nil _ _)
  exact ⟨roundingSafe_refPoints, c1, hc1, h.2 c1 hc1⟩

/-- Cyclically consecutive entries of the hull vector are distinct, for every
order that `std::sort` may leave. -/
theorem hullFrom_cycPair_ne (pts : List QPointF) (idx : List ℕ) (hs : SortedIdx pts idx)
    (vec : List ℕ) (cnt : ℤ) (hv : hullFrom pts idx = some (vec, cnt)) (a b : ℕ)
    (hab : CycPair vec a b) : a ≠ b := by
  have hne : pts ≠ [] := by
    rintro rfl
    rw [hs.eq_nil] at hv
    simp [hullFrom, lowerChain, upperChain] at hv
  obtain ⟨count1, h1⟩ := hullFrom_eq pts idx (hs.ne_nil hne) hs.length_eq
    (fun a ha => (hs.mem_iff a).mp ha)
  rw [hv] at h1
  simp only [Option.some.injEq, Prod.mk.injEq] at h1
  rw [h1.1] at hab
  have hce : ChainEdge pts idx a b := (cycPair_scan _ _ (hs.ne_nil hne) a b).mp hab
  exact (chainEdge_ne pts idx hs a b hce).1

/-- C8. Every edge `(i, j)` produced by `computeSlowHull` and every edge produced
by `computeFastHull` has `i < j < n`; cyclically consecutive entries of the final
hull vertex sequence are distinct, so the chain emits no self-loop.
(`computeSlowHull` always returns, `computeFastHull` on every non-empty point
list.) -/
theorem edges_canonical (pts : List QPointF) (count : ℤ) :
    (∃ c1, computeSlowHull ⟨pts, ∅, count⟩ = some c1 ∧
      ∀ e ∈ c1.edges, e.i < e.j ∧ e.j < pts.length) ∧
    (pts ≠ [] → ∃ c1, computeFastHull ⟨pts, ∅, count⟩ = some c1) ∧
    (∀ c1, computeFastHull ⟨pts, ∅, count⟩ = some c1 →
      ∀ e ∈ c1.edges, e.i < e.j ∧ e.j < pts.length) ∧
    (∀ vec cnt, hullFrom pts (sortIdx pts (List.range pts.length)) = some (vec, cnt) →
      ∀ a b, CycPair vec a b → a ≠ b) := by
  refine ⟨?_, fun hne => computeFastHull_isSome ⟨pts, ∅, count⟩ hne, ?_, ?_⟩
  · obtain ⟨c1, h1, -, h3⟩ := computeSlowHull_spec ⟨pts, ∅, count⟩
    refine ⟨c1, h1, ?_⟩
    intro e he
    rw [h3] at he
    rcases he with he | he
    · simp at he
    · exact ⟨he.1, he.2.1⟩
  · intro c1 hc1 e he
    exact fastHullFrom_edges_canonical pts count _ (sortIdx_sortedIdx pts) c1 hc1 e he
  · intro vec cnt hv a b hab
    exact hullFrom_cycPair_ne pts _ (sortIdx_sortedIdx pts) vec cnt hv a b hab

theorem edges_canonical_witness :
    ∃ c1, computeFastHull ⟨refPoints, ∅, 0⟩ = some c1 ∧
      ∀ e ∈ c1.edges, e.i < e.j ∧ e.j < refPoints.length := by
  have h := edges_canonical refPoints 0
  obtain ⟨c1, hc1⟩ := h.2.1 (List.cons_ne_nil _ _)
  exact ⟨c1, hc1, h.2.2.1 c1 hc1⟩

/-! ## Completeness of a chain pass -/

/-- With `y` before `a` and both `y` and the candidate `q` strictly left of
`a → b`, the path `y → a → q` turns left: `a` is not popped. -/
theorem turn_at_edge_start {y a b q : QPointF} (hya : lexLe y a) (hab : lexLe a b)
    (haq : lexLe a q) (hy : 0 < crossExact a b y) (hq : 0 < crossExact a b q) :
    0 < crossExact y a q := by
  rw [lexLe_iff] at hya hab haq
  have h := turn_trans_strict (a.x - y.x) (a.y - y.y) (b.x - a.x) (b.y - a.y)
    (q.x - a.x) (q.y - a.y) hya hab haq
    (by unfold crossExact at hy; linarith) (by unfold crossExact at hq; linarith)
  unfold crossExact
  linarith

/-- With `a ≤ y ≤ x ≤ b`, `y` and `x` strictly left of `a → b` and `a` on the
closed left of `y → x`, the candidate `b` is not left of `y → x`: `x` is
popped. -/
theorem pop_above_edge_start {a y x b : QPointF} (hay : lexLe a y) (hyx : lexLe y x)
    (hxb : lexLe x b) (hy : 0 < crossExact a b y) (hx : 0 < crossExact a b x)
    (ha : 0 ≤ crossExact y x a) : crossExact y x b ≤ 0 := by
  have hab : lexLe a b := lexLe_trans hay (lexLe_trans hyx hxb)
  rw [lexLe_iff] at hay hyx hxb hab
  have h1 := turn_trans_strict (b.x - x.x) (b.y - x.y) (b.x - a.x) (b.y - a.y)
    (y.x - a.x) (y.y - a.y) hxb hab hay
    (by unfold crossExact at hx; linarith) (by unfold crossExact at hy; linarith)
  have he1 : 0 < y.x - a.x ∨ (y.x - a.x = 0 ∧ 0 < y.y - a.y) := by
    rcases hay with h | ⟨h2, h3⟩
    · exact Or.inl h
    · refine Or.inr ⟨h2, lt_of_le_of_ne h3 ?_⟩
      intro h4
      rw [h2, ← h4] at h1
      simp at h1
  have h2 := turn_trans (b.x - x.x) (b.y - x.y) (y.x - a.x) (y.y - a.y)
    (x.x - y.x) (x.y - y.y) hxb he1 hyx h1.le
    (by unfold crossExact at ha; linarith)
  unfold crossExact
  linarith

theorem keep_of_stop (P : ℕ → QPointF) (q x : ℕ) (rest : List ℕ)
    (hstop : ∀ y rest1, rest = y :: rest1 → 0 < crossExact (P y) (P x) (P q)) :
    ∀ pre : List ℕ, ∃ pre1, keep crossExact P q (pre ++ x :: rest) = pre1 ++ x :: rest
  | [] => by
    refine ⟨[], ?_⟩
    cases rest with
    | nil => simp [keep]
    | cons y rest1 =>
      have := hstop y rest1 rfl
      simp [keep, not_le.mpr this]
  | z :: pre => by
    obtain ⟨w, tl, hw⟩ : ∃ w tl, pre ++ x :: rest = w :: tl := by
      cases pre with
      | nil => exact ⟨x, rest, rfl⟩
      | cons w pre1 => exact ⟨w, pre1 ++ x :: rest, rfl⟩
    rw [List.cons_append, hw, keep]
    by_cases hc : crossExact (P w) (P z) (P q) ≤ 0
    · rw [if_pos hc, ← hw]
      exact keep_of_stop P q x rest hstop pre
    · rw [if_neg hc, ← hw]
      exact ⟨z :: pre, rfl⟩

theorem keep_eq_of_popped (P : ℕ → QPointF) (q x : ℕ) (rest : List ℕ)
    (hstop : ∀ y rest1, rest = y :: rest1 → 0 < crossExact (P y) (P x) (P q)) :
    ∀ pre : List ℕ, (∀ u v, [u, v] <:+: pre ++ [x] → crossExact (P v) (P u) (P q) ≤ 0) →
      keep crossExact P q (pre ++ x :: rest) = x :: rest
  | [], _ => by
    cases rest with
    | nil => simp [keep]
    | cons y rest1 =>
      have := hstop y rest1 rfl
      simp [keep, not_le.mpr this]
  | z :: pre, hpop => by
    obtain ⟨w, tl, hw, hw2⟩ : ∃ w tl, pre ++ x :: rest = w :: tl ∧
        [z, w] <+: (z :: pre) ++ [x] := by
      cases pre with
      | nil => exact ⟨x, rest, rfl, List.prefix_refl _⟩
      | cons w pre1 => exact ⟨w, pre1 ++ x :: rest, rfl, ⟨pre1 ++ [x], by simp⟩⟩
    rw [List.cons_append, hw, keep, if_pos (hpop z w hw2.isInfix), ← hw]
    exact keep_eq_of_popped P q x rest hstop pre
      (fun u v huv => hpop u v (huv.trans (List.infix_cons (List.infix_refl _))))

theorem infix_concat_left_mem {u v x : ℕ} {pre : List ℕ} (h : [u, v] <:+: pre ++ [x]) :
    u ∈ pre ∧ (v ∈ pre ∨ v = x) := by
  obtain ⟨s, t, hst⟩ := h
  have h1 : (s ++ [u, v] ++ t).dropLast = pre := by rw [hst, List.dropLast_concat]
  have h2 : s ++ [u, v] ++ t = s ++ u :: (v :: t) := by simp
  rw [h2, List.dropLast_append_of_ne_nil _ (by simp)] at h1
  have h3 : (u :: v :: t).dropLast = u :: (v :: t).dropLast := by simp
  rw [h3] at h1
  constructor
  · rw [← h1]; simp
  · have hv : v ∈ pre ++ [x] := by rw [← hst]; simp
    rcases List.mem_append.mp hv with hv | hv
    · exact Or.inl hv
    · exact Or.inr (List.mem_singleton.mp hv)

/-- One iteration of a chain pass keeps `a` on the stack once it is there and, when
the candidate is `b`, pops the stack down to `a`, provided every other candidate
is strictly left of `a → b`. -/
theorem adj_step {P : ℕ → QPointF} {seen H : List ℕ} (inv : ChainInv P seen H) (a b q : ℕ)
    (hnd : seen.Nodup) (hdesc : seen.Pairwise (fun x y => lexLe (P y) (P x)))
    (hqs : q ∉ seen) (hq : ∀ p ∈ seen, lexLe (P p) (P q))
    (hab : lexLe (P a) (P b)) (hne : a ≠ b)
    (hord : b = q ∨ b ∈ seen → a ∈ seen)
    (hleft : ∀ p ∈ q :: seen, p ≠ a → p ≠ b → 0 < crossExact (P a) (P b) (P p))
    (ha : a ∈ seen → a ∈ H) (hb : b ∈ seen → [b, a] <:+: H) :
    (a ∈ q :: seen → a ∈ q :: keep crossExact P q H) ∧
      (b ∈ q :: seen → [b, a] <:+: q :: keep crossExact P q H) := by
  have hHnd : H.Nodup := inv.sub.nodup hnd
  have hHdesc : H.Pairwise (fun x y => lexLe (P y) (P x)) := hdesc.sublist inv.sub
  have hHseen : ∀ x ∈ H, x ∈ seen := fun x hx => inv.sub.subset hx
  by_cases hqb : b = q
  · -- the candidate is `b`
    have hbs : b ∉ seen := by rw [hqb]; exact hqs
    have has : a ∈ seen := hord (Or.inl hqb)
    obtain ⟨pre, rest, hH⟩ := List.append_of_mem (ha has)
    have hnm : a ∉ pre ++ rest := by
      have := hHnd
      rw [hH, List.nodup_middle, List.nodup_cons] at this
      exact this.1
    have hstop : ∀ y rest1, rest = y :: rest1 → 0 < crossExact (P y) (P a) (P q) := by
      intro y rest1 hr
      have hyH : y ∈ H := by rw [hH, hr]; simp
      have hya : y ≠ a := by
        rintro rfl
        exact hnm (by rw [hr]; simp)
      have hyb : y ≠ b := fun h => hbs (h ▸ hHseen y hyH)
      have := hleft y (List.mem_cons_of_mem _ (hHseen y hyH)) hya hyb
      rw [← hqb, ← cross_rotate]
      exact this
    have hpop : ∀ u v, [u, v] <:+: pre ++ [a] → crossExact (P v) (P u) (P q) ≤ 0 := by
      intro u v huv
      obtain ⟨hu, hv⟩ := infix_concat_left_mem huv
      have huvH : [u, v] <:+: H := by
        rw [hH]
        exact huv.trans ⟨[], rest, by simp⟩
      have huH : u ∈ H := by rw [hH]; simp [hu]
      have hua : u ≠ a := by
        rintro rfl
        exact hnm (by simp [hu])
      have hub : u ≠ b := fun h => hbs (h ▸ hHseen u huH)
      have hcu := hleft u (List.mem_cons_of_mem _ (hHseen u huH)) hua hub
      rw [← hqb]
      rcases hv with hv | hv
      · have hvH : v ∈ H := by rw [hH]; simp [hv]
        have hva : v ≠ a := by
          rintro rfl
          exact hnm (by simp [hv])
        have hvb : v ≠ b := fun h => hbs (h ▸ hHseen v hvH)
        have hcv := hleft v (List.mem_cons_of_mem _ (hHseen v hvH)) hva hvb
        have hav : lexLe (P a) (P v) := by
          rw [hH, List.pairwise_append] at hHdesc
          exact hHdesc.2.2 v hv a (List.mem_cons_self _ _)
        have hub2 : lexLe (P u) (P b) := by rw [hqb]; exact hq u (hHseen u huH)
        exact pop_above_edge_start hav (inv.sorted u v huvH) hub2 hcv hcu
          (inv.left u v huvH a has)
      · rw [hv, cross_swap]
        linarith
    have hkeep := keep_eq_of_popped P q a rest hstop pre hpop
    rw [← hH] at hkeep
    rw [hkeep, hqb]
    exact ⟨fun _ => by simp, fun _ => ⟨[], rest, rfl⟩⟩
  · by_cases hbs : b ∈ seen
    · -- `b` sits right above `a` and stays there
      have has : a ∈ seen := hord (Or.inr hbs)
      obtain ⟨pre, rest, hH⟩ := hb hbs
      have hqa : q ≠ a := fun h => hqs (h ▸ has)
      have hcq := hleft q (List.mem_cons_self _ _) hqa (fun h => hqb h.symm)
      obtain ⟨pre1, hk⟩ := keep_of_stop P q b (a :: rest)
        (fun y rest1 hr => by
          simp only [List.cons.injEq] at hr
          rw [← hr.1]
          exact hcq) pre
      have hH2 : H = pre ++ b :: a :: rest := by rw [← hH]; simp
      rw [hH2, hk]
      exact ⟨fun _ => by simp, fun _ => ⟨q :: pre1, rest, by simp⟩⟩
    · -- `b` is still to come
      refine ⟨?_, ?_⟩
      · intro haq
        rcases List.mem_cons.mp haq with haq | has
        · rw [haq]; exact List.mem_cons_self _ _
        · obtain ⟨pre, rest, hH⟩ := List.append_of_mem (ha has)
          have hnm : a ∉ pre ++ rest := by
            have := hHnd
            rw [hH, List.nodup_middle, List.nodup_cons] at this
            exact this.1
          have hqa : q ≠ a := fun h => hqs (h ▸ has)
          have hcq := hleft q (List.mem_cons_self _ _) hqa (fun h => hqb h.symm)
          obtain ⟨pre1, hk⟩ := keep_of_stop P q a rest
            (fun y rest1 hr => by
              have hyH : y ∈ H := by rw [hH, hr]; simp
              have hya : y ≠ a := by
                rintro rfl
                exact hnm (by rw [hr]; simp)
              have hyb : y ≠ b := fun h => hbs (h ▸ hHseen y hyH)
              have hcy := hleft y (List.mem_cons_of_mem _ (hHseen y hyH)) hya hyb
              have hin : [a, y] <:+: H := ⟨pre, rest1, by rw [hH, hr]; simp⟩
              exact turn_at_edge_start (inv.sorted a y hin) hab (hq a has) hcy hcq) pre
          rw [hH, hk]
          simp
      · intro hbq
        rcases List.mem_cons.mp hbq with h | h
        · exact absurd h hqb
        · exact absurd h hbs

theorem mem_of_sublist_before {a b q : ℕ} :
    ∀ {l tail : List ℕ}, (l ++ [q] ++ tail).Nodup → List.Sublist [a, b] (l ++ [q] ++ tail) →
      b ∈ l ++ [q] → a ∈ l
  | [], tail, hnd, hab, hb => by
    exfalso
    simp only [List.nil_append, List.mem_singleton] at hb
    subst hb
    simp only [List.nil_append, List.singleton_append] at hnd hab
    rw [List.nodup_cons] at hnd
    rcases List.sublist_cons_iff.mp hab with h | ⟨r, h1, h2⟩
    · exact hnd.1 (h.subset (by simp))
    · simp only [List.cons.injEq] at h1
      rw [← h1.2] at h2
      exact hnd.1 (h2.subset (by simp))
  | x :: l, tail, hnd, hab, hb => by
    simp only [List.cons_append] at hnd hab hb
    rw [List.nodup_cons] at hnd
    rcases List.sublist_cons_iff.mp hab with h | ⟨r, h1, h2⟩
    · rcases List.mem_cons.mp hb with hbx | hb1
      · exfalso
        rw [← hbx] at hnd
        exact hnd.1 (h.subset (by simp))
      · have h3 : (l ++ [q] ++ tail).Nodup := by simpa using hnd.2
        have h4 : List.Sublist [a, b] (l ++ [q] ++ tail) := by simpa using h
        exact List.mem_cons_of_mem _ (mem_of_sublist_before h3 h4 hb1)
    · simp only [List.cons.injEq] at h1
      rw [h1.1]
      exact List.mem_cons_self _ _

/-- If `a` comes before `b` among the sorted candidates and every other candidate
is strictly left of `a → b`, then `b` ends right above `a` on the stack. -/
theorem scan_adjacent (P : ℕ → QPointF) (ids : List ℕ)
    (hpw : ids.Pairwise (fun a b => lexLe (P a) (P b))) (hnd : ids.Nodup) (a b : ℕ)
    (hab : List.Sublist [a, b] ids)
    (hleft : ∀ p ∈ ids, p ≠ a → p ≠ b → 0 < crossExact (P a) (P b) (P p)) :
    [b, a] <:+: scan crossExact P ids [] := by
  have hne : a ≠ b := by
    have := hab.nodup hnd
    simpa using this
  have hle : lexLe (P a) (P b) := by
    have h1 : [a, b].Pairwise (fun a b => lexLe (P a) (P b)) := hpw.sublist hab
    simpa using h1
  have key : ∀ init : List ℕ, init <+: ids →
      (a ∈ init → a ∈ scan crossExact P init []) ∧ (b ∈ init → [b, a] <:+: scan crossExact P init []) := by
    intro init
    induction init using List.reverseRecOn with
    | nil =>
      intro _
      exact ⟨fun h => absurd h (List.not_mem_nil _), fun h => absurd h (List.not_mem_nil _)⟩
    | append_singleton l q ih =>
      intro hpre
      obtain ⟨tail, htail⟩ := hpre
      have hl : l <+: ids := ⟨[q] ++ tail, by rw [← htail]; simp⟩
      have hnd2 : (l ++ [q] ++ tail).Nodup := by rw [htail]; exact hnd
      have hab2 : List.Sublist [a, b] (l ++ [q] ++ tail) := by rw [htail]; exact hab
      have hord : b ∈ l ++ [q] → a ∈ l := mem_of_sublist_before hnd2 hab2
      have hpw2 : (l ++ [q]).Pairwise (fun a b => lexLe (P a) (P b)) :=
        hpw.sublist (by rw [← htail]; exact (List.prefix_append _ _).sublist)
      have hndl : (l ++ [q]).Nodup :=
        List.Sublist.nodup (by rw [← htail]; exact (List.prefix_append _ _).sublist) hnd
      rw [scan_concat]
      by_cases hlnil : l = []
      · subst hlnil
        simp only [scan, keep, List.nil_append, List.mem_singleton]
        refine ⟨fun h => by simp [h], fun h => ?_⟩
        exact absurd (hord (by simp [h])) (List.not_mem_nil _)
      · have inv := scan_chainInv P l hlnil (List.pairwise_append.mp hpw2).1
        have hstep := adj_step inv a b q
          (List.nodup_reverse.mpr (List.nodup_append.mp hndl).1)
          (List.pairwise_reverse.mpr (List.pairwise_append.mp hpw2).1)
          (fun h => (List.nodup_append.mp hndl).2.2 (List.mem_reverse.mp h)
            (List.mem_singleton_self q))
          (fun p hp => (List.pairwise_append.mp hpw2).2.2 p (List.mem_reverse.mp hp) q
            (List.mem_singleton_self q))
          hle hne
          (fun h => List.mem_reverse.mpr (hord (by
            rcases h with h | h
            · simp [h]
            · simp [List.mem_reverse.mp h])))
          (fun p hp => hleft p (by
            rw [← htail]
            rcases List.mem_cons.mp hp with h | h
            · simp [h]
            · simp [List.mem_reverse.mp h]))
          (fun h => (ih hl).1 (List.mem_reverse.mp h))
          (fun h => (ih hl).2 (List.mem_reverse.mp h))
        constructor
        · intro h
          apply hstep.1
          rcases List.mem_append.mp h with h | h
          · exact List.mem_cons_of_mem _ (List.mem_reverse.mpr h)
          · rw [List.mem_singleton.mp h]; exact List.mem_cons_self _ _
        · intro h
          apply hstep.2
          rcases List.mem_append.mp h with h | h
          · exact List.mem_cons_of_mem _ (List.mem_reverse.mpr h)
          · rw [List.mem_singleton.mp h]; exact List.mem_cons_self _ _
  exact (key ids (List.prefix_refl _)).2 (hab.subset (by simp))

theorem sublist_pair_or {a b : ℕ} :
    ∀ {l : List ℕ}, a ∈ l → b ∈ l → a ≠ b → List.Sublist [a, b] l ∨ List.Sublist [b, a] l
  | [], ha, _, _ => absurd ha (List.not_mem_nil _)
  | x :: l, ha, hb, hne => by
    rcases List.mem_cons.mp ha with hax | hal
    · rcases List.mem_cons.mp hb with hbx | hbl
      · exact absurd (hax.trans hbx.symm) hne
      · left
        rw [hax]
        exact List.Sublist.cons₂ _ (List.singleton_sublist.mpr hbl)
    · rcases List.mem_cons.mp hb with hbx | hbl
      · right
        rw [hbx]
        exact List.Sublist.cons₂ _ (List.singleton_sublist.mpr hal)
      · rcases sublist_pair_or hal hbl hne with h | h
        · exact Or.inl (h.trans (List.sublist_cons_self _ _))
        · exact Or.inr (h.trans (List.sublist_cons_self _ _))

/-- Where rounding changes no test: if every point other than `p_a`, `p_b` is
strictly left of `a → b`, then `a → b` is an edge of the lower or of the upper
chain. -/
theorem chainEdge_of_strictly_left (pts : List QPointF) (hsafe : RoundingSafe pts)
    (idx : List ℕ)
    (hs : SortedIdx pts idx) (a b : ℕ) (ha : a < pts.length)
    (hb : b < pts.length) (hne : a ≠ b)
    (hleft : ∀ p, p < pts.length → p ≠ a → p ≠ b →
      0 < crossExact (pt pts a) (pt pts b) (pt pts p)) :
    ChainEdge pts idx a b := by
  have hpw := hs.2
  have hnd := hs.nodup
  have ham := (hs.mem_iff a).mpr ha
  have hbm := (hs.mem_iff b).mpr hb
  rw [chainEdge_iff_exact pts hsafe idx hs a b]
  rcases sublist_pair_or ham hbm hne with h | h
  · left
    exact scan_adjacent (pt pts) _ hpw hnd a b h
      (fun p hp => hleft p ((hs.mem_iff p).mp hp))
  · right
    rw [scan_congr (pt pts) (fun i => negPt (pt pts i)) (fun a b c => (cross_negPt _ _ _).symm)]
    apply scan_adjacent (fun i => negPt (pt pts i)) _ _ (List.nodup_reverse.mpr hnd) a b
    · have : [a, b] = [b, a].reverse := rfl
      rw [this]
      exact List.reverse_sublist.mpr h
    · intro p hp hpa hpb
      rw [cross_negPt]
      exact hleft p ((hs.mem_iff p).mp (List.mem_reverse.mp hp)) hpa hpb
    · rw [List.pairwise_reverse]
      exact hpw.imp (fun hab => (lexLe_negPt _ _).mpr hab)

/-! ## Agreement of the two algorithms -/

theorem separated_of_check (pts : List QPointF) (h : separatedCheck pts = true) :
    Separated pts := by
  intro i hi j hj k hk hij hik hjk
  simp only [separatedCheck, List.all_eq_true, List.mem_range, Bool.or_eq_true,
    decide_eq_true_eq] at h
  rcases h i hi j hj k hk with (((h | h) | h) | h) | h
  · exact absurd h hij
  · exact absurd h hik
  · exact absurd h hjk
  · exact Or.inl h
  · exact Or.inr h

/-- C2, counterexample. The four points of `tinyPoints` have no three collinear,
yet `computeSlowHull` reports all six pairs (every `cross` value is within the
`1e-9` tolerance) while `computeFastHull` reports the three sides of the
triangle. -/
theorem tinyPoints_hulls_differ :
    NoThreeCollinear tinyPoints ∧
    ∃ c1 c2, computeSlowHull ⟨tinyPoints, ∅, 0⟩ = some c1 ∧
      computeFastHull ⟨tinyPoints, ∅, 0⟩ = some c2 ∧
      c1.edges = {⟨0, 1⟩, ⟨0, 2⟩, ⟨0, 3⟩, ⟨1, 2⟩, ⟨1, 3⟩, ⟨2, 3⟩} ∧
      c2.edges = {⟨0, 1⟩, ⟨0, 2⟩, ⟨1, 2⟩} ∧ c1.edges ≠ c2.edges := by
  refine ⟨noThreeCollinear_of_check tinyPoints (by decide!), ?_⟩
  have hs : (computeSlowHull ⟨tinyPoints, ∅, 0⟩).map
      (fun c => decide (c.edges = {⟨0, 1⟩, ⟨0, 2⟩, ⟨0, 3⟩, ⟨1, 2⟩, ⟨1, 3⟩, ⟨2, 3⟩})) =
        some true := by
    decide!
  have hf : (computeFastHull ⟨tinyPoints, ∅, 0⟩).map
      (fun c => decide (c.edges = {⟨0, 1⟩, ⟨0, 2⟩, ⟨1, 2⟩})) = some true := by
    decide!
  cases h1 : computeSlowHull ⟨tinyPoints, ∅, 0⟩ with
  | none => rw [h1] at hs; exact absurd hs (by simp)
  | some c1 =>
    cases h2 : computeFastHull ⟨tinyPoints, ∅, 0⟩ with
    | none => rw [h2] at hf; exact absurd hf (by simp)
    | some c2 =>
      rw [h1] at hs
      rw [h2] at hf
      have e1 : c1.edges = {⟨0, 1⟩, ⟨0, 2⟩, ⟨0, 3⟩, ⟨1, 2⟩, ⟨1, 3⟩, ⟨2, 3⟩} := by
        simpa using hs
      have e2 : c2.edges = {⟨0, 1⟩, ⟨0, 2⟩, ⟨1, 2⟩} := by simpa using hf
      refine ⟨c1, c2, rfl, rfl, e1, e2, ?_⟩
      rw [e1, e2]
      decide

/-- Agreement of the two algorithms where rounding changes no test, for every
order that `std::sort` may leave. -/
theorem fastHullFrom_agrees_of_separated (pts : List QPointF) (count : ℤ) (idx : List ℕ)
    (hs : SortedIdx pts idx) (hne : pts ≠ []) (hsafe : RoundingSafe pts)
    (hsep : Separated pts) :
    ∃ c1 c2, computeSlowHull ⟨pts, ∅, count⟩ = some c1 ∧
      fastHullFrom ⟨pts, ∅, count⟩ idx = some c2 ∧ c1.edges = c2.edges := by
  obtain ⟨c1, h1, -, hsl⟩ := computeSlowHull_spec ⟨pts, ∅, count⟩
  obtain ⟨c2, h2, -, hf⟩ := fastHullFrom_spec ⟨pts, ∅, count⟩ idx hs hne
  refine ⟨c1, c2, h1, h2, ?_⟩
  have he := eps_pos
  ext e
  rw [hsl, hf]
  simp only [Finset.not_mem_empty, false_or]
  constructor
  · rintro ⟨hij, hj, hnot⟩
    have hi : e.i < pts.length := lt_trans hij hj
    by_cases hneg : SeesNeg pts e.i e.j (List.range pts.length)
    · have hpos : ¬ SeesPos pts e.i e.j (List.range pts.length) := fun h => hnot ⟨h, hneg⟩
      refine ⟨e.j, e.i, ?_, ?_⟩
      · apply chainEdge_of_strictly_left pts hsafe idx hs e.j e.i hj hi (ne_of_gt hij)
        intro p hp hpj hpi
        rw [cross_swap_left]
        rcases hsep e.i hi e.j hj p hp (ne_of_lt hij) (Ne.symm hpi) (Ne.symm hpj) with h | h
        · exact absurd ⟨p, List.mem_range.mpr hp, hpi, hpj,
            (hsafe.2 e.i hi e.j hj p hp).2.1.mpr h⟩ hpos
        · linarith
      · rw [min_eq_right hij.le, max_eq_left hij.le]
    · refine ⟨e.i, e.j, ?_, ?_⟩
      · apply chainEdge_of_strictly_left pts hsafe idx hs e.i e.j hi hj (ne_of_lt hij)
        intro p hp hpi hpj
        rcases hsep e.i hi e.j hj p hp (ne_of_lt hij) (Ne.symm hpi) (Ne.symm hpj) with h | h
        · linarith
        · exact absurd ⟨p, List.mem_range.mpr hp, hpi, hpj,
            (hsafe.2 e.i hi e.j hj p hp).2.2.mpr h⟩ hneg
      · rw [min_eq_left hij.le, max_eq_right hij.le]
  · intro h
    obtain ⟨h1, h2, h3⟩ := fast_edge_one_side pts hsafe idx hs hne e h
    exact slowEdge_of_one_side pts hsafe e h1 h2 h3

/-- C2, amended. For every non-empty point sequence on which rounding changes the
outcome of no test (`RoundingSafe`: coordinates below `2^200` and, for every
three points, `cross` passes the tests `<= 0`, `> 1e-9`, `< -1e-9` exactly when
the exact value of its expression does; in particular integer coordinates below
`2^25`) and in which every three points with distinct indices have an exact
value of the `cross` expression of magnitude above `1e-9`, `computeSlowHull` and
`computeFastHull` produce exactly the same set of canonical edges. -/
theorem hulls_agree_of_separated (pts : List QPointF) (count : ℤ) (hne : pts ≠ [])
    (hsafe : RoundingSafe pts) (hsep : Separated pts) :
    ∃ c1 c2, computeSlowHull ⟨pts, ∅, count⟩ = some c1 ∧
      computeFastHull ⟨pts, ∅, count⟩ = some c2 ∧ c1.edges = c2.edges :=
  fastHullFrom_agrees_of_separated pts count _ (sortIdx_sortedIdx pts) hne hsafe hsep

theorem hulls_agree_of_separated_witness :
    RoundingSafe refPoints ∧ Separated refPoints ∧
    ∃ c1 c2, computeSlowHull ⟨refPoints, ∅, 0⟩ = some c1 ∧
      computeFastHull ⟨refPoints, ∅, 0⟩ = some c2 ∧ c1.edges = c2.edges :=
  ⟨roundingSafe_refPoints, separated_of_check refPoints (by decide!),
    hulls_agree_of_separated refPoints 0 (List.cons_ne_nil _ _) roundingSafe_refPoints
      (separated_of_check refPoints (by decide!))⟩

/-! ## Collinear boundary points, safety of the brute force, integer inputs -/

/-- C14. On `[(0,0),(1,0),(2,0),(1,1)]`, where `(1,0)` lies on the hull edge from
`(0,0)` to `(2,0)`, `computeSlowHull` produces `{(0,1),(0,2),(0,3),(1,2),(2,3)}`
and `computeFastHull` produces `{(0,2),(0,3),(2,3)}`: brute force reports the
edges `(0,1)` and `(1,2)`, which the monotone chain drops. -/
theorem colPoints_hulls :
    cross (pt colPoints 0) (pt colPoints 2) (pt colPoints 1) = 0 ∧
    ∃ c1 c2, computeSlowHull ⟨colPoints, ∅, 0⟩ = some c1 ∧
      computeFastHull ⟨colPoints, ∅, 0⟩ = some c2 ∧
      c1.edges = {⟨0, 1⟩, ⟨0, 2⟩, ⟨0, 3⟩, ⟨1, 2⟩, ⟨2, 3⟩} ∧
      c2.edges = {⟨0, 2⟩, ⟨0, 3⟩, ⟨2, 3⟩} ∧
      c2.edges ⊆ c1.edges ∧ c1.edges \ c2.edges = {⟨0, 1⟩, ⟨1, 2⟩} := by
  refine ⟨by decide!, ?_⟩
  have hs : (computeSlowHull ⟨colPoints, ∅, 0⟩).map
      (fun c => decide (c.edges = {⟨0, 1⟩, ⟨0, 2⟩, ⟨0, 3⟩, ⟨1, 2⟩, ⟨2, 3⟩})) = some true := by
    decide!
  have hf : (computeFastHull ⟨colPoints, ∅, 0⟩).map
      (fun c => decide (c.edges = {⟨0, 2⟩, ⟨0, 3⟩, ⟨2, 3⟩})) = some true := by
    decide!
  cases h1 : computeSlowHull ⟨colPoints, ∅, 0⟩ with
  | none => rw [h1] at hs; exact absurd hs (by simp)
  | some c1 =>
    cases h2 : computeFastHull ⟨colPoints, ∅, 0⟩ with
    | none => rw [h2] at hf; exact absurd hf (by simp)
    | some c2 =>
      rw [h1] at hs
      rw [h2] at hf
      have e1 : c1.edges = {⟨0, 1⟩, ⟨0, 2⟩, ⟨0, 3⟩, ⟨1, 2⟩, ⟨2, 3⟩} := by simpa using hs
      have e2 : c2.edges = {⟨0, 2⟩, ⟨0, 3⟩, ⟨2, 3⟩} := by simpa using hf
      refine ⟨c1, c2, rfl, rfl, e1, e2, ?_, ?_⟩
      · rw [e1, e2]; decide
      · rw [e1, e2]; decide

/-- C17. `computeSlowHull` returns on every state, also for `n = 0, 1, 2`: every
subscript `points[i]`, `points[j]`, `points[k]` is checked in the embedding, so no
access is out of range; the points are left as they were. -/
theorem computeSlowHull_safe (c : DrawCanvas) :
    ∃ c1, computeSlowHull c = some c1 ∧ c1.points = c.points := by
  obtain ⟨c1, h1, h2, -⟩ := computeSlowHull_spec c
  exact ⟨c1, h1, h2⟩

theorem pt_mem {pts : List QPointF} {i : ℕ} (h : i < pts.length) : pt pts i ∈ pts := by
  have := getElem?_pt h
  rw [List.getElem?_eq_getElem h] at this
  rw [← Option.some.inj this]
  exact List.getElem_mem h

theorem cross_int (a b c : QPointF) (ha : (∃ z : ℤ, a.x = z) ∧ (∃ z : ℤ, a.y = z))
    (hb : (∃ z : ℤ, b.x = z) ∧ (∃ z : ℤ, b.y = z))
    (hc : (∃ z : ℤ, c.x = z) ∧ (∃ z : ℤ, c.y = z)) :
    ∃ z : ℤ, crossExact a b c = z := by
  obtain ⟨⟨ax, hax⟩, ⟨ay, hay⟩⟩ := ha
  obtain ⟨⟨bx, hbx⟩, ⟨by1, hby⟩⟩ := hb
  obtain ⟨⟨cx, hcx⟩, ⟨cy, hcy⟩⟩ := hc
  refine ⟨(bx - ax) * (cy - ay) - (by1 - ay) * (cx - ax), ?_⟩
  unfold crossExact
  rw [hax, hay, hbx, hby, hcx, hcy]
  push_cast
  ring

/-- With integer coordinates a non-zero exact value of the `cross` expression has
magnitude at least 1. -/
theorem separated_of_integer (pts : List QPointF) (hint : IntegerCoords pts)
    (hgen : NoThreeCollinear pts) : Separated pts := by
  intro i hi j hj k hk hij hik hjk
  obtain ⟨z, hz⟩ := cross_int (pt pts i) (pt pts j) (pt pts k)
    (hint _ (pt_mem hi)) (hint _ (pt_mem hj)) (hint _ (pt_mem hk))
  have hne := hgen i hi j hj k hk hij hik hjk
  rw [hz] at hne ⊢
  have hz0 : z ≠ 0 := by
    rintro rfl
    exact hne (by simp)
  have he : eps < 1 := by norm_num [eps]
  rcases lt_or_gt_of_ne hz0 with h | h
  · right
    have h1 : z ≤ -1 := by omega
    have h2 : (z : ℚ) ≤ -1 := by exact_mod_cast h1
    linarith
  · left
    have h1 : 1 ≤ z := by omega
    have h2 : (1 : ℚ) ≤ z := by exact_mod_cast h1
    linarith

theorem integerCoords_of_smallInt (pts : List QPointF) (h : ∀ p ∈ pts, SmallInt p) :
    IntegerCoords pts := by
  intro p hp
  obtain ⟨x, y, hx, hy, -, -⟩ := h p hp
  exact ⟨⟨x, hx⟩, ⟨y, hy⟩⟩

/-- C18, counterexample. The three points of `fibPoints` have integer coordinates
and are not collinear (the exact value of the `cross` expression is 1).  The
brute force reports all three pairs; in the lower pass `cross(p_0, p_1, p_2)`
rounds to 0, vertex `1` is popped, and the chain reports the single edge
`(0, 2)`. -/
theorem fibPoints_slow_not_subset :
    IntegerCoords fibPoints ∧ NoThreeCollinear fibPoints ∧ 3 ≤ fibPoints.length ∧
    ∃ c1 c2, computeSlowHull ⟨fibPoints, ∅, 0⟩ = some c1 ∧
      computeFastHull ⟨fibPoints, ∅, 0⟩ = some c2 ∧
      c1.edges = {⟨0, 1⟩, ⟨0, 2⟩, ⟨1, 2⟩} ∧ c2.edges = {⟨0, 2⟩} ∧
      (⟨0, 1⟩ : Edge) ∈ c1.edges ∧ (⟨0, 1⟩ : Edge) ∉ c2.edges := by
  have hint : IntegerCoords fibPoints := by
    intro p hp
    simp only [fibPoints, List.mem_cons, List.mem_singleton, List.not_mem_nil, or_false] at hp
    rcases hp with rfl | rfl | rfl
    · exact ⟨⟨0, by norm_num⟩, ⟨0, by norm_num⟩⟩
    · exact ⟨⟨165580141, by norm_num⟩, ⟨267914296, by norm_num⟩⟩
    · exact ⟨⟨267914296, by norm_num⟩, ⟨433494437, by norm_num⟩⟩
  refine ⟨hint, noThreeCollinear_of_check fibPoints (by decide!), by decide, ?_⟩
  have hs : (computeSlowHull ⟨fibPoints, ∅, 0⟩).map
      (fun c => decide (c.edges = {⟨0, 1⟩, ⟨0, 2⟩, ⟨1, 2⟩})) = some true := by
    decide!
  have hf : (computeFastHull ⟨fibPoints, ∅, 0⟩).map
      (fun c => decide (c.edges = {⟨0, 2⟩})) = some true := by
    decide!
  cases h1 : computeSlowHull ⟨fibPoints, ∅, 0⟩ with
  | none => rw [h1] at hs; exact absurd hs (by simp)
  | some c1 =>
    cases h2 : computeFastHull ⟨fibPoints, ∅, 0⟩ with
    | none => rw [h2] at hf; exact absurd hf (by simp)
    | some c2 =>
      rw [h1] at hs
      rw [h2] at hf
      have e1 : c1.edges = {⟨0, 1⟩, ⟨0, 2⟩, ⟨1, 2⟩} := by simpa using hs
      have e2 : c2.edges = {⟨0, 2⟩} := by simpa using hf
      refine ⟨c1, c2, rfl, rfl, e1, e2, ?_, ?_⟩
      · rw [e1]; decide
      · rw [e2]; decide

/-- C18, amended. For at least three points with integer coordinates of magnitude
below `2^25`, no three collinear, every pair in the edge set of `computeSlowHull`
is in the edge set of `computeFastHull`: no operation of `cross` rounds, every
value of three distinct points is a non-zero integer, so of magnitude above
`1e-9`, and the tolerance test of `computeSlowHull` and the test `<= 0` of
`computeFastHull` classify every triple alike. -/
theorem integer_slow_subset_fast (pts : List QPointF) (count : ℤ) (hn : 3 ≤ pts.length)
    (hint : ∀ p ∈ pts, SmallInt p) (hgen : NoThreeCollinear pts) :
    RoundingSafe pts ∧ Separated pts ∧
    ∃ c1 c2, computeSlowHull ⟨pts, ∅, count⟩ = some c1 ∧
      computeFastHull ⟨pts, ∅, count⟩ = some c2 ∧
      ∀ i j, i < j → (⟨i, j⟩ : Edge) ∈ c1.edges → (⟨i, j⟩ : Edge) ∈ c2.edges := by
  have hsafe := roundingSafe_of_smallInt pts hint
  have hsep := separated_of_integer pts (integerCoords_of_smallInt pts hint) hgen
  have hne : pts ≠ [] := by
    rintro rfl
    simp at hn
  obtain ⟨c1, c2, h1, h2, h3⟩ := fastHullFrom_agrees_of_separated pts count _
    (sortIdx_sortedIdx pts) hne hsafe hsep
  exact ⟨hsafe, hsep, c1, c2, h1, h2, fun i j _ h => h3 ▸ h⟩

theorem integer_slow_subset_fast_witness :
    RoundingSafe refPoints ∧ Separated refPoints ∧
    ∃ c1 c2, computeSlowHull ⟨refPoints, ∅, 0⟩ = some c1 ∧
      computeFastHull ⟨refPoints, ∅, 0⟩ = some c2 ∧
      ∀ i j, i < j → (⟨i, j⟩ : Edge) ∈ c1.edges → (⟨i, j⟩ : Edge) ∈ c2.edges :=
  integer_slow_subset_fast refPoints 0 (by decide) smallInt_refPoints
    noThreeCollinear_refPoints

/-! ## All points collinear -/

theorem sum_pairs_range (n : ℕ) :
    ((List.range n).map (fun i => n - (i + 1))).sum = n * (n - 1) / 2 := by
  have h0 : (List.range n).toFinset = Finset.range n := by
    ext i
    simp
  have h1 : ((List.range n).map (fun i => n - (i + 1))).sum
      = ∑ i in Finset.range n, (n - (i + 1)) := by
    rw [← List.sum_toFinset _ (List.nodup_range n), h0]
  rw [h1, ← Finset.sum_range_id n, ← Finset.sum_range_reflect (fun i => i) n]
  apply Finset.sum_congr rfl
  intro i hi
  simp only [Finset.mem_range] at hi
  omega

theorem seesPos_range_succ (pts : List QPointF) (i j s : ℕ) :
    SeesPos pts i j (List.range (s + 1)) ↔
      SeesPos pts i j (List.range s) ∨
        (s ≠ i ∧ s ≠ j ∧ eps < cross (pt pts i) (pt pts j) (pt pts s)) := by
  unfold SeesPos
  constructor
  · rintro ⟨k, hk, h⟩
    rw [List.mem_range] at hk
    rcases Nat.lt_succ_iff_lt_or_eq.mp hk with h1 | h1
    · exact Or.inl ⟨k, List.mem_range.mpr h1, h⟩
    · subst h1
      exact Or.inr h
  · rintro (⟨k, hk, h⟩ | h)
    · rw [List.mem_range] at hk
      exact ⟨k, List.mem_range.mpr (by omega), h⟩
    · exact ⟨s, List.mem_range.mpr (by omega), h⟩

theorem seesNeg_range_succ (pts : List QPointF) (i j s : ℕ) :
    SeesNeg pts i j (List.range (s + 1)) ↔
      SeesNeg pts i j (List.range s) ∨
        (s ≠ i ∧ s ≠ j ∧ cross (pt pts i) (pt pts j) (pt pts s) < -eps) := by
  unfold SeesNeg
  constructor
  · rintro ⟨k, hk, h⟩
    rw [List.mem_range] at hk
    rcases Nat.lt_succ_iff_lt_or_eq.mp hk with h1 | h1
    · exact Or.inl ⟨k, List.mem_range.mpr h1, h⟩
    · subst h1
      exact Or.inr h
  · rintro (⟨k, hk, h⟩ | h)
    · rw [List.mem_range] at hk
      exact ⟨k, List.mem_range.mpr (by omega), h⟩
    · exact ⟨s, List.mem_range.mpr (by omega), h⟩

theorem seesPos_mono (pts : List QPointF) (i j : ℕ) {s k : ℕ} (h : s ≤ k)
    (hs : SeesPos pts i j (List.range s)) : SeesPos pts i j (List.range k) := by
  obtain ⟨a, ha, h1⟩ := hs
  rw [List.mem_range] at ha
  exact ⟨a, List.mem_range.mpr (by omega), h1⟩

theorem seesNeg_mono (pts : List QPointF) (i j : ℕ) {s k : ℕ} (h : s ≤ k)
    (hs : SeesNeg pts i j (List.range s)) : SeesNeg pts i j (List.range k) := by
  obtain ⟨a, ha, h1⟩ := hs
  rw [List.mem_range] at ha
  exact ⟨a, List.mem_range.mpr (by omega), h1⟩

/-- The `k` loop, entered at `k = s` with the flags of the values below `s` and
not both set, adds one to the counter for each `k ≥ s` before which no `break`
came, and for no other. -/
theorem slowInner_iters (pts : List QPointF) (i j : ℕ) (hi : i < pts.length)
    (hj : j < pts.length) :
    ∀ (m s : ℕ) (pos neg : Bool) (c : ℤ), s + m = pts.length →
      (pos = true ↔ SeesPos pts i j (List.range s)) →
      (neg = true ↔ SeesNeg pts i j (List.range s)) →
      ¬ (pos = true ∧ neg = true) →
      ∃ p q, slowInner pts i j (List.range' s m) pos neg (wrapInt c) =
        some (p, q, wrapInt (c + (((List.range' s m).filter (fun k => decide
          (¬ (SeesPos pts i j (List.range k) ∧ SeesNeg pts i j (List.range k))))).length : ℕ)))
  | 0, s, pos, neg, c, _, _, _, _ => by
    refine ⟨pos, neg, ?_⟩
    simp [slowInner]
  | m + 1, s, pos, neg, c, hsm, hpos, hneg, hnb => by
    have hs : s < pts.length := by omega
    have hhead : decide (¬ (SeesPos pts i j (List.range s) ∧ SeesNeg pts i j (List.range s)))
        = true := by
      rw [decide_eq_true_eq]
      rintro ⟨h1, h2⟩
      exact hnb ⟨hpos.mpr h1, hneg.mpr h2⟩
    have hlen : ((List.range' s (m + 1)).filter (fun k => decide
        (¬ (SeesPos pts i j (List.range k) ∧ SeesNeg pts i j (List.range k))))).length =
        ((List.range' (s + 1) m).filter (fun k => decide
        (¬ (SeesPos pts i j (List.range k) ∧ SeesNeg pts i j (List.range k))))).length + 1 := by
      rw [List.range'_succ]
      simp only [List.filter_cons, hhead, if_true, List.length_cons]
    rw [hlen, List.range'_succ, slowInner_cons, wrapInt_succ]
    have hcast : ∀ t : ℕ, c + ((t + 1 : ℕ) : ℤ) = c + 1 + (t : ℤ) := by
      intro t
      push_cast
      ring
    rw [hcast]
    by_cases hk : s = i ∨ s = j
    · rw [if_pos hk]
      apply slowInner_iters pts i j hi hj m (s + 1) pos neg (c + 1) (by omega)
      · rw [hpos, seesPos_range_succ]
        constructor
        · exact Or.inl
        · rintro (h | ⟨h1, h2, -⟩)
          · exact h
          · exact absurd hk (by rintro (h | h); exact h1 h; exact h2 h)
      · rw [hneg, seesNeg_range_succ]
        constructor
        · exact Or.inl
        · rintro (h | ⟨h1, h2, -⟩)
          · exact h
          · exact absurd hk (by rintro (h | h); exact h1 h; exact h2 h)
      · exact hnb
    · have hne : s ≠ i ∧ s ≠ j := ⟨fun h => hk (Or.inl h), fun h => hk (Or.inr h)⟩
      rw [if_neg hk, getElem?_pt hi, getElem?_pt hj, getElem?_pt hs]
      dsimp only
      have he := eps_pos
      have hpos1 : ((if cross (pt pts i) (pt pts j) (pt pts s) > eps then true else pos) = true ↔
          SeesPos pts i j (List.range (s + 1))) := by
        rw [seesPos_range_succ, ← hpos]
        by_cases hp : eps < cross (pt pts i) (pt pts j) (pt pts s)
        · simp [hp, hne]
        · simp [hp]
      have hneg1 : ((if cross (pt pts i) (pt pts j) (pt pts s) > eps then neg
          else if cross (pt pts i) (pt pts j) (pt pts s) < -eps then true else neg) = true ↔
          SeesNeg pts i j (List.range (s + 1))) := by
        rw [seesNeg_range_succ, ← hneg]
        by_cases hp : eps < cross (pt pts i) (pt pts j) (pt pts s)
        · have hn : ¬ cross (pt pts i) (pt pts j) (pt pts s) < -eps := by
            intro h
            linarith
          simp [hp, hn]
        · by_cases hn : cross (pt pts i) (pt pts j) (pt pts s) < -eps
          · simp [hp, hn, hne]
          · simp [hp, hn]
      generalize (if cross (pt pts i) (pt pts j) (pt pts s) > eps then true else pos) = pos1
        at hpos1 ⊢
      generalize (if cross (pt pts i) (pt pts j) (pt pts s) > eps then neg
        else if cross (pt pts i) (pt pts j) (pt pts s) < -eps then true else neg) = neg1
        at hneg1 ⊢
      by_cases hb : (pos1 && neg1) = true
      · rw [if_pos hb]
        rw [Bool.and_eq_true] at hb
        have hrest : ((List.range' (s + 1) m).filter (fun k => decide
            (¬ (SeesPos pts i j (List.range k) ∧ SeesNeg pts i j (List.range k))))) = [] := by
          rw [List.filter_eq_nil_iff]
          intro k hk1
          rw [List.mem_range'_1] at hk1
          rw [decide_eq_true_eq, not_not]
          exact ⟨seesPos_mono pts i j hk1.1 (hpos1.mp hb.1),
            seesNeg_mono pts i j hk1.1 (hneg1.mp hb.2)⟩
        rw [hrest]
        exact ⟨pos1, neg1, by simp⟩
      · rw [if_neg hb]
        apply slowInner_iters pts i j hi hj m (s + 1) pos1 neg1 (c + 1) (by omega) hpos1 hneg1
        rw [Bool.and_eq_true] at hb
        exact hb

/-- The `k` loop of a pair adds `pairIters` to the counter. -/
theorem slowInner_pairIters (pts : List QPointF) (i j : ℕ) (hi : i < pts.length)
    (hj : j < pts.length) (c : ℤ) :
    ∃ p q, slowInner pts i j (List.range pts.length) false false (wrapInt c) =
      some (p, q, wrapInt (c + (pairIters pts i j : ℕ))) := by
  have h := slowInner_iters pts i j hi hj pts.length 0 false false c (by omega)
    (by simp [SeesPos]) (by simp [SeesNeg]) (by simp)
  rw [← List.range_eq_range'] at h
  exact h

theorem slowPairs_iters (pts : List QPointF) (i : ℕ) (hi : i < pts.length) :
    ∀ (js : List ℕ) (edges : Finset Edge) (c : ℤ), (∀ j ∈ js, j < pts.length) →
      ∃ e1, slowPairs pts i js edges (wrapInt c) =
        some (e1, wrapInt (c + ((js.map (fun j => pairIters pts i j)).sum : ℕ)))
  | [], edges, c, _ => ⟨edges, by simp [slowPairs]⟩
  | j :: js, edges, c, hjs => by
    obtain ⟨p, q, h1⟩ := slowInner_pairIters pts i j hi (hjs j (List.mem_cons_self _ _)) c
    obtain ⟨e1, h2⟩ := slowPairs_iters pts i hi js
      (if !(p && q) then insert ⟨min i j, max i j⟩ edges else edges)
      (c + (pairIters pts i j : ℕ)) (fun a ha => hjs a (List.mem_cons_of_mem _ ha))
    refine ⟨e1, ?_⟩
    rw [slowPairs, h1]
    dsimp only
    rw [h2, List.map_cons, List.sum_cons]
    push_cast
    rw [add_assoc]

theorem slowOuter_iters (pts : List QPointF) :
    ∀ (is : List ℕ) (edges : Finset Edge) (c : ℤ), (∀ i ∈ is, i < pts.length) →
      ∃ e1, slowOuter pts is edges (wrapInt c) =
        some (e1, wrapInt (c + ((is.map (fun i =>
          ((List.range' (i + 1) (pts.length - (i + 1))).map
            (fun j => pairIters pts i j)).sum)).sum : ℕ)))
  | [], edges, c, _ => ⟨edges, by simp [slowOuter]⟩
  | i :: is, edges, c, his => by
    have hi : i < pts.length := his i (List.mem_cons_self _ _)
    obtain ⟨e1, h1⟩ := slowPairs_iters pts i hi (List.range' (i + 1) (pts.length - (i + 1)))
      edges c (by
        intro j hj
        rw [List.mem_range'_1] at hj
        omega)
    obtain ⟨e2, h2⟩ := slowOuter_iters pts is e1
      (c + (((List.range' (i + 1) (pts.length - (i + 1))).map
        (fun j => pairIters pts i j)).sum : ℕ))
      (fun a ha => his a (List.mem_cons_of_mem _ ha))
    refine ⟨e2, ?_⟩
    rw [slowOuter, h1]
    dsimp only
    rw [h2, List.map_cons, List.sum_cons]
    push_cast
    rw [add_assoc]

/-- The counter that `computeSlowHull` leaves is the number of executed
iterations of the `k` loop, as an `int`. -/
theorem computeSlowHull_iterationCount (c : DrawCanvas) :
    ∃ c1, computeSlowHull c = some c1 ∧ c1.iterationCount = wrapInt (slowIters c.points) := by
  obtain ⟨e1, h1⟩ := slowOuter_iters c.points (List.range c.points.length) c.edges 0
    (fun i hi => List.mem_range.mp hi)
  rw [wrapInt_zero, zero_add] at h1
  refine ⟨⟨c.points, e1, wrapInt (slowIters c.points)⟩, ?_, rfl⟩
  rw [computeSlowHull, h1]
  rfl

theorem pairIters_le (pts : List QPointF) (i j : ℕ) : pairIters pts i j ≤ pts.length := by
  unfold pairIters
  exact (List.length_filter_le _ _).trans (by simp)

theorem pairIters_of_slowEdge (pts : List QPointF) (i j : ℕ)
    (h : ¬ (SeesPos pts i j (List.range pts.length) ∧ SeesNeg pts i j (List.range pts.length))) :
    pairIters pts i j = pts.length := by
  unfold pairIters
  rw [List.filter_eq_self.mpr, List.length_range]
  intro k hk
  rw [List.mem_range] at hk
  rw [decide_eq_true_eq]
  rintro ⟨h1, h2⟩
  exact h ⟨seesPos_mono pts i j hk.le h1, seesNeg_mono pts i j hk.le h2⟩

theorem sum_map_le_of_le {l : List ℕ} {f g : ℕ → ℕ} (h : ∀ a ∈ l, f a ≤ g a) :
    (l.map f).sum ≤ (l.map g).sum := by
  induction l with
  | nil => simp
  | cons a l ih =>
    simp only [List.map_cons, List.sum_cons]
    exact Nat.add_le_add (h a (List.mem_cons_self _ _))
      (ih (fun b hb => h b (List.mem_cons_of_mem _ hb)))

theorem sum_map_eq_of_eq {l : List ℕ} {f g : ℕ → ℕ} (h : ∀ a ∈ l, f a = g a) :
    (l.map f).sum = (l.map g).sum := by
  rw [List.map_congr_left h]

theorem sum_map_const (l : List ℕ) (n : ℕ) : (l.map (fun _ => n)).sum = l.length * n := by
  induction l with
  | nil => simp
  | cons a l ih =>
    simp only [List.map_cons, List.sum_cons, List.length_cons, ih]
    ring

theorem sum_map_mul (l : List ℕ) (f : ℕ → ℕ) (n : ℕ) :
    (l.map (fun i => f i * n)).sum = (l.map f).sum * n := by
  induction l with
  | nil => simp
  | cons a l ih =>
    simp only [List.map_cons, List.sum_cons, ih]
    ring

theorem slowIters_le (pts : List QPointF) :
    slowIters pts ≤ pts.length * (pts.length * (pts.length - 1) / 2) := by
  unfold slowIters
  have h1 : ∀ i ∈ List.range pts.length,
      ((List.range' (i + 1) (pts.length - (i + 1))).map (fun j => pairIters pts i j)).sum ≤
        (pts.length - (i + 1)) * pts.length := by
    intro i _
    refine (sum_map_le_of_le (fun j _ => pairIters_le pts i j)).trans ?_
    rw [sum_map_const, List.length_range']
  refine (sum_map_le_of_le h1).trans ?_
  rw [sum_map_mul, sum_pairs_range, Nat.mul_comm]

theorem slowIters_eq (pts : List QPointF)
    (h : ∀ i j, i < j → j < pts.length → SlowEdge pts ⟨i, j⟩) :
    slowIters pts = pts.length * (pts.length * (pts.length - 1) / 2) := by
  unfold slowIters
  have h1 : ∀ i ∈ List.range pts.length,
      ((List.range' (i + 1) (pts.length - (i + 1))).map (fun j => pairIters pts i j)).sum =
        (pts.length - (i + 1)) * pts.length := by
    intro i hi
    rw [List.mem_range] at hi
    rw [sum_map_eq_of_eq (g := fun _ => pts.length), sum_map_const, List.length_range']
    intro j hj
    rw [List.mem_range'_1] at hj
    exact pairIters_of_slowEdge pts i j (h i j (by omega) (by omega)).2.2
  rw [sum_map_eq_of_eq h1, sum_map_mul, sum_pairs_range, Nat.mul_comm]

/-- C11, counterexample. On the reference input the final `iterationCount` of
`computeSlowHull` is 146, not `8 * (8 * 7 / 2) = 224`: the `break` ends the `k`
loop of a pair once both signs are seen, and the later values of `k` are not
counted. -/
theorem refPoints_slow_count :
    (computeSlowHull ⟨refPoints, ∅, 0⟩).map (fun c => c.iterationCount) = some 146 ∧
    146 ≠ refPoints.length * (refPoints.length * (refPoints.length - 1) / 2) := by
  constructor
  · decide!
  · decide

/-- C11, amended. `computeSlowHull` adds one to the counter per executed
iteration of the `k` loop, before the skip test.  For a pair `(i, j)` iteration
`k` is executed exactly when the values below `k` have not shown both a point
with `cross > 1e-9` and a point with `cross < -1e-9` (`pairIters` counts these
`k`).  The final `iterationCount` is the number `slowIters` of executed
iterations over all pairs `i < j < n`, stored in an `int`: equal to it when it is
below `2^31`, wrapped around otherwise.  A pair adds at most `n`, and exactly `n`
when it is reported as an edge; so the number of iterations is at most
`n * (n (n-1) / 2)`, with equality when every pair `i < j < n` is reported as an
edge.  On the reference input it is 146. -/
theorem computeSlowHull_count (pts : List QPointF) (count : ℤ) :
    ∃ c1, computeSlowHull ⟨pts, ∅, count⟩ = some c1 ∧
      c1.iterationCount = wrapInt (slowIters pts) ∧
      (slowIters pts < 2147483648 → c1.iterationCount = slowIters pts) ∧
      (∀ i j, pairIters pts i j ≤ pts.length) ∧
      (∀ i j, i < j → j < pts.length → (⟨i, j⟩ : Edge) ∈ c1.edges →
        pairIters pts i j = pts.length) ∧
      slowIters pts ≤ pts.length * (pts.length * (pts.length - 1) / 2) ∧
      ((∀ i j, i < j → j < pts.length → (⟨i, j⟩ : Edge) ∈ c1.edges) →
        slowIters pts = pts.length * (pts.length * (pts.length - 1) / 2)) ∧
      slowIters refPoints = 146 := by
  obtain ⟨c1, h1, h2⟩ := computeSlowHull_iterationCount ⟨pts, ∅, count⟩
  obtain ⟨c2, h3, -, h4⟩ := computeSlowHull_spec ⟨pts, ∅, count⟩
  rw [h1] at h3
  cases h3
  have hedge : ∀ i j, (⟨i, j⟩ : Edge) ∈ c1.edges → SlowEdge pts ⟨i, j⟩ := by
    intro i j h
    have := (h4 ⟨i, j⟩).mp h
    simpa using this
  refine ⟨c1, h1, h2, ?_, fun i j => pairIters_le pts i j, ?_, slowIters_le pts, ?_, by decide!⟩
  · intro hlt
    rw [h2]
    exact wrapInt_of_lt _ (Int.natCast_nonneg _) (by exact_mod_cast hlt)
  · intro i j _ _ h
    exact pairIters_of_slowEdge pts i j (hedge i j h).2.2
  · intro hall
    exact slowIters_eq pts (fun i j hij hj => hedge i j (hall i j hij hj))

theorem computeSlowHull_count_witness :
    ∃ c1, computeSlowHull ⟨[⟨0, 0⟩, ⟨1, 0⟩, ⟨0, 1⟩], ∅, 0⟩ = some c1 ∧
      c1.iterationCount = 9 ∧ slowIters [⟨0, 0⟩, ⟨1, 0⟩, ⟨0, 1⟩] = 3 * (3 * (3 - 1) / 2) := by
  obtain ⟨c1, h1, h2, h3, -, -, -, h7, -⟩ := computeSlowHull_count [⟨0, 0⟩, ⟨1, 0⟩, ⟨0, 1⟩] 0
  have h : (computeSlowHull ⟨[⟨0, 0⟩, ⟨1, 0⟩, ⟨0, 1⟩], ∅, 0⟩).map
      (fun c => decide (c.edges = {⟨0, 1⟩, ⟨0, 2⟩, ⟨1, 2⟩})) = some true := by
    decide!
  rw [h1] at h
  have he : c1.edges = {⟨0, 1⟩, ⟨0, 2⟩, ⟨1, 2⟩} := by simpa using h
  have h9 : slowIters [⟨0, 0⟩, ⟨1, 0⟩, ⟨0, 1⟩] = 3 * (3 * (3 - 1) / 2) := by
    apply h7
    intro i j hij hj
    rw [he]
    have hj3 : j < 3 := hj
    interval_cases j <;> interval_cases i <;> decide
  refine ⟨c1, h1, ?_, h9⟩
  rw [h3 (by rw [h9]; norm_num), h9]
  norm_num
/-! ## The counter of the monotone chain -/

/-- The `while` loop adds one to the counter per `pop_back`. -/
theorem popLoop_count (pts : List QPointF) (lim id : ℕ) :
    ∀ (hull : List ℕ) (c : ℤ) (hull1 : List ℕ) (count1 : ℤ),
      popLoop pts lim id hull (wrapInt c) = some (hull1, count1) →
      ∃ k : ℕ, count1 = wrapInt (c + k) ∧ k + hull1.length = hull.length
  | [], c, hull1, count1, h => by
    rw [popLoop] at h
    split at h
    · exact absurd h (by simp)
    · simp only [Option.some.injEq, Prod.mk.injEq] at h
      obtain ⟨rfl, rfl⟩ := h
      exact ⟨0, by simp, rfl⟩
  | [b], c, hull1, count1, h => by
    rw [popLoop] at h
    split at h
    · exact absurd h (by simp)
    · simp only [Option.some.injEq, Prod.mk.injEq] at h
      obtain ⟨rfl, rfl⟩ := h
      exact ⟨0, by simp, by simp⟩
  | b :: a :: rest, c, hull1, count1, h => by
    rw [popLoop_cons_cons] at h
    split at h
    · cases ha : pts[a]? with
      | none => rw [ha] at h; exact absurd h (by simp)
      | some pa =>
        cases hb : pts[b]? with
        | none => rw [ha, hb] at h; exact absurd h (by simp)
        | some pb =>
          cases hc : pts[id]? with
          | none => rw [ha, hb, hc] at h; exact absurd h (by simp)
          | some pc =>
            rw [ha, hb, hc] at h
            dsimp only at h
            split at h
            · rw [wrapInt_succ] at h
              obtain ⟨k, hk1, hk2⟩ := popLoop_count pts lim id (a :: rest) (c + 1) hull1 count1 h
              refine ⟨k + 1, ?_, ?_⟩
              · rw [hk1]
                push_cast
                ring_nf
              · simp only [List.length_cons] at hk2 ⊢
                omega
            · simp only [Option.some.injEq, Prod.mk.injEq] at h
              obtain ⟨rfl, rfl⟩ := h
              exact ⟨0, by simp, by simp⟩
    · simp only [Option.some.injEq, Prod.mk.injEq] at h
      obtain ⟨rfl, rfl⟩ := h
      exact ⟨0, by simp, by simp⟩

/-- One iteration of a chain pass: the counter grows by the number of pops, plus
one if the stack is at or above the threshold at the push; counter plus stack size
grows by at most two. -/
theorem chainStep_count (pts : List QPointF) (lim id : ℕ) (hull : List ℕ) (c : ℤ)
    (hull1 : List ℕ) (count1 : ℤ)
    (h : chainStep pts lim id hull (wrapInt c) = some (hull1, count1)) :
    ∃ k : ℕ, count1 = wrapInt (c + k) ∧ k + hull1.length ≤ hull.length + 2 := by
  rw [chainStep] at h
  cases hp : popLoop pts lim id hull (wrapInt c) with
  | none => rw [hp] at h; exact absurd h (by simp)
  | some r =>
    obtain ⟨h2, c2⟩ := r
    rw [hp] at h
    simp only [Option.some.injEq, Prod.mk.injEq] at h
    obtain ⟨rfl, rfl⟩ := h
    obtain ⟨k, hk1, hk2⟩ := popLoop_count pts lim id hull c h2 c2 hp
    simp only [List.length_cons]
    split
    · refine ⟨k + 1, ?_, by omega⟩
      rw [hk1, wrapInt_succ]
      push_cast
      ring_nf
    · exact ⟨k, hk1, by omega⟩

theorem lowerChain_count (pts : List QPointF) :
    ∀ (ids hull : List ℕ) (c : ℤ) (hull1 : List ℕ) (count1 : ℤ),
      lowerChain pts ids hull (wrapInt c) = some (hull1, count1) →
      ∃ k : ℕ, count1 = wrapInt (c + k) ∧ k + hull1.length ≤ hull.length + 2 * ids.length
  | [], hull, c, hull1, count1, h => by
    simp only [lowerChain, Option.some.injEq, Prod.mk.injEq] at h
    obtain ⟨rfl, rfl⟩ := h
    exact ⟨0, by simp, by simp⟩
  | id :: ids, hull, c, hull1, count1, h => by
    rw [lowerChain] at h
    cases hs : chainStep pts 2 id hull (wrapInt c) with
    | none => rw [hs] at h; exact absurd h (by simp)
    | some r =>
      obtain ⟨h2, c2⟩ := r
      rw [hs] at h
      obtain ⟨k1, hk1, hk2⟩ := chainStep_count pts 2 id hull c h2 c2 hs
      rw [hk1] at h
      obtain ⟨k3, hk3, hk4⟩ := lowerChain_count pts ids h2 (c + k1) hull1 count1 h
      refine ⟨k1 + k3, ?_, ?_⟩
      · rw [hk3]
        push_cast
        ring_nf
      · simp only [List.length_cons]
        omega

theorem upperChain_count (pts : List QPointF) (idx : List ℕ) (t : ℕ) :
    ∀ (is hull : List ℕ) (c : ℤ) (hull1 : List ℕ) (count1 : ℤ),
      upperChain pts idx t is hull (wrapInt c) = some (hull1, count1) →
      ∃ k : ℕ, count1 = wrapInt (c + k) ∧ k + hull1.length ≤ hull.length + 2 * is.length
  | [], hull, c, hull1, count1, h => by
    simp only [upperChain, Option.some.injEq, Prod.mk.injEq] at h
    obtain ⟨rfl, rfl⟩ := h
    exact ⟨0, by simp, by simp⟩
  | i :: is, hull, c, hull1, count1, h => by
    rw [upperChain] at h
    cases hi : idx[i]? with
    | none => rw [hi] at h; exact absurd h (by simp)
    | some id =>
      rw [hi] at h
      dsimp only at h
      cases hs : chainStep pts t id hull (wrapInt c) with
      | none => rw [hs] at h; exact absurd h (by simp)
      | some r =>
        obtain ⟨h2, c2⟩ := r
        rw [hs] at h
        obtain ⟨k1, hk1, hk2⟩ := chainStep_count pts t id hull c h2 c2 hs
        rw [hk1] at h
        obtain ⟨k3, hk3, hk4⟩ := upperChain_count pts idx t is h2 (c + k1) hull1 count1 h
        refine ⟨k1 + k3, ?_, ?_⟩
        · rw [hk3]
          push_cast
          ring_nf
        · simp only [List.length_cons]
          omega

/-- The counter left by the two chain passes is the number `k` of increments,
stored in an `int`, and `k` is at most `2 |idx| + 2 (n - 1)`. -/
theorem hullFrom_count (pts : List QPointF) (idx vec : List ℕ) (cnt : ℤ)
    (h : hullFrom pts idx = some (vec, cnt)) :
    ∃ k : ℕ, cnt = wrapInt k ∧ k + vec.length + 1 ≤ 2 * idx.length + 2 * (pts.length - 1) := by
  rw [hullFrom] at h
  cases h1 : lowerChain pts idx [] 0 with
  | none => rw [h1] at h; exact absurd h (by simp)
  | some r =>
    obtain ⟨L, c⟩ := r
    rw [h1] at h
    dsimp only at h
    rw [← wrapInt_zero] at h1
    obtain ⟨k1, hk1, hk2⟩ := lowerChain_count pts idx [] 0 L c h1
    rw [hk1] at h
    cases h2 : upperChain pts idx (L.length + 1) (List.range (pts.length - 1)).reverse L
        (wrapInt (0 + k1)) with
    | none => rw [h2] at h; exact absurd h (by simp)
    | some r2 =>
      obtain ⟨hull, c2⟩ := r2
      rw [h2] at h
      obtain ⟨k3, hk3, hk4⟩ := upperChain_count pts idx (L.length + 1) _ L (0 + k1) hull c2 h2
      simp only [List.length_reverse, List.length_range, List.length_nil] at hk2 hk4
      cases hull with
      | nil => exact absurd h (by simp)
      | cons top rest =>
        simp only [Option.some.injEq, Prod.mk.injEq] at h
        obtain ⟨rfl, rfl⟩ := h
        refine ⟨k1 + k3, ?_, ?_⟩
        · rw [hk3]
          push_cast
          ring_nf
        · simp only [List.length_cons, List.length_reverse] at hk4 ⊢
          omega

theorem fastHull_count_le (c c1 : DrawCanvas) (h : computeFastHull c = some c1) :
    c1.iterationCount ≤ 4 * c.points.length := by
  obtain ⟨vec, count, h1, -, hc, -⟩ := fastHullFrom_eq_some c c1 _ h
  obtain ⟨k, hk1, hk2⟩ := hullFrom_count c.points _ vec count h1
  rw [sortIdx_sortedIdx c.points |>.length_eq] at hk2
  rw [hc, hk1]
  have := wrapInt_le (k : ℤ) (Int.natCast_nonneg _)
  have h3 : (k : ℤ) ≤ 4 * (c.points.length : ℤ) := by
    have : k ≤ 4 * c.points.length := by omega
    exact_mod_cast this
  omega

/-- C19. For `n ≥ 1` `computeFastHull` returns and the `iterationCount` it leaves
is at most `4 n`: every iteration of a pass adds one per `pop_back` and at most
one at the `push_back`, so counter plus stack size grows by at most two per
iteration.  On the reference input it is 15. -/
theorem computeFastHull_count (c : DrawCanvas) :
    (1 ≤ c.points.length →
      ∃ c1, computeFastHull c = some c1 ∧ c1.iterationCount ≤ 4 * c.points.length) ∧
    (computeFastHull ⟨refPoints, ∅, 0⟩).map (fun c => c.iterationCount) = some 15 := by
  constructor
  · intro hn
    have hne : c.points ≠ [] := by
      intro h0
      rw [h0] at hn
      simp at hn
    obtain ⟨c1, h1⟩ := computeFastHull_isSome c hne
    exact ⟨c1, h1, fastHull_count_le c c1 h1⟩
  · decide!

theorem computeFastHull_count_witness :
    ∃ c1, computeFastHull ⟨colPoints, ∅, 0⟩ = some c1 ∧ c1.iterationCount ≤ 4 * 4 := by
  have h := (computeFastHull_count ⟨colPoints, ∅, 0⟩).1
  exact h (by decide)

/-! ## The upper pass leaves the lower chain in place -/

theorem suffix_of_cons_longer {L tl : List ℕ} {b : ℕ} (h : L <:+ b :: tl)
    (hlen : (b :: tl).length ≥ L.length + 1) : L <:+ tl := by
  rcases List.suffix_cons_iff.mp h with h1 | h1
  · rw [h1] at hlen
    omega
  · exact h1

theorem popStates_cons_cons (pts : List QPointF) (lim id b a : ℕ) (rest : List ℕ) :
    popStates pts lim id (b :: a :: rest) =
      if (b :: a :: rest).length ≥ lim then
        match pts[a]?, pts[b]?, pts[id]? with
        | some pa, some pb, some pc =>
          if cross pa pb pc ≤ 0 then (a :: rest) :: popStates pts lim id (a :: rest) else []
        | _, _, _ => []
      else [] := by
  rw [popStates.eq_def]

theorem popStates_singleton (pts : List QPointF) (lim id b : ℕ) :
    popStates pts lim id [b] = [] := by
  rw [popStates.eq_def]
  simp

/-- With threshold `|L| + 1` every stack the `while` loop goes through still has
`L` at its bottom. -/
theorem popStates_suffix (pts : List QPointF) (L : List ℕ) (id : ℕ) :
    ∀ (hull : List ℕ), L <:+ hull → ∀ h ∈ popStates pts (L.length + 1) id hull, L <:+ h
  | [], _, h, hh => by simp [popStates] at hh
  | [b], _, h, hh => by simp [popStates_singleton] at hh
  | b :: a :: rest, hL, h, hh => by
    rw [popStates_cons_cons] at hh
    split at hh
    · rename_i hlen
      have htl : L <:+ a :: rest := suffix_of_cons_longer hL hlen
      split at hh
      · split at hh
        · rcases List.mem_cons.mp hh with rfl | hh
          · exact htl
          · exact popStates_suffix pts L id (a :: rest) htl h hh
        · simp at hh
      · simp at hh
    · simp at hh

theorem popLoop_suffix (pts : List QPointF) (L : List ℕ) (id : ℕ) :
    ∀ (hull : List ℕ) (count : ℤ) (hull1 : List ℕ) (count1 : ℤ), L <:+ hull →
      popLoop pts (L.length + 1) id hull count = some (hull1, count1) → L <:+ hull1
  | [], count, hull1, count1, hL, h => by
    rw [popLoop] at h
    split at h
    · exact absurd h (by simp)
    · simp only [Option.some.injEq, Prod.mk.injEq] at h
      rw [← h.1]
      exact hL
  | [b], count, hull1, count1, hL, h => by
    rw [popLoop] at h
    split at h
    · exact absurd h (by simp)
    · simp only [Option.some.injEq, Prod.mk.injEq] at h
      rw [← h.1]
      exact hL
  | b :: a :: rest, count, hull1, count1, hL, h => by
    rw [popLoop_cons_cons] at h
    split at h
    · rename_i hlen
      have htl : L <:+ a :: rest := suffix_of_cons_longer hL hlen
      split at h
      · split at h
        · exact popLoop_suffix pts L id (a :: rest) (wrapInt (count + 1)) hull1 count1 htl h
        · simp only [Option.some.injEq, Prod.mk.injEq] at h
          rw [← h.1]
          exact hL
      · exact absurd h (by simp)
    · simp only [Option.some.injEq, Prod.mk.injEq] at h
      rw [← h.1]
      exact hL

theorem chainStep_suffix (pts : List QPointF) (L : List ℕ) (id : ℕ) (hull : List ℕ)
    (count : ℤ) (hull1 : List ℕ) (count1 : ℤ) (hL : L <:+ hull)
    (h : chainStep pts (L.length + 1) id hull count = some (hull1, count1)) :
    ∃ rest, hull1 = id :: rest ∧ L <:+ rest := by
  rw [chainStep] at h
  cases hp : popLoop pts (L.length + 1) id hull count with
  | none => rw [hp] at h; exact absurd h (by simp)
  | some r =>
    obtain ⟨h2, c2⟩ := r
    rw [hp] at h
    simp only [Option.some.injEq, Prod.mk.injEq] at h
    exact ⟨h2, h.1.symm, popLoop_suffix pts L id hull count h2 c2 hL hp⟩

/-- Every stack that occurs during the upper pass has `L` at its bottom. -/
theorem upperStates_suffix (pts : List QPointF) (idx L : List ℕ) :
    ∀ (is hull : List ℕ) (count : ℤ), L <:+ hull →
      ∀ h ∈ upperStates pts idx (L.length + 1) is hull count, L <:+ h
  | [], _, _, _, h, hh => by simp [upperStates] at hh
  | i :: is, hull, count, hL, h, hh => by
    rw [upperStates] at hh
    cases hi : idx[i]? with
    | none => rw [hi] at hh; simp at hh
    | some id =>
      rw [hi] at hh
      dsimp only at hh
      rcases List.mem_append.mp hh with hh | hh
      · exact popStates_suffix pts L id hull hL h hh
      · cases hs : chainStep pts (L.length + 1) id hull count with
        | none => rw [hs] at hh; simp at hh
        | some r =>
          obtain ⟨h2, c2⟩ := r
          rw [hs] at hh
          obtain ⟨rest, hr, hLr⟩ := chainStep_suffix pts L id hull count h2 c2 hL hs
          have hL2 : L <:+ h2 := by
            rw [hr]
            exact hLr.trans (List.suffix_cons _ _)
          rcases List.mem_cons.mp hh with rfl | hh
          · exact hL2
          · exact upperStates_suffix pts idx L is h2 c2 hL2 h hh

/-- After at least one iteration the upper pass ends with a stack whose top sits
above `L`. -/
theorem upperChain_top_above (pts : List QPointF) (idx L : List ℕ) :
    ∀ (is hull : List ℕ) (count : ℤ) (hullF : List ℕ) (countF : ℤ), is ≠ [] → L <:+ hull →
      upperChain pts idx (L.length + 1) is hull count = some (hullF, countF) →
      ∃ top rest, hullF = top :: rest ∧ L <:+ rest ∧ idx[is.getLast?.getD 0]? = some top
  | [], _, _, _, _, hne, _, _ => absurd rfl hne
  | i :: is, hull, count, hullF, countF, _, hL, h => by
    rw [upperChain] at h
    cases hi : idx[i]? with
    | none => rw [hi] at h; exact absurd h (by simp)
    | some id =>
      rw [hi] at h
      dsimp only at h
      cases hs : chainStep pts (L.length + 1) id hull count with
      | none => rw [hs] at h; exact absurd h (by simp)
      | some r =>
        obtain ⟨h2, c2⟩ := r
        rw [hs] at h
        dsimp only at h
        obtain ⟨rest, hr, hLr⟩ := chainStep_suffix pts L id hull count h2 c2 hL hs
        cases is with
        | nil =>
          simp only [upperChain, Option.some.injEq, Prod.mk.injEq] at h
          refine ⟨id, rest, by rw [← h.1, hr], hLr, ?_⟩
          simpa using hi
        | cons i2 is2 =>
          have hL2 : L <:+ h2 := by
            rw [hr]
            exact hLr.trans (List.suffix_cons _ _)
          obtain ⟨top, rest2, h3, h4, h5⟩ := upperChain_top_above pts idx L (i2 :: is2) h2 c2
            hullF countF (by simp) hL2 h
          refine ⟨top, rest2, h3, h4, ?_⟩
          rw [List.getLast?_cons_cons]
          exact h5

/-- The parts of a successful run of the two passes. -/
theorem hullFrom_eq_some (pts : List QPointF) (idx vec : List ℕ) (cnt : ℤ)
    (h : hullFrom pts idx = some (vec, cnt)) :
    ∃ L c top rest, lowerChain pts idx [] 0 = some (L, c) ∧
      upperChain pts idx (L.length + 1) (List.range (pts.length - 1)).reverse L c =
        some (top :: rest, cnt) ∧ vec = rest.reverse := by
  rw [hullFrom] at h
  cases h1 : lowerChain pts idx [] 0 with
  | none => rw [h1] at h; exact absurd h (by simp)
  | some r =>
    obtain ⟨L, c⟩ := r
    rw [h1] at h
    dsimp only at h
    cases h2 : upperChain pts idx (L.length + 1) (List.range (pts.length - 1)).reverse L c with
    | none => rw [h2] at h; exact absurd h (by simp)
    | some r2 =>
      obtain ⟨hull, c2⟩ := r2
      rw [h2] at h
      cases hull with
      | nil => exact absurd h (by simp)
      | cons top rest =>
        simp only [Option.some.injEq, Prod.mk.injEq] at h
        exact ⟨L, c, top, rest, rfl, by rw [← h.2]; exact h2, h.1.symm⟩

/-- The last stack listed by `upperStates` is the stack the upper pass returns. -/
theorem upperStates_getLast (pts : List QPointF) (idx : List ℕ) (t : ℕ) :
    ∀ (is hull : List ℕ) (count : ℤ) (hullF : List ℕ) (countF : ℤ), is ≠ [] →
      upperChain pts idx t is hull count = some (hullF, countF) →
      (upperStates pts idx t is hull count).getLast? = some hullF
  | [], _, _, _, _, hne, _ => absurd rfl hne
  | i :: is, hull, count, hullF, countF, _, h => by
    rw [upperChain] at h
    rw [upperStates]
    cases hi : idx[i]? with
    | none => rw [hi] at h; exact absurd h (by simp)
    | some id =>
      rw [hi] at h
      dsimp only at h ⊢
      cases hs : chainStep pts t id hull count with
      | none => rw [hs] at h; exact absurd h (by simp)
      | some r =>
        obtain ⟨h2, c2⟩ := r
        rw [hs] at h
        dsimp only at h ⊢
        cases is with
        | nil =>
          simp only [upperChain, Option.some.injEq, Prod.mk.injEq] at h
          rw [← h.1]
          simp [upperStates]
        | cons i2 is2 =>
          have ih := upperStates_getLast pts idx t (i2 :: is2) h2 c2 hullF countF (by simp) h
          rw [List.getLast?_append, List.getLast?_cons, ih]
          rfl

theorem hullFrom_isSome_sortIdx (pts : List QPointF) (hne : pts ≠ []) :
    ∃ vec cnt, hullFrom pts (sortIdx pts (List.range pts.length)) = some (vec, cnt) := by
  obtain ⟨c1, h1⟩ := computeFastHull_isSome ⟨pts, ∅, 0⟩ hne
  obtain ⟨vec, cnt, h2, -⟩ := fastHullFrom_eq_some _ c1 _ h1
  exact ⟨vec, cnt, h2⟩

/-- C15. For `n ≥ 2`, let `L` be the stack at the end of the lower pass and
`t = |L| + 1`.  Every stack that occurs during the upper pass (after each
`pop_back` and each `push_back`) has at least `|L|` entries and has `L` as its
bottom part, unchanged; so the vector `L` (front first, `L.reverse`) is a prefix
of the final hull vertex sequence. -/
theorem upper_pass_keeps_lower (pts : List QPointF) (hn : 2 ≤ pts.length) :
    ∃ L c hullF cnt,
      lowerChain pts (sortIdx pts (List.range pts.length)) [] 0 = some (L, c) ∧
      upperChain pts (sortIdx pts (List.range pts.length)) (L.length + 1)
        (List.range (pts.length - 1)).reverse L c = some (hullF, cnt) ∧
      (upperStates pts (sortIdx pts (List.range pts.length)) (L.length + 1)
        (List.range (pts.length - 1)).reverse L c).getLast? = some hullF ∧
      (∀ h ∈ upperStates pts (sortIdx pts (List.range pts.length)) (L.length + 1)
          (List.range (pts.length - 1)).reverse L c,
        L.length ≤ h.length ∧ L <:+ h ∧ h.reverse.take L.length = L.reverse) ∧
      ∃ vec, hullFrom pts (sortIdx pts (List.range pts.length)) = some (vec, cnt) ∧
        L.reverse <+: vec := by
  have hne : pts ≠ [] := by
    rintro rfl
    simp at hn
  obtain ⟨vec, cnt, hv⟩ := hullFrom_isSome_sortIdx pts hne
  obtain ⟨L, c, top, rest, h1, h2, h3⟩ := hullFrom_eq_some pts _ vec cnt hv
  have his : (List.range (pts.length - 1)).reverse ≠ [] := by
    intro h
    have := congrArg List.length h
    simp only [List.length_reverse, List.length_range, List.length_nil] at this
    omega
  obtain ⟨top1, rest1, h4, h5, -⟩ := upperChain_top_above pts _ L _ L c _ cnt his
    (List.suffix_refl L) h2
  simp only [List.cons.injEq] at h4
  refine ⟨L, c, top :: rest, cnt, h1, h2, upperStates_getLast pts _ _ _ L c _ cnt his h2,
    ?_, vec, hv, ?_⟩
  · intro h hh
    have hs := upperStates_suffix pts _ L _ L c (List.suffix_refl L) h hh
    refine ⟨hs.length_le, hs, ?_⟩
    obtain ⟨pre, rfl⟩ := hs
    simp
  · rw [h3, h4.2]
    exact List.reverse_prefix.mpr h5

theorem upper_pass_keeps_lower_witness :
    2 ≤ colPoints.length ∧
    ∃ L c hullF cnt,
      lowerChain colPoints (sortIdx colPoints (List.range colPoints.length)) [] 0 = some (L, c) ∧
      upperChain colPoints (sortIdx colPoints (List.range colPoints.length)) (L.length + 1)
        (List.range (colPoints.length - 1)).reverse L c = some (hullF, cnt) ∧
      (upperStates colPoints (sortIdx colPoints (List.range colPoints.length)) (L.length + 1)
        (List.range (colPoints.length - 1)).reverse L c).getLast? = some hullF ∧
      (∀ h ∈ upperStates colPoints (sortIdx colPoints (List.range colPoints.length))
          (L.length + 1) (List.range (colPoints.length - 1)).reverse L c,
        L.length ≤ h.length ∧ L <:+ h ∧ h.reverse.take L.length = L.reverse) ∧
      ∃ vec, hullFrom colPoints (sortIdx colPoints (List.range colPoints.length)) =
          some (vec, cnt) ∧ L.reverse <+: vec :=
  ⟨by decide, upper_pass_keeps_lower colPoints (by decide)⟩

/-- The list `popStates` is the trace of the `while` loop: the loop returns the
last stack listed (the stack it started from when nothing is popped), and it adds
one to the counter per stack listed. -/
theorem popLoop_popStates (pts : List QPointF) (lim id : ℕ) :
    ∀ (hull : List ℕ) (c : ℤ) (hull1 : List ℕ) (count1 : ℤ),
      popLoop pts lim id hull (wrapInt c) = some (hull1, count1) →
      (popStates pts lim id hull).getLast?.getD hull = hull1 ∧
        count1 = wrapInt (c + ((popStates pts lim id hull).length : ℕ))
  | [], c, hull1, count1, h => by
    rw [popLoop] at h
    split at h
    · exact absurd h (by simp)
    · simp only [Option.some.injEq, Prod.mk.injEq] at h
      simp [popStates, h.1, h.2]
  | [b], c, hull1, count1, h => by
    rw [popLoop] at h
    rw [popStates_singleton]
    split at h
    · exact absurd h (by simp)
    · simp only [Option.some.injEq, Prod.mk.injEq] at h
      simp [h.1, h.2]
  | b :: a :: rest, c, hull1, count1, h => by
    rw [popLoop_cons_cons] at h
    rw [popStates_cons_cons]
    split at h
    · rename_i hlen
      rw [if_pos hlen]
      split at h
      · rename_i pa pb pc ha hb hc
        split at h
        · rename_i hcr
          rw [if_pos hcr]
          rw [wrapInt_succ] at h
          obtain ⟨ih1, ih2⟩ := popLoop_popStates pts lim id (a :: rest) (c + 1) hull1 count1 h
          constructor
          · cases hS : popStates pts lim id (a :: rest) with
            | nil =>
              rw [hS] at ih1
              simpa using ih1
            | cons s S =>
              rw [hS] at ih1
              rw [List.getLast?_cons_cons]
              cases hg : (s :: S).getLast? with
              | none => simp at hg
              | some g =>
                rw [hg] at ih1
                simpa using ih1
          · rw [ih2, List.length_cons]
            push_cast
            ring_nf
        · rename_i hcr
          rw [if_neg hcr]
          simp only [Option.some.injEq, Prod.mk.injEq] at h
          simp [h.1, h.2]
      · rename_i hnone
        exfalso
        exact absurd h (by simp)
    · rename_i hlen
      rw [if_neg hlen]
      simp only [Option.some.injEq, Prod.mk.injEq] at h
      simp [h.1, h.2]

/-! ## The entry removed after the upper pass, and the hull vector without repeats -/

theorem lowerChain_eq_scan (pts : List QPointF) (idx : List ℕ)
    (hb : ∀ a ∈ idx, a < pts.length) :
    ∃ c, lowerChain pts idx [] 0 = some (scan cross (pt pts) idx [], c) := by
  obtain ⟨c1, h1⟩ := chainRun_eq pts [] idx [] 0 hb (by simp)
  simp only [List.append_nil, List.length_nil, Nat.zero_add] at h1
  exact ⟨c1, by rw [lowerChain_eq_chainRun, h1]⟩

/-- A lower-chain vertex with a strict turn cannot be followed on the upper chain
by a point that all lower edges and the upper edge keep on their closed left. -/
theorem no_common_interior {a v c d : QPointF} (hvc : lexLe v c) (hdv : lexLe d v)
    (hne : d ≠ v) (hA : 0 < crossExact a v c) (hB : 0 ≤ crossExact a v d) (hC : 0 ≤ crossExact v c d)
    (hD : 0 ≤ crossExact v d c) : False := by
  unfold crossExact at hA hB hC hD
  unfold lexLe at hvc hdv
  have hD0 : (d.x - v.x) * (c.y - v.y) - (d.y - v.y) * (c.x - v.x) = 0 := by
    have : (d.x - v.x) * (c.y - v.y) - (d.y - v.y) * (c.x - v.x) =
        -((c.x - v.x) * (d.y - v.y) - (c.y - v.y) * (d.x - v.x)) := by ring
    linarith
  have hgx : 0 ≤ c.x - v.x := by
    rcases hvc with h | ⟨h, -⟩ <;> linarith
  rcases hdv with h | ⟨h1, h2⟩
  · have hpos : 0 < (v.x - d.x) * ((v.x - a.x) * (c.y - a.y) - (v.y - a.y) * (c.x - a.x)) :=
      mul_pos (by linarith) hA
    have hnn : 0 ≤ (c.x - v.x) * ((v.x - a.x) * (d.y - a.y) - (v.y - a.y) * (d.x - a.x)) :=
      mul_nonneg hgx hB
    have hid : (v.x - d.x) * ((v.x - a.x) * (c.y - a.y) - (v.y - a.y) * (c.x - a.x)) =
        -((c.x - v.x) * ((v.x - a.x) * (d.y - a.y) - (v.y - a.y) * (d.x - a.x))) -
          (v.x - a.x) * ((d.x - v.x) * (c.y - v.y) - (d.y - v.y) * (c.x - v.x)) := by ring
    rw [hD0] at hid
    linarith
  · have hy : d.y < v.y := by
      rcases lt_or_eq_of_le h2 with h | h
      · exact h
      · exact absurd (QPointF.ext h1 h) hne
    have hgx0 : c.x - v.x = 0 := by
      have h3 : (v.y - d.y) * (c.x - v.x) = 0 := by
        rw [h1] at hD0
        linear_combination hD0
      rcases mul_eq_zero.mp h3 with h | h
      · linarith
      · exact h
    have hgy : 0 ≤ c.y - v.y := by
      rcases hvc with h | ⟨-, h⟩ <;> linarith
    have hax : (v.x - a.x) * (v.y - d.y) ≤ 0 := by
      rw [h1] at hB
      nlinarith
    have hax0 : v.x - a.x ≤ 0 := by
      by_contra hcon
      push_neg at hcon
      have := mul_pos hcon (show 0 < v.y - d.y by linarith)
      linarith
    have hA2 : 0 < (v.x - a.x) * (c.y - v.y) := by
      have hcx : c.x = v.x := by linarith
      rw [hcx] at hA
      nlinarith
    have := mul_nonpos_of_nonpos_of_nonneg hax0 hgy
    linarith

/-- An entry of a list that is neither its first nor its last entry has a
neighbour on each side. -/
theorem mem_interior {l : List ℕ} {v : ℕ} (hv : v ∈ l) (hh : l.head? ≠ some v)
    (hl : l.getLast? ≠ some v) : ∃ c a, [c, v, a] <:+: l := by
  obtain ⟨s, t, rfl⟩ := List.append_of_mem hv
  rcases List.eq_nil_or_concat s with rfl | ⟨s1, c, rfl⟩
  · exact absurd rfl hh
  · cases t with
    | nil => simp at hl
    | cons a t1 =>
      refine ⟨c, a, s1, t1, ?_⟩
      simp

/-- The two chains without their top entries have no index in common and no
repeated index: the hull vector lists each of its vertices once. -/
theorem chains_nodup (P : ℕ → QPointF) (idx : List ℕ) (hnd : idx.Nodup)
    (hpw : idx.Pairwise (fun a b => lexLe (P a) (P b))) :
    ((scan crossExact P idx.reverse []).tail ++ (scan crossExact P idx []).tail).Nodup := by
  rcases idx with _ | ⟨x, rest⟩
  · simp [scan]
  rcases List.eq_nil_or_concat rest with rfl | ⟨mid, y, rfl⟩
  · simp [scan, keep]
  simp only [List.concat_eq_append] at *
  have hne : x :: (mid ++ [y]) ≠ [] := by simp
  have invL := scan_chainInv P _ hne hpw
  have invU := scan_reverse_chainInv P _ hne hpw
  have hLl := lower_left P _ hne hpw
  have hUl := upper_left P _ hne hpw
  have hL : scan crossExact P (x :: (mid ++ [y])) [] = y :: keep crossExact P y (scan crossExact P mid [x]) := by
    rw [← List.cons_append, scan_concat, scan_nil_cons]
  have hrev : (x :: (mid ++ [y])).reverse = (y :: mid.reverse) ++ [x] := by simp
  have hU : scan crossExact P (x :: (mid ++ [y])).reverse [] = x :: keep crossExact P x (scan crossExact P mid.reverse [y]) := by
    rw [hrev, scan_concat, scan_nil_cons]
  have hK : (keep crossExact P y (scan crossExact P mid [x])).getLast? = some x := by
    rw [suffix_getLast? (keep_suffix _ _ _) (keep_ne_nil _ _ _ (scan_ne_nil _ _ _ (by simp))),
      scan_getLast? _ _ _ (by simp)]
    rfl
  have hJ : (keep crossExact P x (scan crossExact P mid.reverse [y])).getLast? = some y := by
    rw [suffix_getLast? (keep_suffix _ _ _) (keep_ne_nil _ _ _ (scan_ne_nil _ _ _ (by simp))),
      scan_getLast? _ _ _ (by simp)]
    rfl
  rw [hL] at invL hLl
  rw [hU] at invU hUl
  rw [hL, hU, List.tail_cons, List.tail_cons]
  set K := keep crossExact P y (scan crossExact P mid [x]) with hKdef
  set J := keep crossExact P x (scan crossExact P mid.reverse [y]) with hJdef
  have hLnd : (y :: K).Nodup := (List.nodup_reverse.mpr hnd).sublist invL.sub
  have hUnd : (x :: J).Nodup := hnd.sublist invU.sub
  rw [List.nodup_cons] at hLnd hUnd
  rw [List.nodup_append]
  refine ⟨hUnd.2, hLnd.2, ?_⟩
  intro v hvJ hvK
  have hvx : x ≠ v := fun h => hUnd.1 (h ▸ hvJ)
  have hvy : y ≠ v := fun h => hLnd.1 (h ▸ hvK)
  have hKne : K ≠ [] := List.ne_nil_of_mem hvK
  have hJne : J ≠ [] := List.ne_nil_of_mem hvJ
  obtain ⟨c, a, hcva⟩ : ∃ c a, [c, v, a] <:+: y :: K := by
    apply mem_interior (List.mem_cons_of_mem _ hvK)
    · simpa using hvy
    · obtain ⟨k, K1, hk⟩ := List.exists_cons_of_ne_nil hKne
      rw [hk, List.getLast?_cons_cons, ← hk, hK]
      simpa using hvx
  obtain ⟨d, b, hdvb⟩ : ∃ d b, [d, v, b] <:+: x :: J := by
    apply mem_interior (List.mem_cons_of_mem _ hvJ)
    · simpa using hvx
    · obtain ⟨k, J1, hk⟩ := List.exists_cons_of_ne_nil hJne
      rw [hk, List.getLast?_cons_cons, ← hk, hJ]
      simpa using hvy
  have hcv : [c, v] <:+: y :: K := List.IsInfix.trans ⟨[], [a], rfl⟩ hcva
  have hva : [v, a] <:+: y :: K := List.IsInfix.trans ⟨[c], [], rfl⟩ hcva
  have hdv : [d, v] <:+: x :: J := List.IsInfix.trans ⟨[], [b], rfl⟩ hdvb
  have hc : c ∈ x :: (mid ++ [y]) :=
    List.mem_reverse.mp (invL.sub.subset (hcva.subset (by simp)))
  have hd : d ∈ x :: (mid ++ [y]) := invU.sub.subset (hdvb.subset (by simp))
  have h1 : 0 < crossExact (P a) (P v) (P c) := invL.convex c v a hcva
  have h2 : lexLe (P v) (P c) := invL.sorted c v hcv
  have h3 : lexLe (P d) (P v) := (lexLe_negPt _ _).mp (invU.sorted d v hdv)
  have h4 : 0 < crossExact (P b) (P v) (P d) := by
    have := invU.convex d v b hdvb
    simpa only [cross_negPt] using this
  have h5 : P d ≠ P v := by
    intro h
    rw [h, cross_self_mid] at h4
    exact lt_irrefl _ h4
  exact no_common_interior h2 h3 h5 h1 (hLl v a hva d hd) (hLl c v hcv d hd) (hUl d v hdv c hc)

theorem getLast?_reverse_range_succ (m : ℕ) : (List.range (m + 1)).reverse.getLast? = some 0 := by
  rw [List.getLast?_reverse, List.range_succ_eq_map]
  rfl

/-- C16, counterexample. On the three points written `(3.9, 3.3)`, `(6.0, 6.0)`,
`(8.1, 8.7)` both turn tests at point `1` come out positive after rounding
(`cross(p_0, p_1, p_2) > 0` in the lower pass and `cross(p_2, p_1, p_0) > 0` in
the upper pass, although the two exact values are opposite), so point `1` is kept
by both passes and the vector left after the final `pop_back` is `0, 1, 2, 1`:
it lists index `1` twice. -/
theorem driftPoints2_hull_repeats :
    2 ≤ driftPoints2.length ∧
    hullFrom driftPoints2 (sortIdx driftPoints2 (List.range driftPoints2.length)) =
      some ([0, 1, 2, 1], 2) ∧
    ¬ ([0, 1, 2, 1] : List ℕ).Nodup ∧
    0 < cross (pt driftPoints2 0) (pt driftPoints2 1) (pt driftPoints2 2) ∧
    0 < cross (pt driftPoints2 2) (pt driftPoints2 1) (pt driftPoints2 0) ∧
    crossExact (pt driftPoints2 2) (pt driftPoints2 1) (pt driftPoints2 0) =
      -crossExact (pt driftPoints2 0) (pt driftPoints2 1) (pt driftPoints2 2) := by
  refine ⟨by decide, by decide!, by decide, by decide!, by decide!, ?_⟩
  unfold crossExact
  ring

/-- C16, amended. For `n ≥ 2` the entry `top` removed by the unconditional
`pop_back` after the upper pass is the first sorted index `idx[0]`; it equals the
first entry `hull[0]` of the stack, which is the first entry of the lower chain.
When rounding changes the outcome of no test on the input (`RoundingSafe`), the
vector that remains has no repeated entry. -/
theorem final_pop_removes_first (pts : List QPointF) (hn : 2 ≤ pts.length) :
    ∃ L c top rest cnt,
      lowerChain pts (sortIdx pts (List.range pts.length)) [] 0 = some (L, c) ∧
      upperChain pts (sortIdx pts (List.range pts.length)) (L.length + 1)
        (List.range (pts.length - 1)).reverse L c = some (top :: rest, cnt) ∧
      hullFrom pts (sortIdx pts (List.range pts.length)) = some (rest.reverse, cnt) ∧
      (sortIdx pts (List.range pts.length))[0]? = some top ∧
      (top :: rest).reverse.head? = some top ∧
      L.reverse.head? = some top ∧
      (RoundingSafe pts → rest.reverse.Nodup) := by
  have hne : pts ≠ [] := by
    rintro rfl
    simp at hn
  have hs := sortIdx_sortedIdx pts
  have hb : ∀ a ∈ sortIdx pts (List.range pts.length), a < pts.length :=
    fun a ha => (hs.mem_iff a).mp ha
  obtain ⟨c0, hl⟩ := lowerChain_eq_scan pts _ hb
  obtain ⟨cnt, hv⟩ := hullFrom_eq pts _ (hs.ne_nil hne) hs.length_eq hb
  obtain ⟨L, c, top, rest, h1, h2, h3⟩ := hullFrom_eq_some pts _ _ cnt hv
  rw [hl] at h1
  simp only [Option.some.injEq, Prod.mk.injEq] at h1
  obtain ⟨hL, hc⟩ := h1
  subst hc
  have hrest : rest =
      (scan cross (pt pts) (sortIdx pts (List.range pts.length)).reverse []).tail ++
      (scan cross (pt pts) (sortIdx pts (List.range pts.length)) []).tail := by
    have := congrArg List.reverse h3
    simpa using this.symm
  have his : (List.range (pts.length - 1)).reverse ≠ [] := by
    intro h
    have := congrArg List.length h
    simp only [List.length_reverse, List.length_range, List.length_nil] at this
    omega
  obtain ⟨top1, rest1, h4, h5, h6⟩ := upperChain_top_above pts _ L _ L c0 _ cnt his
    (List.suffix_refl L) h2
  simp only [List.cons.injEq] at h4
  obtain ⟨ht, hr⟩ := h4
  subst ht
  subst hr
  have hlast : (List.range (pts.length - 1)).reverse.getLast? = some 0 := by
    obtain ⟨m, hm⟩ : ∃ m, pts.length - 1 = m + 1 := ⟨pts.length - 2, by omega⟩
    rw [hm]
    exact getLast?_reverse_range_succ m
  rw [hlast] at h6
  simp only [Option.getD_some] at h6
  have hLne : L ≠ [] := by
    rw [← hL]
    intro h
    obtain ⟨x, tl, hx⟩ := List.exists_cons_of_ne_nil (hs.ne_nil hne)
    rw [hx, scan_nil_cons] at h
    exact scan_ne_nil _ _ _ (by simp) h
  have hLlast : L.getLast? = some top := by
    rw [← hL]
    obtain ⟨x, tl, hx⟩ := List.exists_cons_of_ne_nil (hs.ne_nil hne)
    rw [hx] at h6 ⊢
    rw [scan_nil_cons, scan_getLast? _ _ _ (by simp)]
    simpa using h6
  have hrlast : rest.getLast? = some top := by
    rw [← suffix_getLast? h5 hLne]
    exact hLlast
  refine ⟨L, c0, top, rest, cnt, by rw [hl, hL], h2, ?_, h6, ?_, ?_, ?_⟩
  · rw [hv, h3]
  · rw [List.head?_reverse]
    obtain ⟨r, rs, hr⟩ : ∃ r rs, rest = r :: rs := by
      cases rest with
      | nil => simp at hrlast
      | cons r rs => exact ⟨r, rs, rfl⟩
    rw [hr, List.getLast?_cons_cons, ← hr]
    exact hrlast
  · rw [List.head?_reverse]
    exact hLlast
  · intro hsafe
    rw [List.nodup_reverse, hrest,
      scan_cross_eq_exact pts hsafe _ [] hb (by simp),
      scan_cross_eq_exact pts hsafe _ []
        (fun x hx => hb x (List.mem_reverse.mp hx)) (by simp)]
    exact chains_nodup _ _ hs.nodup hs.2

theorem final_pop_removes_first_witness :
    2 ≤ colPoints.length ∧ RoundingSafe colPoints ∧
    ∃ L c top rest cnt,
      lowerChain colPoints (sortIdx colPoints (List.range colPoints.length)) [] 0 =
        some (L, c) ∧
      upperChain colPoints (sortIdx colPoints (List.range colPoints.length)) (L.length + 1)
        (List.range (colPoints.length - 1)).reverse L c = some (top :: rest, cnt) ∧
      hullFrom colPoints (sortIdx colPoints (List.range colPoints.length)) =
        some (rest.reverse, cnt) ∧
      (sortIdx colPoints (List.range colPoints.length))[0]? = some top ∧
      (top :: rest).reverse.head? = some top ∧
      L.reverse.head? = some top ∧
      rest.reverse.Nodup := by
  have hsafe : RoundingSafe colPoints := roundingSafe_of_check colPoints (by decide!)
  obtain ⟨L, c, top, rest, cnt, h1, h2, h3, h4, h5, h6, h7⟩ :=
    final_pop_removes_first colPoints (by decide)
  exact ⟨by decide, hsafe, L, c, top, rest, cnt, h1, h2, h3, h4, h5, h6, h7 hsafe⟩

/-! ## Strict convexity of the hull vector -/

end ConvexHull
